import Mathlib

/-!
A shallow embedding of the line pipeline of tail2kafka.

The definitions below follow `src/tail2kafka.cc`.  Bytes are `Char`s, a
`std::string` is a `List Char`, raw memory reached through a `char *` is a
`List Char` that starts at the pointer, `int` is an `Int` wrapped to 32 bits
where the source computes with it, and the two `std::map`s of the aggregation
cache are association lists kept in ascending key order.  Loops that the source
does not bound take a `fuel` argument and yield `none` when it runs out.
-/

namespace Tail2Kafka

/-! ## Bytes, strings and memory -/

/-- Byte 0, the terminator of a C string. -/
def NUL : Char := Char.ofNat 0

/-- Source constant `NL`, the newline byte. -/
def NL : Char := Char.ofNat 10

/-- The space byte. -/
def SP : Char := Char.ofNat 32

/-- The double-quote byte. -/
def QUOTE : Char := Char.ofNat 34

/-- The byte `[`. -/
def LBRACKET : Char := Char.ofNat 91

/-- The backslash byte. -/
def BACKSLASH : Char := Char.ofNat 92

/-- The byte `]`. -/
def RBRACKET : Char := Char.ofNat 93

/-- Source constant `MAX_LINE_LEN`. -/
def MAX_LINE_LEN : Nat := 10240

/-- Source constant `UNSET_INT`, which is `INT_MAX`. -/
def UNSET_INT : Int := 2147483647

/-- A `std::string`: a byte sequence with an explicit length. -/
abbrev Str := List Char

/-- Memory reached through a `char *`: the bytes from the pointer onwards. -/
abbrev Mem := List Char

/-- The byte `mem[i]`; a read past the modelled memory yields `NUL`. -/
def deref (mem : Mem) (i : Nat) : Char := mem.getD i NUL

/-- The constructor `std::string(mem + pos, len)`: exactly `len` bytes. -/
def stringN (mem : Mem) (pos len : Nat) : Str := (mem.drop pos).take len

/-- The constructor `std::string(mem + pos)`: the bytes up to the first `NUL`. -/
def stringZ (mem : Mem) (pos : Nat) : Str := (mem.drop pos).takeWhile (fun c => c != NUL)

/-- The C string a `std::string` hands out through `c_str()`: cut at the first `NUL`. -/
def c_str (s : Str) : Str := s.takeWhile (fun c => c != NUL)

/-- Conversion of a mathematical integer to `size_t` (64 bits). -/
def toSizeT (x : Int) : Int := x % 18446744073709551616

/-- Conversion of a mathematical integer to `int` (32 bits, two's complement). -/
def toInt32 (x : Int) : Int := (x + 2147483648) % 4294967296 - 2147483648

/-- The call `memchr(mem, c, len)`: offset of the first `c` among the first `len` bytes. -/
def memchr : Mem → Char → Nat → Option Nat
  | _, _, 0 => none
  | [], _, _ + 1 => none
  | x :: xs, c, k + 1 => if x = c then some 0 else (memchr xs c k).map (fun p => p + 1)

/-- Overwrite `mem` from offset `at0` with `data` (a `read` into, or `memmove` onto, that place). -/
def memWrite (mem : Mem) (at0 : Nat) (data : List Char) : Mem :=
  mem.take at0 ++ data ++ mem.drop (at0 + data.length)

/-! ## split -/

/-- The local variables of `split`. -/
structure SplitState where
  esc : Bool
  want : Char
  pos : Nat
  items : List Str
deriving DecidableEq

/-- One iteration of the `for` loop of `split`, at index `i`. -/
def splitStep (line : Mem) (i : Nat) (s : SplitState) : SplitState :=
  if s.esc then { s with esc := false }
  else if deref line i = BACKSLASH then { s with esc := true }
  else if s.want = QUOTE then
    if deref line i = QUOTE then
      { s with want := NUL, items := s.items ++ [stringN line s.pos (i - s.pos)], pos := i + 1 }
    else s
  else if s.want = RBRACKET then
    if deref line i = RBRACKET then
      { s with want := NUL, items := s.items ++ [stringN line s.pos (i - s.pos)], pos := i + 1 }
    else s
  else
    if deref line i = QUOTE then { s with want := deref line i, pos := s.pos + 1 }
    else if deref line i = LBRACKET then { s with want := RBRACKET, pos := s.pos + 1 }
    else if deref line i = SP then
      { s with
        items := if i ≠ s.pos then s.items ++ [stringN line s.pos (i - s.pos)] else s.items,
        pos := i + 1 }
    else s

/-- The `for` loop of `split`: `k` iterations starting at index `i`. -/
def splitLoop (line : Mem) : Nat → Nat → SplitState → SplitState
  | 0, _, s => s
  | k + 1, i, s => splitLoop line k (i + 1) (splitStep line i s)

/-- The last statement of `split`: the trailing token is built by
`std::string(line + pos)`, which takes no length. -/
def splitFinish (line : Mem) (nline : Nat) (s : SplitState) : List Str :=
  if s.pos ≠ nline then s.items ++ [stringZ line s.pos] else s.items

/-- Function `split(line, nline, items)`; the result is the new content of `items`. -/
def split (line : Mem) (nline : Nat) (items : List Str) : List Str :=
  splitFinish line nline
    (splitLoop line nline 0 { esc := false, want := NUL, pos := 0, items := items })

/-! ## Contexts and the scripted callbacks -/

/-- What `transform` observes of its Lua callback through the C API. -/
inductive TransformRet where
  /-- The call `lua_pcall` failed. -/
  | error
  /-- The callback returned nil (`lua_isnil`). -/
  | nil
  /-- The value passes `lua_isstring` and `lua_tostring` hands out the C string `s`. -/
  | str (s : Str)
  /-- The value is neither nil nor accepted by `lua_isstring`. -/
  | other

/-- One element of the table a `grep` callback returned, as `grep` reads it. -/
inductive GrepItem where
  /-- The element passes `lua_isstring` or `lua_isnumber`; `lua_tostring` hands out `s`. -/
  | str (s : Str)
  /-- The element is of another type. -/
  | bad

/-- What `grep` observes of its Lua callback through the C API. -/
inductive GrepRet where
  /-- The call `lua_pcall` failed. -/
  | error
  /-- The callback returned nil. -/
  | nil
  /-- The callback returned something that is not a table. -/
  | notTable
  /-- The callback returned a table; its elements `1..luaL_getn` are listed. -/
  | table (items : List GrepItem)

/-- One entry of the table an `aggregate` callback returned, in `lua_next` order:
`some (key, value)` is a string key with a number, `value` being the `int` the
source stores; `none` is an entry of a wrong type. -/
abbrev AggEntry := Option (Str × Int)

/-- What `aggregate` observes of its Lua callback through the C API. -/
inductive AggRet where
  /-- The call `lua_pcall` failed. -/
  | error
  /-- Return value 1 is not a string. -/
  | badKey
  /-- Return value 1 is the string `pkey`, return value 2 is not a table. -/
  | badTable (pkey : Str)
  /-- Return value 1 is the string `pkey`, return value 2 a table with these entries. -/
  | ret (pkey : Str) (entries : List AggEntry)

/-- Type `SIHash`, a `std::map<std::string, int>`: entries in ascending key order. -/
abbrev SIHash := List (Str × Int)

/-- Type `SSIHash`, a `std::map<std::string, SIHash>`: entries in ascending key order. -/
abbrev SSIHash := List (Str × SIHash)

/-- The part of `CnfCtx` the line pipeline reads. -/
structure CnfCtx where
  host : Str
  sn : Nat

/-- Struct `LuaCtx`.  A function pointer `transform`, `grep` or `aggregate` is
non-null exactly when the Lua global of that name is a function, so each pair is
one optional callback; `filter` is the flag that the pointer is set.  `off` is the
read position of the descriptor `fd`. -/
structure LuaCtx where
  idx : Nat
  main : CnfCtx
  off : Nat
  size : Nat
  autosplit : Bool
  withhost : Bool
  withtime : Bool
  timeidx : Int
  transform : Option (Str → TransformRet)
  grep : Option (List Str → GrepRet)
  lasttime : Str
  cache : SSIHash
  aggregate : Option (List Str → AggRet)
  filters : List Int
  filter : Bool
  buffer : Mem
  npos : Nat
  sn : Nat

/-- Struct `OneTaskReq`: one request written to the pipe `main->server`. -/
structure OneTaskReq where
  idx : Nat
  datas : List Str
deriving DecidableEq

/-! ## transform and grep -/

/-- Function `transform(ctx, line, nline, result)`; returns the boolean and the new
`*result`.  The callback gets `nline` bytes through `lua_pushlstring`. -/
def transform (ctx : LuaCtx) (line : Mem) (nline : Nat) (result : Str) : Bool × Str :=
  match ctx.transform with
  | none => (false, result)
  | some cb =>
    match cb (stringN line 0 nline) with
    | TransformRet.error => (false, result)
    | TransformRet.nil => (true, [])
    | TransformRet.other => (false, result)
    | TransformRet.str s =>
      let r := if ctx.withhost then ctx.main.host ++ [SP] else []
      (true, r ++ s)

/-- The `for` loop of `grep` over the returned table. -/
def grepLoop : List GrepItem → Str → Bool × Str
  | [], result => (true, result)
  | item :: rest, result =>
    let r := if result ≠ [] then result ++ [SP] else result
    match item with
    | GrepItem.bad => (false, r)
    | GrepItem.str s => grepLoop rest (r ++ s)

/-- Function `grep(ctx, fields, result)`; the fields reach Lua through `lua_pushstring`. -/
def grep (ctx : LuaCtx) (fields : List Str) (result : Str) : Bool × Str :=
  match ctx.grep with
  | none => (false, result)
  | some cb =>
    match cb (fields.map c_str) with
    | GrepRet.error => (false, result)
    | GrepRet.nil => (true, [])
    | GrepRet.notTable => (false, result)
    | GrepRet.table items =>
      if items.length = 0 then (false, result)
      else grepLoop items (if ctx.withhost then ctx.main.host else [])

/-! ## absidx, to_string and the aggregation cache -/

/-- Function `absidx(idx, total)`: `none` is the failed `assert(total != 0)`.  Both
branches of the conditional are computed in `size_t` and returned as `int`. -/
def absidx (idx : Int) (total : Nat) : Option Int :=
  if total = 0 then none
  else some (toInt32 (toSizeT (if idx > 0 then idx - 1 else (total : Int) + idx)))

/-- The `do ... while (i)` loop of `to_string`; `%` and `/` truncate towards zero. -/
def to_stringLoop : Nat → Int → Str → Str
  | 0, _, s => s
  | fuel + 1, i, s =>
    let s1 := s ++ [Char.ofNat (Int.toNat (Int.tmod i 10 + 48))]
    let i1 := Int.tdiv i 10
    if i1 ≠ 0 then to_stringLoop fuel i1 s1 else s1

/-- Function `to_string(i)`; the loop runs at most once per decimal digit of `i`. -/
def to_string (i : Int) : Str := (to_stringLoop (i.natAbs + 1) i []).reverse

/-- The order of `std::string` keys: lexicographic by byte. -/
def strLt : Str → Str → Bool
  | [], [] => false
  | [], _ :: _ => true
  | _ :: _, [] => false
  | a :: as, b :: bs => if a < b then true else if b < a then false else strLt as bs

/-- The statement `m[k] = f(m[k])` on a `std::map`: `operator[]` inserts the default
value `dflt` when `k` is absent. -/
def mapUpdate {V : Type} (k : Str) (f : V → V) (dflt : V) : List (Str × V) → List (Str × V)
  | [] => [(k, f dflt)]
  | (k0, v0) :: rest =>
    if k = k0 then (k0, f v0) :: rest
    else if strLt k k0 then (k, f dflt) :: (k0, v0) :: rest
    else (k0, v0) :: mapUpdate k f dflt rest

/-- The statement `ctx->cache[pkey][key] += value`. -/
def cacheAdd (cache : SSIHash) (pkey key : Str) (value : Int) : SSIHash :=
  mapUpdate pkey (fun inner => mapUpdate key (fun v => toInt32 (v + value)) 0 inner) [] cache

/-- The text `serializeCache` writes for the counters of one primary key. -/
def serializeEntries : SIHash → Str
  | [] => []
  | (k, v) :: rest => [SP] ++ k ++ [Char.ofNat 61] ++ to_string v ++ serializeEntries rest

/-- The record `serializeCache` builds for one primary key. -/
def serializeOne (ctx : LuaCtx) (pkey : Str) (inner : SIHash) : Str :=
  (if ctx.withhost then ctx.main.host ++ [SP] else []) ++
  (if ctx.withtime then ctx.lasttime ++ [SP] else []) ++
  pkey ++ serializeEntries inner

/-- Function `serializeCache(ctx, results)`; the result is the new content of `results`. -/
def serializeCache (ctx : LuaCtx) (results : List Str) : List Str :=
  results ++ ctx.cache.map (fun e => serializeOne ctx e.1 e.2)

/-- The `while (lua_next ...)` loop of `aggregate` over the returned table. -/
def aggregateLoop (pkey : Str) : List AggEntry → SSIHash → Bool × SSIHash
  | [], cache => (true, cache)
  | none :: _, cache => (false, cache)
  | some (key, value) :: rest, cache => aggregateLoop pkey rest (cacheAdd cache pkey key value)

/-- The element `fields[i]` for an `int` index; out of range is undefined, hence `none`. -/
def fieldAt (fields : List Str) (i : Int) : Option Str :=
  if i < 0 then none else fields.get? i.toNat

/-- Function `aggregate(ctx, fields, results)`; returns the boolean, the context and
the new `results`, or `none` where `absidx` aborts or the index is out of range. -/
def aggregate (ctx : LuaCtx) (fields : List Str) (results : List Str) :
    Option (Bool × LuaCtx × List Str) :=
  match absidx ctx.timeidx fields.length with
  | none => none
  | some i =>
    match fieldAt fields i with
    | none => none
    | some curtime =>
      let flush := ctx.lasttime ≠ [] ∧ curtime ≠ ctx.lasttime
      let results1 := if flush then serializeCache ctx results else results
      let ctx1 := if flush then { ctx with cache := [] } else ctx
      let ctx2 := { ctx1 with lasttime := curtime }
      match ctx2.aggregate with
      | none => some (false, ctx2, results1)
      | some cb =>
        match cb (fields.map c_str) with
        | AggRet.error => some (false, ctx2, results1)
        | AggRet.badKey => some (false, ctx2, results1)
        | AggRet.badTable _ => some (false, ctx2, results1)
        | AggRet.ret pkey entries =>
          let r := aggregateLoop pkey entries ctx2.cache
          some (r.1, { ctx2 with cache := r.2 }, results1)

/-! ## filter -/

/-- The `for` loop of `filter` over `ctx->filters`; `none` is the abort in `absidx`. -/
def filterLoop (fields : List Str) : List Int → Str → Option (Bool × Str)
  | [], result => some (true, result)
  | f :: rest, result =>
    match absidx f fields.length with
    | none => none
    | some i =>
      if i < 0 ∨ fields.length ≤ i.toNat then some (false, result)
      else
        filterLoop fields rest
          ((if result ≠ [] then result ++ [SP] else result) ++ fields.getD i.toNat [])

/-- Function `filter(ctx, fields, result)`. -/
def filter (ctx : LuaCtx) (fields : List Str) (_result : Str) : Option (Bool × Str) :=
  filterLoop fields ctx.filters (if ctx.withhost then ctx.main.host else [])

/-! ## iso8601 -/

/-- The local enumeration of `iso8601`. -/
inductive IsoStatus where
  | WaitYear | WaitMonth | WaitDay | WaitHour | WaitMin | WaitSec
deriving DecidableEq

/-- The local variables of `iso8601` that the loop changes. -/
structure IsoState where
  status : IsoStatus
  year : Int
  mon : Int
  day : Int
  hour : Int
  min : Int
  sec : Int
deriving DecidableEq

/-- Source table `MonthAlpha`. -/
def MonthAlpha : List Str :=
  ["Jan".toList, "Feb".toList, "Mar".toList, "Apr".toList, "May".toList, "Jun".toList,
   "Jul".toList, "Aug".toList, "Sep".toList, "Oct".toList, "Nov".toList, "Dec".toList]

/-- The inner `for` loop of `iso8601`: the first `i` with `strcmp(p, MonthAlpha[i]) == 0`,
counting from `i`. -/
def monthLoop (rest : Str) : List Str → Nat → Option Nat
  | [], _ => none
  | m :: ms, i => if rest = m then some i else monthLoop rest ms (i + 1)

/-- One run of the body of `while (*p)` in `iso8601` with `p` at offset `p` of `t`;
`none` is `return false`.  No branch of the body moves `p`. -/
def iso8601Body (t : Str) (p : Nat) (s : IsoState) : Option IsoState :=
  let c := deref t p
  if c = Char.ofNat 47 then
    if s.status = IsoStatus.WaitDay then some { s with status := IsoStatus.WaitMonth }
    else if s.status = IsoStatus.WaitMonth then some { s with status := IsoStatus.WaitYear }
    else none
  else if c = Char.ofNat 58 then
    if s.status = IsoStatus.WaitYear then some { s with status := IsoStatus.WaitHour }
    else if s.status = IsoStatus.WaitHour then some { s with status := IsoStatus.WaitMin }
    else if s.status = IsoStatus.WaitMin then some { s with status := IsoStatus.WaitSec }
    else none
  else if 48 ≤ c.toNat ∧ c.toNat ≤ 57 then
    let n : Int := (c.toNat : Int) - 48
    if s.status = IsoStatus.WaitYear then some { s with year := toInt32 (s.year * 10 + n) }
    else if s.status = IsoStatus.WaitDay then some { s with day := toInt32 (s.day * 10 + n) }
    else if s.status = IsoStatus.WaitHour then some { s with hour := toInt32 (s.hour * 10 + n) }
    else if s.status = IsoStatus.WaitMin then some { s with min := toInt32 (s.min * 10 + n) }
    else if s.status = IsoStatus.WaitSec then some { s with sec := toInt32 (s.sec * 10 + n) }
    else none
  else if s.status = IsoStatus.WaitMonth then
    match monthLoop (stringZ t p) MonthAlpha 0 with
    | some i => some { s with mon := (i : Int) }
    | none => some s
  else none

/-- The loop `while (*p) { ... }` of `iso8601`: `none` when the fuel runs out,
`some none` for `return false`, `some (some s)` when `*p` is `NUL`. -/
def iso8601Loop (t : Str) : Nat → Nat → IsoState → Option (Option IsoState)
  | 0, _, _ => none
  | fuel + 1, p, s =>
    if deref t p = NUL then some (some s)
    else
      match iso8601Body t p s with
      | none => some none
      | some s1 => iso8601Loop t fuel p s1

/-- The conversion `%0wd` of `sprintf`. -/
def fmtInt (w : Nat) (v : Int) : Str :=
  let digits := Nat.toDigits 10 v.natAbs
  if v < 0 then
    [Char.ofNat 45] ++ List.replicate (w - 1 - digits.length) (Char.ofNat 48) ++ digits
  else List.replicate (w - digits.length) (Char.ofNat 48) ++ digits

/-- The text `sprintf` writes for `"%04d-%02d-%02dT%02d:%02d:%02d"`. -/
def isoFormat (s : IsoState) : Str :=
  fmtInt 4 s.year ++ [Char.ofNat 45] ++ fmtInt 2 s.mon ++ [Char.ofNat 45] ++ fmtInt 2 s.day ++
  [Char.ofNat 84] ++ fmtInt 2 s.hour ++ [Char.ofNat 58] ++ fmtInt 2 s.min ++ [Char.ofNat 58] ++
  fmtInt 2 s.sec

/-- Function `iso8601(t, iso)`; returns the boolean and the new `*iso`, `none` when the
loop never ends within `fuel` iterations.  The string is resized to 20 bytes and
`sprintf` writes its text and a `NUL` there; a longer text overruns it. -/
def iso8601 (fuel : Nat) (t : Str) (iso : Str) : Option (Bool × Str) :=
  match iso8601Loop t fuel 0
      { status := IsoStatus.WaitDay, year := 0, mon := 0, day := 0, hour := 0, min := 0,
        sec := 0 } with
  | none => none
  | some none => some (false, iso)
  | some (some s) => if (isoFormat s).length = 19 then some (true, isoFormat s ++ [NUL]) else none

/-! ## processLine and tail2kafka -/

/-- The end of `processLine`: keep a non-empty `data`, write one request when there is
something to send, return `rc`. -/
def processLineEnd (ctx : LuaCtx) (rc : Option Bool) (data : Option Str) (datas : List Str) :
    Option Bool × LuaCtx × List OneTaskReq :=
  let datas1 :=
    match data with
    | some d => if d ≠ [] then datas ++ [d] else datas
    | none => datas
  (rc, ctx, if datas1 = [] then [] else [{ idx := ctx.idx, datas := datas1 }])

/-- The block `if (ctx->timeidx != UNSET_INT)` of `processLine`: `none` when `absidx`
aborts or `iso8601` never returns, `some none` for `return false`, else the fields.
The boolean `iso8601` returns is not looked at. -/
def processLineTime (fuel : Nat) (ctx : LuaCtx) (fields : List Str) :
    Option (Option (List Str)) :=
  if ctx.timeidx ≠ UNSET_INT then
    match absidx ctx.timeidx fields.length with
    | none => none
    | some i =>
      if i < 0 ∨ fields.length ≤ i.toNat then some none
      else
        match iso8601 fuel (fields.getD i.toNat []) (fields.getD i.toNat []) with
        | none => none
        | some r => some (some (fields.set i.toNat r.2))
  else some (some fields)

/-- Function `processLine(ctx, line, nline)` for `nline ≥ 1`; returns `rc` (`none` where the
source leaves it uninitialised), the context and the requests written to the pipe. -/
def processLine (fuel : Nat) (ctx : LuaCtx) (line : Mem) (nline : Nat) :
    Option (Option Bool × LuaCtx × List OneTaskReq) :=
  if ctx.transform.isSome then
    let r := transform ctx line (nline - 1) []
    some (processLineEnd ctx (some r.1) (some r.2) [])
  else if ctx.aggregate.isSome ∨ ctx.filter then
    match processLineTime fuel ctx (split line (nline - 1) []) with
    | none => none
    | some none => some (some false, ctx, [])
    | some (some fields) =>
      if ctx.aggregate.isSome then
        match aggregate ctx fields [] with
        | none => none
        | some r => some (processLineEnd r.2.1 (some r.1) none r.2.2)
      else
        match filter ctx fields [] with
        | none => none
        | some r => some (processLineEnd ctx (some r.1) (some r.2) [])
  else some (processLineEnd ctx none (some (stringN line 0 nline)) [])

/-- The inner loop of `tail2kafka`, `while ((pos = memchr(buffer + n, NL, npos - n)))`,
from offset `n`; returns the context, the final `n` and the requests written. -/
def scanLoop : Nat → LuaCtx → Nat → List OneTaskReq → Option (LuaCtx × Nat × List OneTaskReq)
  | 0, _, _, _ => none
  | fuel + 1, ctx, n, out =>
    match memchr (ctx.buffer.drop n) NL (ctx.npos - n) with
    | none => some (ctx, n, out)
    | some p =>
      match processLine fuel ctx (ctx.buffer.drop n) (p + 1) with
      | none => none
      | some r =>
        if n + p + 1 = r.2.1.npos then some (r.2.1, n + p + 1, out ++ r.2.2)
        else scanLoop fuel r.2.1 (n + p + 1) (out ++ r.2.2)

/-- The end of one round of the outer loop of `tail2kafka`: move the residue to the
head of the buffer. -/
def compact (ctx : LuaCtx) (n : Nat) : LuaCtx :=
  if ctx.npos > n then
    { ctx with
      npos := ctx.npos - n,
      buffer := memWrite ctx.buffer 0 (stringN ctx.buffer n (ctx.npos - n)) }
  else { ctx with npos := 0 }

/-- The `read` of `tail2kafka` on the file content `file`: up to
`min(size - off, MAX_LINE_LEN - npos)` bytes go to `buffer + npos`, and `off` and `npos`
advance by the count read; `read` on the regular file delivers the bytes asked for. -/
def readInto (file : List Char) (ctx : LuaCtx) : LuaCtx :=
  let data := stringN file ctx.off (min (ctx.size - ctx.off) (MAX_LINE_LEN - ctx.npos))
  { ctx with
    buffer := memWrite ctx.buffer ctx.npos data,
    off := ctx.off + data.length,
    npos := ctx.npos + data.length }

/-- The outer loop of `tail2kafka`, `while (off < ctx->size)`, over the file content
`file`. -/
def tailLoop (file : List Char) : Nat → LuaCtx → List OneTaskReq →
    Option (LuaCtx × List OneTaskReq)
  | 0, _, _ => none
  | fuel + 1, ctx, out =>
    if ctx.off < ctx.size then
      match scanLoop fuel (readInto file ctx) 0 out with
      | none => none
      | some r => tailLoop file fuel (compact r.1 r.2.1) r.2.2
    else some (ctx, out)

/-- Function `tail2kafka(ctx)` on a descriptor whose file holds `file`; `fstat` and
`lseek` succeed.  Returns the context and the requests written to the pipe. -/
def tail2kafka (fuel : Nat) (file : List Char) (ctx : LuaCtx) :
    Option (LuaCtx × List OneTaskReq) :=
  tailLoop file fuel { ctx with size := file.length } []

/-- Successive calls of `tail2kafka`, one after each chunk appended to the file. -/
def tailChunks (fuel : Nat) : List Char → LuaCtx → List (List Char) →
    Option (LuaCtx × List OneTaskReq)
  | _, ctx, [] => some (ctx, [])
  | file, ctx, chunk :: chunks =>
    match tail2kafka fuel (file ++ chunk) ctx with
    | none => none
    | some r =>
      match tailChunks fuel (file ++ chunk) r.1 chunks with
      | none => none
      | some r2 => some (r2.1, r.2 ++ r2.2)

/-- The payloads of a list of requests, in order. -/
def payloads (reqs : List OneTaskReq) : List Str := (reqs.map (fun r => r.datas)).flatten


/-! ## The field-splitting rule of the specification -/

/-- A piece of a line, as the field-splitting rule of the specification reads it. -/
inductive Piece where
  /-- One separating space. -/
  | space
  /-- A maximal run of non-space bytes outside groups. -/
  | word (w : Str)
  /-- A group: `bracket` tells `[...]` from a double-quoted one; `body` stands between
  the delimiters. -/
  | group (bracket : Bool) (body : Str)
deriving DecidableEq

/-- The byte that opens a group. -/
def opener (bracket : Bool) : Char := if bracket then LBRACKET else QUOTE

/-- The byte that closes a group. -/
def closer (bracket : Bool) : Char := if bracket then RBRACKET else QUOTE

/-- The bytes of a piece in the line. -/
def Piece.render : Piece → Str
  | Piece.space => [SP]
  | Piece.word w => w
  | Piece.group b body => opener b :: (body ++ [closer b])

/-- The line made of the pieces `ps`. -/
def renderLine (ps : List Piece) : Str := (ps.map Piece.render).flatten

/-- The token the specification assigns to a piece: none for a space, the run itself
for a word, the bytes strictly between the delimiters for a group. -/
def Piece.token : Piece → Option Str
  | Piece.space => none
  | Piece.word w => some w
  | Piece.group _ body => some body

/-- The tokens the specification assigns to a line, in order. -/
def tokens (ps : List Piece) : List Str := ps.filterMap Piece.token

/-- A byte that may stand in a word: no space, no group opener, no backslash, no `NUL`. -/
def wordByte (c : Char) : Bool :=
  c != SP && c != QUOTE && c != LBRACKET && c != BACKSLASH && c != NUL

/-- A byte that may stand inside a group closed by `cl`: not `cl`, no backslash, no `NUL`. -/
def bodyByte (cl : Char) (c : Char) : Bool := c != cl && c != BACKSLASH && c != NUL

/-- A piece is well formed: a word is a non-empty run of word bytes, a group body holds
neither its closing delimiter nor a backslash. -/
def Piece.ok : Piece → Bool
  | Piece.space => true
  | Piece.word w => w != [] && w.all wordByte
  | Piece.group b body => body.all (bodyByte (closer b))

/-- Whether the piece is a word. -/
def Piece.isWord : Piece → Bool
  | Piece.word _ => true
  | _ => false

/-- Whether a word may stand before the pieces `ps`: the line ends or a space follows
(words are maximal, and a delimiter after a word byte would open a group that does not
start a token). -/
def wordEnds : List Piece → Bool
  | [] => true
  | Piece.space :: _ => true
  | _ :: _ => false

/-- A line is well formed: every piece is, and every word ends at a space or at the end
of the line, so every group opens at the start of a token. -/
def wellFormed : List Piece → Bool
  | [] => true
  | p :: ps => p.ok && (!p.isWord || wordEnds ps) && wellFormed ps


/-- The line of `test_split`, without terminator. -/
def testLine : Str := "hello \"1 [] 2\"[world] [] [\"\"]  bj".toList

/-- The line of `test_split` read as pieces. -/
def testPieces : List Piece :=
  [Piece.word "hello".toList, Piece.space, Piece.group false "1 [] 2".toList,
   Piece.group true "world".toList, Piece.space, Piece.group true [], Piece.space,
   Piece.group true "\"\"".toList, Piece.space, Piece.space, Piece.word "bj".toList]

/-! ## The field selection of the specification -/

/-- The field a selector `s` names in `F`: a positive `s` is the `s`-th field counted
from 1, a negative `s` counts from the end, `-1` being the last field. -/
def selectField (F : List Str) (s : Int) : Str :=
  if s > 0 then F.getD (s.toNat - 1) [] else F.getD (F.length - (-s).toNat) []

/-- Strings joined by single spaces. -/
def joinSP : List Str → Str
  | [] => []
  | [x] => x
  | x :: y :: rest => x ++ SP :: joinSP (y :: rest)

/-! ## The constructor and the contexts of the unit tests -/

/-- Constructor `LuaCtx::LuaCtx()`, for a context of `main`; the bytes of the fresh
buffer, which the source leaves uninitialised, are taken to be `NUL`. -/
def LuaCtx.new (main : CnfCtx) : LuaCtx :=
  { idx := 0, main := main, off := 0, size := 0, autosplit := false, withhost := true,
    withtime := true, timeidx := UNSET_INT, transform := none, grep := none, lasttime := [],
    cache := [], aggregate := none, filters := [], filter := false,
    buffer := List.replicate MAX_LINE_LEN NUL, npos := 0, sn := 0 }

/-- A main context with a host name, as `loadCnf` yields one. -/
def testMain : CnfCtx := { host := "zzyong.paas.user.vm".toList, sn := 0 }

/-- The nine fields of `test_filter` and `test_grep`. -/
def testFields : List Str :=
  ["-".toList, "-".toList, "-".toList, "2015-04-02T12:05:05".toList, "GET / HTTP/1.0".toList,
   "200".toList, "-".toList, "-".toList, "95555".toList]

/-- The context of `test_filter`: `filter = {4, 5, 6, -1}` and `timeidx = 4`. -/
def filterCtx : LuaCtx :=
  { LuaCtx.new testMain with filters := [4, 5, 6, -1], filter := true, timeidx := 4 }

/-- A `transform` callback like the one of `transform.lua`: an `[error]` line is
returned as it is, any other line gives nil. -/
def testTransform (line : Str) : TransformRet :=
  if "[error]".toList.isPrefixOf line then TransformRet.str line else TransformRet.nil

/-- The context of `test_transform`. -/
def transformCtx : LuaCtx := { LuaCtx.new testMain with transform := some testTransform }

/-- A context whose only pipeline is `grep`, with a callback that returns nil for
every line. -/
def grepNilCtx : LuaCtx := { LuaCtx.new testMain with grep := some (fun _ => GrepRet.nil) }

/-- A `filter` context with `filter = {1}` and `timeidx = 1`. -/
def timeFilterCtx : LuaCtx :=
  { LuaCtx.new testMain with filters := [1], filter := true, timeidx := 1 }

/-- An `aggregate` context with `timeidx = 1` whose callback returns the primary key
`pk` and the table `{k = -5}` for every line. -/
def negativeCtx : LuaCtx :=
  { LuaCtx.new testMain with
    timeidx := 1,
    aggregate := some (fun _ => AggRet.ret "pk".toList [some ("k".toList, -5)]) }

/-- An `aggregate` callback like the one of `aggregate.lua`, on the three lines of
`test_aggregate`: primary key is field 16, and the table counts the status, the size and
the request time class. -/
def testAggregate (fields : List Str) : AggRet :=
  if fields.getD 9 [] = "230".toList then
    AggRet.ret (fields.getD 15 [])
      [some ("size".toList, 230), some ("status_200".toList, 1), some ("reqt<0.1".toList, 1)]
  else if fields.getD 9 [] = "270".toList then
    AggRet.ret (fields.getD 15 [])
      [some ("reqt<0.3".toList, 1), some ("size".toList, 270), some ("status_200".toList, 1)]
  else
    AggRet.ret (fields.getD 15 [])
      [some ("status_404".toList, 1), some ("size".toList, 250), some ("reqt<0.3".toList, 1)]

/-- The context of `test_aggregate`, with `timeidx = 4`. -/
def aggregateCtx : LuaCtx :=
  { LuaCtx.new testMain with timeidx := 4, aggregate := some testAggregate }

/-- The three field lists of `test_aggregate`. -/
def aggFields (time status size reqt pkey : String) : List Str :=
  ["-".toList, "-".toList, "-".toList, time.toList, "-".toList, "-".toList, "-".toList,
   "-".toList, status.toList, size.toList, reqt.toList, "-".toList, "-".toList, "-".toList,
   "-".toList, pkey.toList]

/-- Calls of `aggregate` on successive field lists, threading context and results. -/
def aggregateAll : List (List Str) → LuaCtx → List Str → Option (LuaCtx × List Str)
  | [], ctx, results => some (ctx, results)
  | f :: fs, ctx, results =>
    match aggregate ctx f results with
    | none => none
    | some r => aggregateAll fs r.2.1 r.2.2

/-! ## The cache updates of the aggregate pipeline -/

/-- The time-key of a field list, `fields[absidx(timeidx, fields.size())]`. -/
def timeKey (timeidx : Int) (fields : List Str) : Option Str :=
  match absidx timeidx fields.length with
  | none => none
  | some i => fieldAt fields i

/-- One statement `cache[pkey][key] += value`, as the triple `(pkey, key, value)`. -/
abbrev Update := Str × Str × Int

/-- The effect of one update on the cache. -/
def applyUpdate (cache : SSIHash) (u : Update) : SSIHash := cacheAdd cache u.1 u.2.1 u.2.2

/-- The entries `aggregateLoop` reaches: those before the first ill-typed one. -/
def goodEntries : List AggEntry → List (Str × Int)
  | [] => []
  | none :: _ => []
  | some e :: rest => e :: goodEntries rest

/-- The updates one line causes, in the order `aggregate` applies them. -/
def lineUpdates (cb : Option (List Str → AggRet)) (fields : List Str) : List Update :=
  match cb with
  | none => []
  | some f =>
    match f (fields.map c_str) with
    | AggRet.ret pkey entries => (goodEntries entries).map (fun e => (pkey, e.1, e.2))
    | _ => []

/-- The value `m[k]` of a `std::map` read without inserting: `dflt` when `k` is absent. -/
def mapGet {V : Type} (k : Str) (dflt : V) : List (Str × V) → V
  | [] => dflt
  | (k0, v0) :: rest => if k = k0 then v0 else mapGet k dflt rest

/-- The counter `cache[pkey][key]`, 0 when absent. -/
def cacheGet (cache : SSIHash) (pkey key : Str) : Int := mapGet key 0 (mapGet pkey [] cache)

/-- The keys of a `std::map` stand in strictly ascending order. -/
def keysAscending {V : Type} (m : List (Str × V)) : Prop :=
  List.Pairwise (fun a b => strLt a.1 b.1 = true) m

/-- The representation invariant of the cache: both levels are `std::map`s. -/
def cacheOrdered (cache : SSIHash) : Prop :=
  keysAscending cache ∧ ∀ e ∈ cache, keysAscending e.2

/-- The sum, in 32-bit arithmetic and in order, of `v` and the deltas that the updates
`us` hold for the counter `(pkey, key)`. -/
def sumDeltas (pkey key : Str) : List Update → Int → Int
  | [], v => v
  | u :: us, v =>
    sumDeltas pkey key us (if u.1 = pkey ∧ u.2.1 = key then toInt32 (v + u.2.2) else v)

/-! ## The raw pipeline and the line bound -/

/-- The raw pipeline: no `transform`, no `aggregate`, no `filter`. -/
def isRaw (ctx : LuaCtx) : Prop :=
  ctx.transform = none ∧ ctx.aggregate = none ∧ ctx.filter = false

/-- A line with its newline: bytes without a newline, then one newline. -/
def isLine (l : Str) : Prop := ∃ b : Str, l = b ++ [NL] ∧ NL ∉ b

/-- Every line of `content`, its newline included, has at most `MAX_LINE_LEN` bytes, the
unterminated bytes after the last newline counting as the start of a line: every piece of
`content` without a newline is shorter than `MAX_LINE_LEN`. -/
def boundedLines (content : List Char) : Prop :=
  ∀ pre seg post : List Char, content = pre ++ seg ++ post → NL ∉ seg →
    seg.length < MAX_LINE_LEN

/-- The request `processLine` writes for one raw line. -/
def rawReq (ctx : LuaCtx) (l : Str) : OneTaskReq := { idx := ctx.idx, datas := [l] }

/-- The context of `test_watchInit` after `lineAlign` on the content `12\n456`: the
residue `456` in the buffer and the descriptor at offset 6. -/
def watchCtx : LuaCtx :=
  { LuaCtx.new testMain with
    buffer := "456".toList ++ List.replicate 10237 NUL, npos := 3, off := 6, size := 6 }

/-! ## lineAlign, flushCache and the event loop of watchLoop -/

/-- The call `memrchr(mem, c, len)`: offset of the last `c` among the first `len` bytes. -/
def memrchr (mem : Mem) (c : Char) : Nat → Option Nat
  | 0 => none
  | k + 1 => if deref mem k = c then some k else memrchr mem c k

/-- Function `lineAlign(ctx)` on a descriptor whose file holds `file`, with `ctx->size` set
by the caller; `read` after the `lseek` delivers the bytes there are, up to
`MAX_LINE_LEN`.  Returns the boolean and the context. -/
def lineAlign (file : List Char) (ctx : LuaCtx) : Bool × LuaCtx :=
  if ctx.size = 0 then (true, ctx)
  else
    let data := stringN file (ctx.size - min ctx.size MAX_LINE_LEN) MAX_LINE_LEN
    let ctx1 :=
      { ctx with
        buffer := memWrite ctx.buffer 0 data,
        off := ctx.size - min ctx.size MAX_LINE_LEN + data.length }
    if data.length ≠ min ctx.size MAX_LINE_LEN then (false, ctx1)
    else
      match memrchr ctx1.buffer NL (min ctx.size MAX_LINE_LEN) with
      | none => (false, ctx1)
      | some pos =>
        (true,
          { ctx1 with
            npos := min ctx.size MAX_LINE_LEN - (pos + 1),
            buffer := memWrite ctx1.buffer 0
              (stringN ctx1.buffer (pos + 1) (min ctx.size MAX_LINE_LEN - (pos + 1))) })

/-- The body of the loop of `flushCache` for one context, with `sn` the counter `ctx->sn`
of the main context (`uint64_t` arithmetic): the context afterwards and the requests
written. -/
def flushOne (sn : Nat) (timeout : Bool) (lctx : LuaCtx) : LuaCtx × List OneTaskReq :=
  if lctx.cache = [] then (lctx, [])
  else if timeout = true ∨ (lctx.sn + 1000) % 18446744073709551616 < sn then
    ({ lctx with sn := sn }, [{ idx := lctx.idx, datas := serializeCache lctx [] }])
  else (lctx, [])

/-- Function `flushCache(ctx, timeout)` over the contexts `ctx->luaCtxs`, with `sn` the
counter `ctx->sn`: the contexts afterwards and the requests written to the pipe. -/
def flushCache (sn : Nat) : List LuaCtx → Bool → List LuaCtx × List OneTaskReq
  | [], _ => ([], [])
  | lctx :: rest, timeout =>
    ((flushOne sn timeout lctx).1 :: (flushCache sn rest timeout).1,
     (flushOne sn timeout lctx).2 ++ (flushCache sn rest timeout).2)

/-- One `struct inotify_event` of the batch `watchLoop` reads. -/
structure InotifyEvent where
  wd : Int
  mask : Nat
  len : Nat
deriving DecidableEq

/-- System constant `IN_IGNORED`. -/
def IN_IGNORED : Nat := 32768

/-- The state of the watcher: the counter `sn` of the main context, the contexts
`luaCtxs`, for each of them the content of the file behind its descriptor, and the watch
table `wch`, which maps a watch descriptor to the position of its context. -/
structure Watcher where
  sn : Nat
  luaCtxs : List LuaCtx
  files : List (List Char)
  wch : List (Int × Nat)

/-- Function `wd2ctx(ctx, wd)`: the position of the context of `wd`; `none` is the failed
`assert(pos != ctx->wch.end())`. -/
def wd2ctx (w : Watcher) (wd : Int) : Option Nat :=
  match w.wch.find? (fun e => e.1 = wd) with
  | none => none
  | some e => if e.2 < w.luaCtxs.length then some e.2 else none

/-- The loop `while (p < eventBuffer + nn)` of `watchLoop` over the events from `p` on:
the watcher afterwards, the positions of the contexts `tail2kafka` was called on, and the
requests written.  The `continue` on `IN_IGNORED` leaves `p` where it is. -/
def eventLoop : Nat → Watcher → List InotifyEvent → List Nat → List OneTaskReq →
    Option (Watcher × List Nat × List OneTaskReq)
  | 0, _, _, _, _ => none
  | _ + 1, w, [], calls, out => some (w, calls, out)
  | fuel + 1, w, event :: rest, calls, out =>
    if event.mask = IN_IGNORED then eventLoop fuel w (event :: rest) calls out
    else
      match wd2ctx w event.wd with
      | none => none
      | some i =>
        match w.luaCtxs.get? i with
        | none => none
        | some lctx =>
          match tail2kafka fuel (w.files.getD i []) { lctx with sn := w.sn } with
          | none => none
          | some r =>
            eventLoop fuel { w with luaCtxs := w.luaCtxs.set i r.1 } rest (calls ++ [i])
              (out ++ r.2)

/-- The statements of `watchLoop` for a batch of events read from the inotify descriptor:
`ctx->sn++` on the `uint64_t` counter, then the loop over the events. -/
def watchEvents (fuel : Nat) (w : Watcher) (events : List InotifyEvent) :
    Option (Watcher × List Nat × List OneTaskReq) :=
  eventLoop fuel { w with sn := (w.sn + 1) % 18446744073709551616 } events [] []

/-! ## Inputs on which the functions are evaluated -/

/-- A `filter` context with `filter = {1, 3}` and no `timeidx`. -/
def selectorCtx : LuaCtx := { LuaCtx.new testMain with filters := [1, 3], filter := true }

/-- The record `serializeCache` writes for the first two lines of `test_aggregate`. -/
def cachedRecord : Str :=
  testMain.host ++ " 2015-04-02T12:05:04 10086 reqt<0.1=1 reqt<0.3=1 size=500 status_200=2".toList

/-- The context of `test_aggregate` as `aggregate` leaves it after the first two lines. -/
def cachedCtx : LuaCtx :=
  { aggregateCtx with
    lasttime := "2015-04-02T12:05:04".toList,
    cache := [("10086".toList,
      [("reqt<0.1".toList, 1), ("reqt<0.3".toList, 1), ("size".toList, 500),
       ("status_200".toList, 2)])] }

/-- A run of `MAX_LINE_LEN` bytes `a`, without a newline. -/
def longRun : List Char := List.replicate MAX_LINE_LEN 'a'

/-- An event with the mask `IN_IGNORED`, on watch descriptor 1. -/
def ignoredEvent : InotifyEvent := { wd := 1, mask := IN_IGNORED, len := 0 }

/-- An event with the mask `IN_MODIFY`, on watch descriptor 1. -/
def modifyEvent : InotifyEvent := { wd := 1, mask := 2, len := 0 }

/-- A watcher of one file, after `test_watchInit` and the append of `789` and a newline:
the context holds the residue `456`, the file holds `12\n456789\n`. -/
def testWatcher : Watcher :=
  { sn := 0, luaCtxs := [watchCtx], files := ["12\n456789\n".toList], wch := [(1, 0)] }

/-! ## The Elasticsearch sender: EsUrl

The functions of `src/src/esctx.cc` on one connection `EsUrl`.  What they do outside the
object, to the statistics, the file reader, the descriptors and the log, is collected in
`EsWorld`. -/

/-- Modelled from the spec: the header `filereader.h`, which declares `FileRecord`, is
not among the sources, so the record carries the members `esctx.cc` reads: the payload
`data`, the index name `esIndex`, the file offset `off` (an `off_t`, `-1` when the record
has no offset) and `inode`. -/
structure FileRecord where
  data : Str
  esIndex : Str
  off : Int
  inode : Int
deriving DecidableEq

/-- Modelled from the spec: the states of a connection, whose enumeration is declared in
the header `esctx.h`, not among the sources; the values are the ones `esctx.cc` names. -/
inductive EsStatus where
  | UNINIT | ESTABLISHING | WRITING | READING | IDLE
deriving DecidableEq

/-- Modelled from the spec: what the response parser waits for, an enumeration declared
in the header `esctx.h`, not among the sources; the values are the ones `esctx.cc`
names. -/
inductive HttpRespWant where
  | STATUS_LINE | HEADER | HEADER_NAME | HEADER_VALUE | BODY | BODY_CHUNK_LEN
  | BODY_CHUNK_CONTENT | RESP_EOF
deriving DecidableEq

/-- The lines `esctx.cc` writes to the log, with their arguments. -/
inductive EsLog where
  /-- Line `switch es node from %s to %s` of `reinit`. -/
  | switchNode (src dst : Str)
  /-- Line `POST %s DATA %s` of `reinit`. -/
  | post (url body : Str)
  /-- Line `%p reuse connect %s #%d` of `reinit`. -/
  | reuse (node : Str) (fd : Int)
  /-- Line `%p disconnect %s #%d` of `destroy`. -/
  | disconnect (node : Str) (fd : Int)
  /-- Line `INDEX ret status %d body %s, POST %s %s` of `doResponse`. -/
  | indexStatus (code : Int) (respBody url body : Str)
  /-- Line `%p #%d POST %s %s INTERNAL ERROR: %s` of `onError`. -/
  | internalError (fd : Int) (url body error : Str)
  /-- Line `%p #%d POST %s %s timeout` of `onTimeout`. -/
  | timeout (fd : Int) (url body : Str)
  /-- Line `setsockopt(IPPROTO_TCP, %s) error` of `doConnect`, with the option named. -/
  | sockoptError (option : Str)
  /-- Line `%p connect %s #%d` of `doConnect`. -/
  | connect (node : Str) (fd : Int)
  /-- Line `wait response %p epoll_ctl_mod(#%d, EPOLLIN)` of `doRequest`. -/
  | waitResponse (fd : Int)
deriving DecidableEq

/-- Modelled from the spec: the class `EsUrl` is declared in the header `esctx.h`, not
among the sources, so the members are the ones `esctx.cc` uses, the counters `idx_`,
`timeoutRetry_`, `nheader_`, `nbody_`, `offset_` and `wantLen_` as naturals; the constant
`MAX_HTTP_HEADER_LEN` of that header is the member `maxHeader`; `resp_` is an offset
into `header_`, and `body_` the bytes of the record it points to. -/
structure EsUrl where
  maxHeader : Nat
  nodes_ : List Str
  idx_ : Nat
  node_ : Str
  timeoutRetry_ : Nat
  body_ : Str
  nbody_ : Nat
  header_ : Mem
  nheader_ : Nat
  url_ : Str
  offset_ : Nat
  respWant_ : HttpRespWant
  resp_ : Nat
  wantLen_ : Nat
  chunkLen_ : Int
  respCode_ : Int
  respBody_ : Str
  record_ : Option FileRecord
  status_ : EsStatus
  fd_ : Int
  activeTime_ : Int
deriving DecidableEq

/-- Modelled from the spec: the statistics (`logSendInc`, `logErrorInc`) and the file
reader (`updateFileOffRecord`) belong to sources that are not here, as does
`FileRecord::destroy`; they are recorded as the counters `sendCount` and `errorCount`, the
records whose offset was committed, and the records destroyed, in order.  Member `closed`
lists the descriptors given to `close`, and `log` the lines written. -/
structure EsWorld where
  sendCount : Nat
  errorCount : Nat
  committed : List FileRecord
  destroyed : List FileRecord
  closed : List Int
  log : List EsLog
deriving DecidableEq

/-- The text `snprintf` formats for `ES_CREATE_INDEX_HEADER_TPL`; `%d` prints `nbody` as
an `int`. -/
def esHeaderText (esIndex node : Str) (nbody : Nat) : Str :=
  "POST /".toList ++ c_str esIndex ++ "/_doc HTTP/1.1\r\n".toList ++
  "Host: ".toList ++ c_str node ++ "\r\n".toList ++
  "Accept: */*\r\n".toList ++
  "Connection: keep-alive\r\n".toList ++
  "Content-Type: application/json; charset=utf-8\r\n".toList ++
  "Content-Length: ".toList ++ fmtInt 0 (toInt32 nbody) ++ "\r\n".toList ++
  "\r\n".toList

/-- The branch `if (move)` of `reinit`: `none` where `% nodes_.size()` divides by zero or
an index of `nodes_` is out of range; `int next` holds the remainder as an `int`. -/
def reinitMove (u : EsUrl) (w : EsWorld) (move : Int) : Option (EsUrl × EsWorld) :=
  if move ≠ 0 then
    if u.nodes_.length = 0 then none
    else
      let next := toInt32 (toSizeT ((u.idx_ : Int) + move) % (u.nodes_.length : Int))
      if next < 0 then none
      else
        match u.nodes_.get? u.idx_, u.nodes_.get? next.toNat with
        | some src, some dst =>
          some ({ u with idx_ := next.toNat, node_ := dst, timeoutRetry_ := u.timeoutRetry_ + 1 },
                { w with log := w.log ++ [EsLog.switchNode (c_str src) (c_str dst)] })
        | _, _ => none
  else some ({ u with timeoutRetry_ := 0 }, w)

/-- Function `EsUrl::reinit(record, move)`; `none` where `assert(record)` fails or
`reinitMove` has no result. -/
def reinit (u : EsUrl) (w : EsWorld) (record : Option FileRecord) (move : Int) :
    Option (EsUrl × EsWorld) :=
  match record with
  | none => none
  | some r =>
    match reinitMove u w move with
    | none => none
    | some (u1, w1) =>
      let text := esHeaderText r.esIndex u1.node_ r.data.length
      let url := "http://".toList ++ u1.node_ ++ "/".toList ++ r.esIndex ++ "/_doc".toList
      let u2 : EsUrl :=
        { u1 with
          body_ := r.data, nbody_ := r.data.length,
          nheader_ := text.length,
          header_ :=
            if u1.maxHeader = 0 then u1.header_
            else memWrite u1.header_ 0 (text.take (u1.maxHeader - 1) ++ [NUL]),
          url_ := url, offset_ := 0, respWant_ := HttpRespWant.STATUS_LINE, resp_ := 0,
          wantLen_ := 0, chunkLen_ := 0, respCode_ := 0, respBody_ := [],
          record_ := some r }
      let w2 := { w1 with log := w1.log ++ [EsLog.post (c_str url) (c_str r.data)] }
      if u2.status_ = EsStatus.IDLE then
        some ({ u2 with status_ := EsStatus.WRITING },
              { w2 with log := w2.log ++ [EsLog.reuse (c_str u2.node_) u2.fd_] })
      else some (u2, w2)

/-- Function `EsUrl::destroy(pfd)`. -/
def destroy (u : EsUrl) (w : EsWorld) : EsUrl × EsWorld :=
  ({ u with fd_ := -1, status_ := EsStatus.UNINIT },
   { w with log := w.log ++ [EsLog.disconnect (c_str u.node_) u.fd_],
            closed := w.closed ++ [u.fd_] })

/-- Function `EsUrl::onError(pfd, error)`. -/
def onError (u : EsUrl) (w : EsWorld) (error : Str) : EsUrl × EsWorld :=
  match u.record_ with
  | some r =>
    destroy { u with record_ := none }
      { w with log := w.log ++ [EsLog.internalError u.fd_ (c_str u.url_) (c_str u.body_) error],
               errorCount := w.errorCount + 1,
               destroyed := w.destroyed ++ [r] }
  | none => destroy u w

/-- The statements of `EsUrl::doResponse` after its receive loop, which it reaches with
`status_ == IDLE` when the response is complete; `none` is the failed `assert(record_)`. -/
def doResponseDone (u : EsUrl) (w : EsWorld) : Option (EsUrl × EsWorld) :=
  if u.status_ = EsStatus.IDLE then
    match u.record_ with
    | none => none
    | some r =>
      let w1 := { w with sendCount := w.sendCount + 1 }
      let w2 :=
        if u.respCode_ ≠ 201 then
          let w11 :=
            { w1 with log := w1.log ++
                [EsLog.indexStatus u.respCode_ (c_str u.respBody_) (c_str u.url_) (c_str u.body_)] }
          if u.respCode_ ≠ 400 ∧ u.respCode_ ≠ 429 then
            { w11 with errorCount := w11.errorCount + 1 }
          else w11
        else w1
      let w3 :=
        if r.off ≠ -1 ∧ r.inode > 0 then { w2 with committed := w2.committed ++ [r] } else w2
      some ({ u with record_ := none }, { w3 with destroyed := w3.destroyed ++ [r] })
  else some (u, w)

/-- Function `EsUrl::onTimeout(pfd, now)`; `onEvent` is the call `onEvent(pfd)` it ends
with, on the connection as `reinit` left it. -/
def onTimeout (onEvent : EsUrl → EsWorld → Option (EsUrl × EsWorld)) (u : EsUrl) (w : EsWorld)
    (now : Int) : Option (EsUrl × EsWorld) :=
  if now - u.activeTime_ > 30 then
    let d := destroy u
      { w with log := w.log ++ [EsLog.timeout u.fd_ (c_str u.url_) (c_str u.body_)] }
    if d.1.timeoutRetry_ = d.1.nodes_.length then
      some (onError d.1 d.2 "exceed maximum timeout retries".toList)
    else
      match reinit d.1 d.2 d.1.record_ 1 with
      | none => none
      | some r => onEvent r.1 r.2
  else some (u, w)

/-- The number of lines `POST %s DATA %s` in the log: `reinit` writes one each time it
issues a record. -/
def posts (w : EsWorld) : Nat :=
  w.log.countP (fun l => match l with | EsLog.post _ _ => true | _ => false)

/-- Successive calls of `onTimeout`, each 31 seconds after the last activity. -/
def timeoutRun (onEvent : EsUrl → EsWorld → Option (EsUrl × EsWorld)) :
    Nat → EsUrl → EsWorld → Option (EsUrl × EsWorld)
  | 0, u, w => some (u, w)
  | k + 1, u, w =>
    match onTimeout onEvent u w (u.activeTime_ + 31) with
    | none => none
    | some r => timeoutRun onEvent k r.1 r.2

/-! ## Inputs on which the sender is evaluated -/

/-- A record with a real offset. -/
def testRecord : FileRecord :=
  { data := "\x7b\"k\":1\x7d".toList, esIndex := "logs".toList, off := 5, inode := 7 }

/-- Nothing has happened yet. -/
def emptyWorld : EsWorld :=
  { sendCount := 0, errorCount := 0, committed := [], destroyed := [], closed := [], log := [] }

/-- A connection over the nodes `n1`, `n2`, `n3`, on `n1`, reading the response for
`testRecord` on descriptor 3, with a header buffer of 1024 bytes. -/
def testUrl : EsUrl :=
  { maxHeader := 1024, nodes_ := ["n1".toList, "n2".toList, "n3".toList], idx_ := 0,
    node_ := "n1".toList, timeoutRetry_ := 0, body_ := testRecord.data,
    nbody_ := testRecord.data.length, header_ := List.replicate 1024 NUL, nheader_ := 0,
    url_ := "http://n1/logs/_doc".toList, offset_ := 0, respWant_ := HttpRespWant.STATUS_LINE,
    resp_ := 0, wantLen_ := 0, chunkLen_ := 0, respCode_ := 0, respBody_ := [],
    record_ := some testRecord, status_ := EsStatus.READING, fd_ := 3, activeTime_ := 100 }

/-- A call of `onEvent` on which the node takes the connection and the request and sends
no answer: the connection waits in `READING` on descriptor 3. -/
def stallEvent (u : EsUrl) (w : EsWorld) : Option (EsUrl × EsWorld) :=
  some ({ u with status_ := EsStatus.READING, fd_ := 3 }, w)

/-! ## The Elasticsearch sender: sockets, request and connection

The system calls are scripted by `Net`: what each call returns.  `Wire` counts the calls
of `writev` and `recv` made so far and keeps the bytes `writev` accepted. -/

/-- What one call of `writev` returns: `accepted n` is a count of `n` bytes (at most the
bytes offered), `eagain` is `-1` with `EAGAIN`, `error` is `-1` with another `errno`. -/
inductive WriteRes where
  | accepted (n : Nat)
  | eagain
  | error
deriving DecidableEq

/-- What one call of `recv` returns: `data bytes` is the count of `bytes` with the bytes
stored, so `data []` is the return value 0; `eagain` is `-1` with `EAGAIN`, `error` is `-1`
with another `errno`. -/
inductive RecvRes where
  | data (bytes : List Char)
  | eagain
  | error
deriving DecidableEq

/-- What `connect` returns for one address: `-1` with `EINPROGRESS`, `-1` with another
`errno`, or `0`. -/
inductive ConnectRes where
  | inProgress
  | failed
  | connected
deriving DecidableEq

/-- The results of the system calls of one connection: `socket` is the descriptor
`socket()` returns (`-1` on failure), the booleans tell whether the call succeeds,
`addrinfo` is the list `getaddrinfo` yields as the results `connect` has on its entries
(`none` when `getaddrinfo` fails), `soError` the value `doConnectFinish` ends with in
`err`, `writev` and `recv` the result of the k-th call, `time` what `time(0)` returns and
`strerror` the text of the error. -/
structure Net where
  socket : Int
  keepalive : Bool
  keepidle : Bool
  keepintvl : Bool
  keepcnt : Bool
  addrinfo : Option (List ConnectRes)
  epollAdd : Bool
  soError : Int
  writev : Nat → WriteRes
  epollMod : Bool
  recv : Nat → RecvRes
  time : Int
  strerror : Str

/-- The calls made on the socket so far: calls of `writev`, the bytes it accepted, in
order, and calls of `recv`. -/
structure Wire where
  nwritev : Nat
  written : List Char
  nrecv : Nat
deriving DecidableEq

/-- A connection with what surrounds it. -/
structure EsState where
  url : EsUrl
  world : EsWorld
  wire : Wire
deriving DecidableEq

/-- The text `snprintf(errbuf, 1024, ...)` leaves in `errbuf`. -/
def errText (text : Str) : Str := text.take 1023

/-- Function `EsUrl::initIOV(iov)`: the segments it sets up, base and length read as the
bytes they cover; the count it returns is the length of the list. -/
def initIOV (u : EsUrl) : List Str :=
  if u.offset_ < u.nheader_ then
    [stringN u.header_ u.offset_ (u.nheader_ - u.offset_), stringN u.body_ 0 u.nbody_]
  else if u.offset_ < u.nheader_ + u.nbody_ then
    [stringN u.body_ (u.offset_ - u.nheader_) (u.nheader_ + u.nbody_ - u.offset_)]
  else []

/-- The loop over the addresses in `doConnect`: the status after it. -/
def connectLoop : List ConnectRes → EsStatus → EsStatus
  | [], st => st
  | ConnectRes.inProgress :: _, _ => EsStatus.ESTABLISHING
  | ConnectRes.connected :: _, _ => EsStatus.READING
  | ConnectRes.failed :: rest, st => connectLoop rest st

/-- The three `setsockopt` calls of `doConnect` whose failure is only logged. -/
def keepLog (net : Net) : List EsLog :=
  (if net.keepidle then [] else [EsLog.sockoptError "TCP_KEEPIDLE".toList]) ++
  (if net.keepintvl then [] else [EsLog.sockoptError "TCP_KEEPINTVL".toList]) ++
  (if net.keepcnt then [] else [EsLog.sockoptError "TCP_KEEPCNT".toList])

/-- Function `EsUrl::doConnect(pfd, errbuf)`: the boolean, `errbuf` and the state. -/
def doConnect (net : Net) (errbuf : Str) (s : EsState) : Bool × Str × EsState :=
  let s1 : EsState := { s with url := { s.url with fd_ := net.socket } }
  if net.socket = -1 then (false, errText ("socket() error: ".toList ++ net.strerror), s1)
  else if net.keepalive = false then
    (false, errText ("setsockopt(SOL_SOCKET, SO_KEEPALIVE) error: ".toList ++ net.strerror), s1)
  else
    let s2 : EsState := { s1 with world := { s1.world with log := s1.world.log ++ keepLog net } }
    match net.addrinfo with
    | none =>
      (false,
        errText ("getaddrinfo ".toList ++ c_str s2.url.node_ ++ " error: ".toList ++ net.strerror),
        s2)
    | some infos =>
      let st := connectLoop infos s2.url.status_
      let s3 : EsState := { s2 with url := { s2.url with status_ := st } }
      if st = EsStatus.ESTABLISHING ∨ st = EsStatus.READING then
        let s4 : EsState :=
          { s3 with world :=
              { s3.world with log := s3.world.log ++ [EsLog.connect (c_str s3.url.node_) s3.url.fd_] } }
        if net.epollAdd then (true, errbuf, s4)
        else
          (false,
            errText ("epoll_ctl_add(".toList ++ fmtInt 0 s4.url.fd_ ++ ", ".toList ++
              (if st = EsStatus.READING then "EPOLLOUT".toList else "EPOLLIN|EPOLLOUT".toList) ++
              ") error: ".toList ++ net.strerror),
            { s4 with url := { s4.url with status_ := EsStatus.UNINIT } })
      else
        (false,
          errText ("connect ".toList ++ c_str s3.url.node_ ++ " error: ".toList ++ net.strerror),
          s3)

/-- Function `EsUrl::doConnectFinish(pfd, errbuf)`. -/
def doConnectFinish (net : Net) (errbuf : Str) (s : EsState) : Bool × Str × EsState :=
  if net.soError ≠ 0 then
    (false, errText ("connect ".toList ++ c_str s.url.node_ ++ " error: ".toList ++ net.strerror), s)
  else (true, errbuf, s)

/-- The loop `while (true)` of `doRequest`: `true` when it is left by `break`, `false`
when it is left by `return false`; `none` when it is never left. -/
def doRequestLoop (net : Net) : Nat → Str → EsState → Option (Bool × Str × EsState)
  | 0, _, _ => none
  | fuel + 1, errbuf, s =>
    if initIOV s.url = [] then
      some (true, errbuf, { s with url := { s.url with offset_ := 0, status_ := EsStatus.READING } })
    else
      match net.writev s.wire.nwritev with
      | WriteRes.eagain =>
        doRequestLoop net fuel errbuf
          { s with url := { s.url with status_ := EsStatus.WRITING },
                   wire := { s.wire with nwritev := s.wire.nwritev + 1 } }
      | WriteRes.error =>
        some (false, errText ("writev error: ".toList ++ net.strerror),
          { s with wire := { s.wire with nwritev := s.wire.nwritev + 1 } })
      | WriteRes.accepted n =>
        doRequestLoop net fuel errbuf
          { s with url := { s.url with offset_ := s.url.offset_ + min n (initIOV s.url).flatten.length },
                   wire := { s.wire with
                     nwritev := s.wire.nwritev + 1,
                     written := s.wire.written ++ (initIOV s.url).flatten.take n } }

/-- Function `EsUrl::doRequest(pfd, errbuf)`; `none` when its loop is never left. -/
def doRequest (net : Net) (fuel : Nat) (errbuf : Str) (s : EsState) :
    Option (Bool × Str × EsState) :=
  match doRequestLoop net fuel errbuf s with
  | none => none
  | some (false, e, s1) => some (false, e, s1)
  | some (true, e, s1) =>
    if s1.url.status_ = EsStatus.READING then
      let s2 : EsState :=
        { s1 with world := { s1.world with log := s1.world.log ++ [EsLog.waitResponse s1.url.fd_] } }
      if net.epollMod then some (true, e, s2)
      else
        some (false,
          errText ("epoll_ctl_mod(#".toList ++ fmtInt 0 s2.url.fd_ ++ ", EPOLLIN) error: ".toList ++
            net.strerror), s2)
    else some (true, e, s1)

/-! ## The Elasticsearch sender: the response parser -/

/-- Modelled from the spec: `util::toInt` belongs to `util.h`, which is not among the
sources; it is taken to give the value of the decimal digits at the head of the text. -/
def toInt (s : Str) : Int :=
  ((s.takeWhile Char.isDigit).foldl (fun acc c => acc * 10 + (c.toNat - 48)) 0 : Nat)

/-- The bytes `util::trim` takes off: space, tab, carriage return and newline. -/
def isBlank (c : Char) : Bool := c = ' ' || c = '\t' || c = '\r' || c = '\n'

/-- Modelled from the spec: `util::trim` belongs to `util.h`, which is not among the
sources; it is taken to drop the blank bytes at both ends. -/
def trim (s : Str) : Str := ((s.dropWhile isBlank).reverse.dropWhile isBlank).reverse

/-- The value of a hexadecimal digit. -/
def hexDigit (c : Char) : Option Nat :=
  if 48 ≤ c.toNat ∧ c.toNat ≤ 57 then some (c.toNat - 48)
  else if 97 ≤ c.toNat ∧ c.toNat ≤ 102 then some (c.toNat - 87)
  else if 65 ≤ c.toNat ∧ c.toNat ≤ 70 then some (c.toNat - 55)
  else none

/-- Modelled from the spec: `util::hexToInt` belongs to `util.h`, which is not among the
sources; it is taken to store the value of the hexadecimal digits at the head of the
text. -/
def hexToInt (s : Str) : Int :=
  ((s.takeWhile (fun c => (hexDigit c).isSome)).foldl
    (fun acc c => acc * 16 + (hexDigit c).getD 0) 0 : Nat)

/-- The byte `tolower` gives. -/
def lowerByte (c : Char) : Char :=
  if 65 ≤ c.toNat ∧ c.toNat ≤ 90 then Char.ofNat (c.toNat + 32) else c

/-- The test `strcasecmp(a, b) == 0` on two C strings. -/
def strcaseEq (a b : Str) : Bool := (c_str a).map lowerByte = (c_str b).map lowerByte

/-- The loop of `initHttpResponseStatusLine` from `p` on, with its locals `field` and
`start`; `eof`, `p` and `start` are offsets into `header_`.  A read past the end of
`header_` has no result. -/
def statusLineLoop (eof : Nat) : Nat → Nat → Int → Nat → EsUrl → Option EsUrl
  | 0, _, _, _, _ => none
  | fuel + 1, p, field, start, u =>
    if p + 1 = eof ∨ u.respWant_ ≠ HttpRespWant.STATUS_LINE then some u
    else if u.header_.length ≤ p then none
    else if deref u.header_ p = ' ' then
      if field + 1 = 1 then statusLineLoop eof fuel (p + 1) (field + 1) (p + 1) u
      else if field + 1 = 2 then
        statusLineLoop eof fuel (p + 1) (field + 1) start
          { u with header_ := memWrite u.header_ p [NUL],
                   respCode_ := toInt (stringZ (memWrite u.header_ p [NUL]) start) }
      else statusLineLoop eof fuel (p + 1) (field + 1) start u
    else if deref u.header_ p = '\r' ∧ deref u.header_ (p + 1) = '\n' then
      statusLineLoop eof fuel (p + 1) field start
        { u with respWant_ := HttpRespWant.HEADER, resp_ := p + 2 }
    else statusLineLoop eof fuel (p + 1) field start u

/-- Function `EsUrl::initHttpResponseStatusLine(eof)`. -/
def initHttpResponseStatusLine (u : EsUrl) (eof : Nat) : Option EsUrl :=
  statusLineLoop eof (u.header_.length + 1) u.resp_ 0 u.resp_ u

/-- The loop of `initHttpResponseHeader` from `p` on, with its locals `want`, `key` and
`value`; all three are offsets into `header_`.  A read past the end of `header_` has no
result. -/
def headerLoop (eof : Nat) : Nat → Nat → HttpRespWant → Nat → Nat → EsUrl → Option EsUrl
  | 0, _, _, _, _, _ => none
  | fuel + 1, p, want, key, value, u =>
    if p + 1 = eof then some u
    else if u.header_.length ≤ p then none
    else if want = HttpRespWant.HEADER_NAME then
      if deref u.header_ p = ':' then
        headerLoop eof fuel (p + 1) HttpRespWant.HEADER_VALUE key (p + 1)
          { u with header_ := memWrite u.header_ p [NUL] }
      else if deref u.header_ p = '\r' ∧ deref u.header_ (p + 1) = '\n' then
        some { u with
          respWant_ := if u.wantLen_ > 0 then HttpRespWant.BODY else HttpRespWant.BODY_CHUNK_LEN,
          resp_ := p + 2 }
      else headerLoop eof fuel (p + 1) want key value u
    else if want = HttpRespWant.HEADER_VALUE then
      if deref u.header_ p = '\r' ∧ deref u.header_ (p + 1) = '\n' then
        if strcaseEq (stringZ u.header_ key) "content-length".toList then
          headerLoop eof fuel (p + 1) HttpRespWant.HEADER_NAME (p + 2) value
            { u with header_ := memWrite u.header_ p [NUL],
                     wantLen_ :=
                       (toInt (c_str (trim (stringZ (memWrite u.header_ p [NUL]) value)))).toNat }
        else headerLoop eof fuel (p + 1) HttpRespWant.HEADER_NAME (p + 2) value u
      else headerLoop eof fuel (p + 1) want key value u
    else headerLoop eof fuel (p + 1) want key value u

/-- Function `EsUrl::initHttpResponseHeader(eof)`; the local `value` starts as the null
pointer, offset 0 here. -/
def initHttpResponseHeader (u : EsUrl) (eof : Nat) : Option EsUrl :=
  headerLoop eof (u.header_.length + 1) u.resp_ HttpRespWant.HEADER_NAME u.resp_ 0 u

/-- The `for` loop of `initHttpResponseBody` in the state `BODY_CHUNK_LEN`, from `p` on.
A read past the end of `header_` has no result. -/
def chunkLenLoop (eof : Nat) : Nat → Nat → EsUrl → Option EsUrl
  | 0, _, _ => none
  | fuel + 1, p, u =>
    if p + 1 = eof then some u
    else if u.header_.length ≤ p then none
    else if deref u.header_ p = '\r' ∧ deref u.header_ (p + 1) = '\n' then
      some { u with
        header_ := memWrite u.header_ p [NUL],
        chunkLen_ := hexToInt (stringZ (memWrite u.header_ p [NUL]) u.resp_),
        wantLen_ :=
          ((u.wantLen_ : Int) + hexToInt (stringZ (memWrite u.header_ p [NUL]) u.resp_)).toNat,
        resp_ := p + 2,
        respWant_ := HttpRespWant.BODY_CHUNK_CONTENT }
    else chunkLenLoop eof fuel (p + 1) u

/-- The block of `initHttpResponseBody` for the state `BODY_CHUNK_CONTENT`; `left` and
`min` are `int`.  No result where `append` is given a negative count or reads past the
end of `header_`, or where `eof - p` is negative at the `memmove`. -/
def chunkContent (eof : Nat) (u : EsUrl) : Option EsUrl :=
  let left : Int := toInt32 ((u.wantLen_ : Int) - (u.respBody_.length : Int))
  let avail : Int := (eof : Int) - (u.resp_ : Int)
  let min : Int := if avail ≥ left then left else toInt32 avail
  if min < 0 then none
  else if u.header_.length < u.resp_ + min.toNat then none
  else
    let body := u.respBody_ ++ stringN u.header_ u.resp_ min.toNat
    let p := u.resp_ + min.toNat
    if p + 1 < eof ∧ deref u.header_ p = '\r' ∧ deref u.header_ (p + 1) = '\n' then
      some { u with
        respBody_ := body,
        respWant_ :=
          if u.chunkLen_ = 0 then HttpRespWant.RESP_EOF else HttpRespWant.BODY_CHUNK_LEN }
    else if eof < p then none
    else
      some { u with
        respBody_ := body,
        resp_ := 0,
        offset_ := eof - p,
        header_ := memWrite u.header_ 0 (stringN u.header_ p (eof - p)) }

/-- One round of the loop `while (respWant_ != RESP_EOF)` of `initHttpResponseBody`: the
block for `BODY_CHUNK_LEN`, then the block for `BODY_CHUNK_CONTENT`. -/
def bodyRound (eof : Nat) (u : EsUrl) : Option EsUrl :=
  match (if u.respWant_ = HttpRespWant.BODY_CHUNK_LEN then
           chunkLenLoop eof (u.header_.length + 1) u.resp_ u else some u) with
  | none => none
  | some u1 =>
    if u1.respWant_ = HttpRespWant.BODY_CHUNK_CONTENT then chunkContent eof u1 else some u1

/-- Function `EsUrl::initHttpResponseBody(eof)`: the loop `while (respWant_ != RESP_EOF)`;
`none` when it is never left. -/
def initHttpResponseBody (eof : Nat) : Nat → EsUrl → Option EsUrl
  | 0, _ => none
  | fuel + 1, u =>
    if u.respWant_ = HttpRespWant.RESP_EOF then some u
    else
      match bodyRound eof u with
      | none => none
      | some u1 => initHttpResponseBody eof fuel u1

/-- The branch `respWant_ == BODY` of `initHttpResponse`. -/
def bodyPart (u : EsUrl) (eof : Nat) : EsUrl :=
  let body :=
    if (eof : Int) - (u.resp_ : Int) > 0 then
      u.respBody_ ++ stringN u.header_ u.resp_ (eof - u.resp_)
    else u.respBody_
  { u with
    respBody_ := body, resp_ := 0, offset_ := 0,
    respWant_ := if body.length = u.wantLen_ then HttpRespWant.RESP_EOF else u.respWant_ }

/-- Function `EsUrl::initHttpResponse(eof)`, with `eof` an offset into `header_`: the
boolean and the connection; `none` where a part of it has no result. -/
def initHttpResponse (fuel : Nat) (u : EsUrl) (eof : Nat) : Option (Bool × EsUrl) :=
  if u.respWant_ = HttpRespWant.RESP_EOF then some (true, u)
  else
    match (if u.respWant_ = HttpRespWant.STATUS_LINE then initHttpResponseStatusLine u eof
           else some u) with
    | none => none
    | some u1 =>
      match (if u1.respWant_ = HttpRespWant.HEADER then initHttpResponseHeader u1 eof
             else some u1) with
      | none => none
      | some u2 =>
        if u2.respWant_ = HttpRespWant.BODY then
          some (decide ((bodyPart u2 eof).respWant_ = HttpRespWant.RESP_EOF), bodyPart u2 eof)
        else if u2.respWant_ = HttpRespWant.BODY_CHUNK_LEN ∨
            u2.respWant_ = HttpRespWant.BODY_CHUNK_CONTENT then
          match initHttpResponseBody eof fuel u2 with
          | none => none
          | some u3 => some (decide (u3.respWant_ = HttpRespWant.RESP_EOF), u3)
        else some (decide (u2.respWant_ = HttpRespWant.RESP_EOF), u2)

/-- The branch `offset_ += nn` of `doResponse` after a `recv` that stored `bytes` at
`header_ + offset_`. -/
def recvInto (u : EsUrl) (bytes : List Char) : EsUrl :=
  { u with header_ := memWrite u.header_ u.offset_ bytes, offset_ := u.offset_ + bytes.length }

/-- The loop `while (true)` of `doResponse`: `true` when it is left by `break`, `false`
when it is left by `return false`; `none` when it is never left.  Call `recv` gets room
for `MAX_HTTP_HEADER_LEN - offset_` bytes. -/
def doResponseLoop (net : Net) : Nat → Str → EsState → Option (Bool × Str × EsState)
  | 0, _, _ => none
  | fuel + 1, errbuf, s =>
    if s.url.maxHeader < s.url.offset_ then none
    else
      match net.recv s.wire.nrecv with
      | RecvRes.data bytes =>
        doResponseLoop net fuel errbuf
          { s with url := recvInto s.url (bytes.take (s.url.maxHeader - s.url.offset_)),
                   wire := { s.wire with nrecv := s.wire.nrecv + 1 } }
      | RecvRes.eagain =>
        match initHttpResponse fuel s.url s.url.offset_ with
        | none => none
        | some (done, u1) =>
          some (true, errbuf,
            { s with url := if done then { u1 with status_ := EsStatus.IDLE } else u1,
                     wire := { s.wire with nrecv := s.wire.nrecv + 1 } })
      | RecvRes.error =>
        some (false, errText ("recv error: ".toList ++ net.strerror),
          { s with wire := { s.wire with nrecv := s.wire.nrecv + 1 } })

/-- Function `EsUrl::doResponse(pfd, errbuf)`; `none` when its loop is never left or an
assertion fails. -/
def doResponse (net : Net) (fuel : Nat) (errbuf : Str) (s : EsState) :
    Option (Bool × Str × EsState) :=
  match doResponseLoop net fuel errbuf s with
  | none => none
  | some (false, e, s1) => some (false, e, s1)
  | some (true, e, s1) =>
    match doResponseDone s1.url s1.world with
    | none => none
    | some (u2, w2) => some (true, e, { s1 with url := u2, world := w2 })

/-- Function `EsUrl::onEvent(pfd)`; `errbuf` starts as `OK`.  No result where
`assert(record_)` fails or a loop is never left. -/
def onEvent (net : Net) : Nat → EsState → Option EsState
  | 0, _ => none
  | fuel + 1, s =>
    if s.url.status_ = EsStatus.IDLE then
      some { s with url := (destroy s.url s.world).1, world := (destroy s.url s.world).2 }
    else if s.url.record_ = none then none
    else
      let r : Option (Bool × Str × EsState) :=
        if s.url.status_ = EsStatus.WRITING then doRequest net fuel "OK".toList s
        else if s.url.status_ = EsStatus.READING then doResponse net fuel "OK".toList s
        else if s.url.status_ = EsStatus.UNINIT then
          let c := doConnect net "OK".toList s
          if c.1 = true ∧ c.2.2.url.status_ = EsStatus.READING then
            (onEvent net fuel c.2.2).map (fun s1 => (c.1, c.2.1, s1))
          else some c
        else
          let c := doConnectFinish net "OK".toList s
          if c.1 = true then
            (onEvent net fuel
              { c.2.2 with url := { c.2.2.url with status_ := EsStatus.WRITING } }).map
              (fun s1 => (c.1, c.2.1, s1))
          else some c
      match r with
      | none => none
      | some (rc, errbuf, s1) =>
        let s2 : EsState := { s1 with url := { s1.url with activeTime_ := net.time } }
        if rc = false then
          some { s2 with url := (onError s2.url s2.world errbuf).1,
                         world := (onError s2.url s2.world errbuf).2 }
        else some s2

/-! ## The Elasticsearch sender: EsCtx -/

/-- The lines `flowControl` writes to the log. -/
inductive FlowLog where
  /-- Line `too much data for es #%d, wait %ds, set block, stop produce`. -/
  | tooMuch (overload wait : Int)
  /-- Line `es #%d, restart produce`. -/
  | restart (overload : Int)
deriving DecidableEq

/-- What the `write` of `EsSender::produce` on the pipe returns: the pointer is written,
or `-1` with `EINTR`, or `-1` with another `errno`. -/
inductive PipeRes where
  | written
  | eintr
  | error
deriving DecidableEq

/-- Modelled from the spec: the class `EsCtx` is declared in the header `esctx.h`, not
among the sources, so the members are the ones `esctx.cc` uses.  A sender of
`esSenders_` is the list of the records written to its pipe, in order; `esMaxConns` and
`kafkaBlock` are the members of `CnfCtx` behind `getEsMaxConns` and `setKafkaBlock`,
`blockWrites` the values `setKafkaBlock` was called with, `recvCount` the counter of
`logRecvInc`, `destroyed` the records given to `FileRecord::destroy`, `polls` the rounds
of `flowControl` so far and `pipeWrites` the calls of `write` so far. -/
structure EsCtx where
  running_ : Bool
  esMaxConns : Int
  kafkaBlock : Bool
  blockWrites : List Bool
  recvCount : Nat
  esSenders_ : List (List FileRecord)
  lastSenderIndex_ : Nat
  destroyed : List FileRecord
  polls : Nat
  pipeWrites : Nat
  log : List FlowLog
deriving DecidableEq

/-- The loop `while (true)` of `flowControl`, with its local `i`; `loads k` is the value
of `load` in round `k`, the sum of what the senders report.  Returns `i`, `overload` and
the context; `none` when the loop is never left or `i++` overflows. -/
def flowLoop (loads : Nat → Int) : Nat → Int → EsCtx → Option (Int × Int × EsCtx)
  | 0, _, _ => none
  | fuel + 1, i, c =>
    let overload := toInt32 (toSizeT (loads c.polls) - toSizeT c.esMaxConns)
    if overload > 10 then
      if i = 2147483647 then none
      else
        flowLoop loads fuel (i + 1)
          (if Int.tmod i 500 = 0 then
            { c with polls := c.polls + 1, kafkaBlock := true,
                     blockWrites := c.blockWrites ++ [true],
                     log := c.log ++ [FlowLog.tooMuch overload (Int.tdiv i 100)] }
           else { c with polls := c.polls + 1 })
    else some (i, overload, { c with polls := c.polls + 1 })

/-- Function `EsCtx::flowControl()`. -/
def flowControl (loads : Nat → Int) (fuel : Nat) (c : EsCtx) : Option EsCtx :=
  match flowLoop loads fuel 0 c with
  | none => none
  | some (i, overload, c1) =>
    if i > 0 then
      some { c1 with kafkaBlock := false, blockWrites := c1.blockWrites ++ [false],
                     log := c1.log ++ [FlowLog.restart overload] }
    else some c1

/-- The loop of `EsCtx::produce` over the records; `pipe k` is the result of the k-th
`write` on a pipe.  No result where `flowControl` has none or `esSenders_` is indexed
out of range. -/
def produceLoop (loads : Nat → Int) (pipe : Nat → PipeRes) (fuel : Nat) :
    List FileRecord → EsCtx → Option (Bool × EsCtx)
  | [], c => some (true, c)
  | r :: rest, c =>
    if r.off = -1 then
      produceLoop loads pipe fuel rest { c with destroyed := c.destroyed ++ [r] }
    else
      match flowControl loads fuel c with
      | none => none
      | some c1 =>
        match c1.esSenders_.get? c1.lastSenderIndex_ with
        | none => none
        | some q =>
          match pipe c1.pipeWrites with
          | PipeRes.error => some (false, { c1 with pipeWrites := c1.pipeWrites + 1 })
          | res =>
            produceLoop loads pipe fuel rest
              { c1 with
                pipeWrites := c1.pipeWrites + 1,
                esSenders_ :=
                  if res = PipeRes.written then c1.esSenders_.set c1.lastSenderIndex_ (q ++ [r])
                  else c1.esSenders_,
                lastSenderIndex_ :=
                  if c1.lastSenderIndex_ + 1 ≥ c1.esSenders_.length then 0
                  else c1.lastSenderIndex_ + 1 }

/-- Function `EsCtx::produce(records)`. -/
def produce (loads : Nat → Int) (pipe : Nat → PipeRes) (fuel : Nat) (records : List FileRecord)
    (c : EsCtx) : Option (Bool × EsCtx) :=
  if c.running_ = false then some (false, c)
  else produceLoop loads pipe fuel records { c with recvCount := c.recvCount + records.length }

/-- The records of `records` that go to sender `s` when they are dealt out in turn over
`n` senders, the first one to sender `start mod n`. -/
def dealt (n : Nat) : Nat → Nat → List FileRecord → List FileRecord
  | _, _, [] => []
  | start, s, r :: rest => (if start % n = s then [r] else []) ++ dealt n (start + 1) s rest

/-! ## Inputs on which the sender is evaluated, continued -/

/-- A network on which every call succeeds: the connection is in progress after
`connect`, `writev` takes all it is offered, and `recv` has nothing to deliver. -/
def okNet : Net :=
  { socket := 3, keepalive := true, keepidle := true, keepintvl := true, keepcnt := true,
    addrinfo := some [ConnectRes.inProgress], epollAdd := true, soError := 0,
    writev := fun _ => WriteRes.accepted 4096, epollMod := true,
    recv := fun _ => RecvRes.eagain, time := 200, strerror := "failed".toList }

/-- No call made yet. -/
def emptyWire : Wire := { nwritev := 0, written := [], nrecv := 0 }

/-- The connection `testUrl` as `reinit` leaves it for `testRecord`, not yet connected. -/
def issuedUrl : EsUrl :=
  match reinit { testUrl with status_ := EsStatus.UNINIT, fd_ := -1 } emptyWorld
      (some testRecord) 0 with
  | some r => r.1
  | none => testUrl

/-- The connection `issuedUrl` in the given status, on descriptor 3, with nothing done
yet around it. -/
def issuedState (st : EsStatus) : EsState :=
  { url := { issuedUrl with status_ := st, fd_ := 3 }, world := emptyWorld, wire := emptyWire }

/-- The parser on successive reads: each read stores its bytes at `header_ + offset_` and
is followed by one call of `initHttpResponse` with `eof = header_ + offset_`, as in a
call of `doResponse` whose `recv` delivers the bytes and then has no more.  Gives the
booleans returned, in order, and the connection. -/
def parseReads (fuel : Nat) : List (List Char) → EsUrl → Option (List Bool × EsUrl)
  | [], u => some ([], u)
  | bytes :: rest, u =>
    match initHttpResponse fuel (recvInto u bytes) (recvInto u bytes).offset_ with
    | none => none
    | some (b, u1) =>
      match parseReads fuel rest u1 with
      | none => none
      | some (bs, u2) => some (b :: bs, u2)

/-- A connection that waits for the response, on a buffer of 128 bytes. -/
def readUrl : EsUrl :=
  { testUrl with maxHeader := 128, header_ := List.replicate 128 NUL,
                 status_ := EsStatus.READING }

/-- A network on which `writev` first has no room and then takes all it is offered. -/
def busyNet : Net :=
  { okNet with writev := fun k => if k = 0 then WriteRes.eagain else WriteRes.accepted 4096 }

/-- A network on which `writev` never has room. -/
def fullNet : Net := { okNet with writev := fun _ => WriteRes.eagain }

/-- A network whose peer has closed the connection: `recv` returns 0. -/
def closedNet : Net := { okNet with recv := fun _ => RecvRes.data [] }

/-- A network on which `socket()` fails. -/
def noSocketNet : Net := { okNet with socket := -1 }

/-- A network on which `writev` fails. -/
def brokenNet : Net := { okNet with writev := fun _ => WriteRes.error }

/-- A network on which `recv` fails. -/
def resetNet : Net := { okNet with recv := fun _ => RecvRes.error }

/-- A context with three senders, none of which has been given a record. -/
def testCtx : EsCtx :=
  { running_ := true, esMaxConns := 100, kafkaBlock := false, blockWrites := [],
    recvCount := 0, esSenders_ := [[], [], []], lastSenderIndex_ := 0, destroyed := [],
    polls := 0, pipeWrites := 0, log := [] }

/-- A record of an aggregation flush: no offset. -/
def flushRecord : FileRecord :=
  { data := "\x7b\"n\":2\x7d".toList, esIndex := "logs".toList, off := -1, inode := 7 }

/-- A connection that has written 10 bytes of a request with a header of 19 bytes, which
fills its buffer, and the body of `testRecord`. -/
def iovUrl : EsUrl :=
  { readUrl with
    maxHeader := 19, header_ := "POST / HTTP/1.1\r\n\r\n".toList, nheader_ := 19,
    body_ := testRecord.data, nbody_ := 7, offset_ := 10, status_ := EsStatus.WRITING }

/-- Whether the loop of `initHttpResponseBody` with `eof`, started on `u`, is after `n`
rounds in a state other than `RESP_EOF` that one more round leaves as it is. -/
def stuckAfter (eof : Nat) : Nat → EsUrl → Bool
  | 0, u => decide (bodyRound eof u = some u) && decide (u.respWant_ ≠ HttpRespWant.RESP_EOF)
  | n + 1, u =>
    decide (u.respWant_ ≠ HttpRespWant.RESP_EOF) &&
      (match bodyRound eof u with
       | none => false
       | some u1 => stuckAfter eof n u1)

/-- Whether `initHttpResponse`, on `readUrl` after a read of `bytes`, passes the status
line and the header block, enters the chunked body and is stuck there after `n` rounds. -/
def chunkStuck (n : Nat) (bytes : List Char) : Bool :=
  match initHttpResponseStatusLine (recvInto readUrl bytes) (recvInto readUrl bytes).offset_ with
  | none => false
  | some u1 =>
    decide (u1.respWant_ = HttpRespWant.HEADER) &&
      (match initHttpResponseHeader u1 (recvInto readUrl bytes).offset_ with
       | none => false
       | some u2 =>
         decide (u2.respWant_ = HttpRespWant.BODY_CHUNK_LEN) &&
           stuckAfter (recvInto readUrl bytes).offset_ n u2)

/-- A response with a chunked body: one chunk `hello`, then the zero-length chunk. -/
def chunkedHello : List Char :=
  "HTTP/1.1 201 Created\r\nTransfer-Encoding: chunked\r\n\r\n5\r\nhello\r\n0\r\n\r\n".toList

/-- A response with a chunked body: one chunk whose data is the byte `0`, then the
zero-length chunk. -/
def chunkedZero : List Char :=
  "HTTP/1.1 201 Created\r\nTransfer-Encoding: chunked\r\n\r\n1\r\n0\r\n0\r\n\r\n".toList

/-- A response with a chunked body, cut inside the chunk-length line `1f`, after the `1`. -/
def chunkedCutLen : List Char :=
  "HTTP/1.1 201 Created\r\nTransfer-Encoding: chunked\r\n\r\n1".toList

/-- A response with a chunked body, cut inside the data of the chunk `hello`. -/
def chunkedCutData : List Char :=
  "HTTP/1.1 201 Created\r\nTransfer-Encoding: chunked\r\n\r\n5\r\nhel".toList

/-- A response with a `Content-Length` header followed by another header. -/
def lengthResponse : List Char :=
  "HTTP/1.1 201 Created\r\nContent-Length: 5\r\nA: b\r\n\r\nhello".toList

/-! ## Responses with a Content-Length header -/

/-- The bytes of one header line: name, colon, value and CRLF. -/
def headerLine (h : Str × Str) : List Char := h.1 ++ ':' :: (h.2 ++ ['\r', '\n'])

/-- The bytes of a response up to its body: the status line `HTTP/1.1 code reason`, the
header lines and the empty line. -/
def responseHead (code reason : Str) (headers : List (Str × Str)) : List Char :=
  "HTTP/1.1".toList ++ ' ' :: (code ++ ' ' :: (reason ++ '\r' :: '\n' ::
    ((headers.map headerLine).flatten ++ ['\r', '\n'])))

/-- The number read from the value of a `Content-Length` header. -/
def lengthValue (value : Str) : Nat := (toInt (c_str (trim (c_str value)))).toNat

/-- The length the headers declare after `init`: the number in the value of the last
header named `Content-Length`, in any case of letters. -/
def declaredFrom (init : Nat) (headers : List (Str × Str)) : Nat :=
  headers.foldl
    (fun acc h => if strcaseEq h.1 "content-length".toList then lengthValue h.2 else acc) init

/-- The length the headers declare, 0 without a `Content-Length` header. -/
def declaredLength (headers : List (Str × Str)) : Nat := declaredFrom 0 headers

/-- Whether a response with a body of `n` bytes is complete after each of the reads,
which follow `got` bytes of the body. -/
def completeAfter (n : Nat) : Nat → List (List Char) → List Bool
  | _, [] => []
  | got, b :: bs => decide (got + b.length = n) :: completeAfter n (got + b.length) bs

/-! ## split on well-formed lines -/

theorem deref_append_right (pre post : List Char) (j : Nat) :
    deref (pre ++ post) (pre.length + j) = deref post j := by
  unfold deref
  simp [List.getD, List.getElem?_append_right]

theorem deref_at (pre : List Char) (c : Char) (post : List Char) :
    deref (pre ++ c :: post) pre.length = c := by
  have := deref_append_right pre (c :: post) 0
  simpa [deref] using this

theorem stringN_at (pre seg post : List Char) :
    stringN (pre ++ (seg ++ post)) pre.length seg.length = seg := by
  simp [stringN]

theorem stringZ_at (pre seg rest : List Char) (h : ∀ c ∈ seg, c ≠ NUL) :
    stringZ (pre ++ (seg ++ NUL :: rest)) pre.length = seg := by
  simp only [stringZ, List.drop_left]
  induction seg with
  | nil => simp [List.takeWhile]
  | cons c cs ih =>
    have hc : c ≠ NUL := h c (List.mem_cons_self _ _)
    have := ih (fun x hx => h x (List.mem_cons_of_mem _ hx))
    have hb : (c != NUL) = true := by simpa using hc
    simp [List.takeWhile, hb, this]

theorem splitLoop_add (line : Mem) (a b i : Nat) (s : SplitState) :
    splitLoop line (a + b) i s = splitLoop line b (i + a) (splitLoop line a i s) := by
  induction a generalizing i s with
  | zero => simp [splitLoop]
  | succ a ih =>
    have h : a + 1 + b = (a + b) + 1 := by omega
    rw [h]
    simp only [splitLoop]
    rw [ih]
    have h2 : i + 1 + a = i + (a + 1) := by omega
    rw [h2]

theorem splitStep_plain (line : Mem) (i pos : Nat) (items : List Str) (c : Char)
    (hd : deref line i = c) (hc : wordByte c = true) :
    splitStep line i ⟨false, NUL, pos, items⟩ = ⟨false, NUL, pos, items⟩ := by
  simp only [wordByte, Bool.and_eq_true, bne_iff_ne, ne_eq] at hc
  obtain ⟨⟨⟨⟨h1, h2⟩, h3⟩, h4⟩, _⟩ := hc
  have hq : NUL ≠ QUOTE := by decide
  have hr : NUL ≠ RBRACKET := by decide
  simp [splitStep, hd, h1, h2, h3, h4, hq, hr]

theorem splitStep_space (line : Mem) (i pos : Nat) (items : List Str)
    (hd : deref line i = SP) :
    splitStep line i ⟨false, NUL, pos, items⟩ =
      ⟨false, NUL, i + 1, if i ≠ pos then items ++ [stringN line pos (i - pos)] else items⟩ := by
  have hq : NUL ≠ QUOTE := by decide
  have hr : NUL ≠ RBRACKET := by decide
  have h1 : SP ≠ BACKSLASH := by decide
  have h2 : SP ≠ QUOTE := by decide
  have h3 : SP ≠ LBRACKET := by decide
  simp [splitStep, hd, h1, h2, h3, hq, hr]

theorem splitStep_open (line : Mem) (i pos : Nat) (items : List Str) (b : Bool)
    (hd : deref line i = opener b) :
    splitStep line i ⟨false, NUL, pos, items⟩ = ⟨false, closer b, pos + 1, items⟩ := by
  have hq : NUL ≠ QUOTE := by decide
  have hr : NUL ≠ RBRACKET := by decide
  have h1 : QUOTE ≠ BACKSLASH := by decide
  have h2 : LBRACKET ≠ BACKSLASH := by decide
  have h3 : LBRACKET ≠ QUOTE := by decide
  cases b <;> simp [opener, closer] at hd ⊢ <;> simp [splitStep, hd, h1, h2, h3, hq, hr]

theorem splitStep_body (line : Mem) (i pos : Nat) (items : List Str) (b : Bool) (c : Char)
    (hd : deref line i = c) (hc : bodyByte (closer b) c = true) :
    splitStep line i ⟨false, closer b, pos, items⟩ = ⟨false, closer b, pos, items⟩ := by
  simp only [bodyByte, Bool.and_eq_true, bne_iff_ne, ne_eq] at hc
  obtain ⟨⟨h1, h2⟩, _⟩ := hc
  have h3 : RBRACKET ≠ QUOTE := by decide
  cases b <;> simp [closer] at h1 ⊢ <;> simp [splitStep, hd, h1, h2, h3]

theorem splitStep_close (line : Mem) (i pos : Nat) (items : List Str) (b : Bool)
    (hd : deref line i = closer b) :
    splitStep line i ⟨false, closer b, pos, items⟩ =
      ⟨false, NUL, i + 1, items ++ [stringN line pos (i - pos)]⟩ := by
  have h1 : QUOTE ≠ BACKSLASH := by decide
  have h2 : RBRACKET ≠ BACKSLASH := by decide
  have h3 : RBRACKET ≠ QUOTE := by decide
  cases b <;> simp [closer] at hd ⊢ <;> simp [splitStep, hd, h1, h2, h3]

theorem splitLoop_word (seg : List Char) (pre post : List Char) (pos : Nat) (items : List Str)
    (h : seg.all wordByte = true) :
    splitLoop (pre ++ (seg ++ post)) seg.length pre.length ⟨false, NUL, pos, items⟩ =
      ⟨false, NUL, pos, items⟩ := by
  induction seg generalizing pre with
  | nil => simp [splitLoop]
  | cons c cs ih =>
    simp only [List.all_cons, Bool.and_eq_true] at h
    simp only [List.length_cons, splitLoop]
    rw [splitStep_plain _ _ _ _ c (by simpa using deref_at pre c (cs ++ post)) h.1]
    have := ih (pre ++ [c]) h.2
    simpa using this

theorem splitLoop_body (seg : List Char) (pre post : List Char) (pos : Nat) (items : List Str)
    (b : Bool) (h : seg.all (bodyByte (closer b)) = true) :
    splitLoop (pre ++ (seg ++ post)) seg.length pre.length ⟨false, closer b, pos, items⟩ =
      ⟨false, closer b, pos, items⟩ := by
  induction seg generalizing pre with
  | nil => simp [splitLoop]
  | cons c cs ih =>
    simp only [List.all_cons, Bool.and_eq_true] at h
    simp only [List.length_cons, splitLoop]
    rw [splitStep_body _ _ _ _ b c (by simpa using deref_at pre c (cs ++ post)) h.1]
    have := ih (pre ++ [c]) h.2
    simpa using this

theorem splitLoop_space (pre post : List Char) (acc : List Str) :
    splitLoop (pre ++ SP :: post) 1 pre.length ⟨false, NUL, pre.length, acc⟩ =
      ⟨false, NUL, pre.length + 1, acc⟩ := by
  simp only [splitLoop]
  rw [splitStep_space _ _ _ _ (deref_at pre SP post)]
  simp

theorem splitLoop_group (b : Bool) (body pre post : List Char) (acc : List Str)
    (h : body.all (bodyByte (closer b)) = true) :
    splitLoop (pre ++ opener b :: (body ++ closer b :: post)) (1 + (body.length + 1)) pre.length
        ⟨false, NUL, pre.length, acc⟩ =
      ⟨false, NUL, pre.length + 1 + body.length + 1, acc ++ [body]⟩ := by
  rw [splitLoop_add, splitLoop_add]
  have h1 : splitLoop (pre ++ opener b :: (body ++ closer b :: post)) 1 pre.length
      ⟨false, NUL, pre.length, acc⟩ = ⟨false, closer b, pre.length + 1, acc⟩ := by
    simp only [splitLoop]
    rw [splitStep_open _ _ _ _ b (deref_at pre (opener b) _)]
  rw [h1]
  have h2 := splitLoop_body body (pre ++ [opener b]) (closer b :: post) (pre.length + 1) acc b h
  simp only [List.append_assoc, List.singleton_append, List.length_append, List.length_singleton]
    at h2
  rw [h2]
  simp only [splitLoop]
  have h3 : deref (pre ++ opener b :: (body ++ closer b :: post)) (pre.length + 1 + body.length)
      = closer b := by
    have := deref_at (pre ++ opener b :: body) (closer b) post
    have e : (pre ++ opener b :: body).length = pre.length + 1 + body.length := by
      simp; omega
    rw [e] at this
    simpa using this
  rw [splitStep_close _ _ _ _ b h3]
  have h4 : stringN (pre ++ opener b :: (body ++ closer b :: post)) (pre.length + 1)
      (pre.length + 1 + body.length - (pre.length + 1)) = body := by
    have := stringN_at (pre ++ [opener b]) body (closer b :: post)
    simpa using this
  rw [h4]

theorem splitLoop_wordSpace (w pre post : List Char) (acc : List Str)
    (hw : w.all wordByte = true) (hne : w ≠ []) :
    splitLoop (pre ++ (w ++ SP :: post)) (w.length + 1) pre.length
        ⟨false, NUL, pre.length, acc⟩ =
      ⟨false, NUL, pre.length + w.length + 1, acc ++ [w]⟩ := by
  rw [splitLoop_add, splitLoop_word w pre (SP :: post) pre.length acc hw]
  simp only [splitLoop]
  have h3 : deref (pre ++ (w ++ SP :: post)) (pre.length + w.length) = SP := by
    have := deref_at (pre ++ w) SP post
    simpa using this
  rw [splitStep_space _ _ _ _ h3]
  have hlen : 0 < w.length := List.length_pos.mpr hne
  have h4 : stringN (pre ++ (w ++ SP :: post)) pre.length (pre.length + w.length - pre.length)
      = w := by
    have := stringN_at pre w (SP :: post)
    simpa using this
  rw [h4]
  have h5 : pre.length + w.length ≠ pre.length := by omega
  simp [h5]

theorem split_pieces (ps : List Piece) (pre rest : List Char) (acc : List Str)
    (h : wellFormed ps = true) :
    splitFinish (pre ++ (renderLine ps ++ NUL :: rest)) (pre.length + (renderLine ps).length)
      (splitLoop (pre ++ (renderLine ps ++ NUL :: rest)) (renderLine ps).length pre.length
        ⟨false, NUL, pre.length, acc⟩) = acc ++ tokens ps := by
  induction ps generalizing pre acc with
  | nil => simp [renderLine, splitLoop, splitFinish, tokens]
  | cons p ps ih =>
    simp only [wellFormed, Bool.and_eq_true] at h
    obtain ⟨⟨hok, hend⟩, hwf⟩ := h
    cases p with
    | space =>
      have e : renderLine (Piece.space :: ps) = SP :: renderLine ps := by
        simp [renderLine, Piece.render]
      have hl : (SP :: renderLine ps).length = 1 + (renderLine ps).length := by
        simp; omega
      rw [e, hl, splitLoop_add]
      have h1 := splitLoop_space pre (renderLine ps ++ NUL :: rest) acc
      simp only [List.cons_append] at h1 ⊢
      rw [h1]
      have := ih (pre ++ [SP]) acc hwf
      simp only [List.append_assoc, List.singleton_append, List.length_append,
        List.length_singleton] at this
      rw [← Nat.add_assoc]
      simpa [tokens, Piece.token] using this
    | group b body =>
      have e : renderLine (Piece.group b body :: ps) =
          opener b :: (body ++ closer b :: renderLine ps) := by
        simp [renderLine, Piece.render]
      have hl : (opener b :: (body ++ closer b :: renderLine ps)).length =
          (1 + (body.length + 1)) + (renderLine ps).length := by
        simp; omega
      rw [e, hl, splitLoop_add]
      have h1 := splitLoop_group b body pre (renderLine ps ++ NUL :: rest) acc
        (by simpa [Piece.ok] using hok)
      simp only [List.cons_append, List.append_assoc] at h1 ⊢
      rw [h1]
      have := ih (pre ++ opener b :: (body ++ [closer b])) (acc ++ [body]) hwf
      simp only [List.append_assoc, List.singleton_append, List.length_append,
        List.length_singleton, List.cons_append, List.length_cons] at this
      have e1 : pre.length + (1 + (body.length + 1)) = pre.length + 1 + body.length + 1 := by omega
      have e2 : pre.length + (1 + (body.length + 1) + (renderLine ps).length) =
          pre.length + (body.length + 1 + 1) + (renderLine ps).length := by omega
      have e3 : pre.length + 1 + body.length + 1 = pre.length + (body.length + 1 + 1) := by omega
      rw [e1, e2, e3]
      simpa [tokens, Piece.token] using this
    | word w =>
      simp only [Piece.ok, Bool.and_eq_true, bne_iff_ne, ne_eq] at hok
      obtain ⟨hne, hw⟩ := hok
      cases ps with
      | nil =>
        have e : renderLine [Piece.word w] = w := by simp [renderLine, Piece.render]
        rw [e, splitLoop_word w pre (NUL :: rest) pre.length acc hw]
        have hlen : 0 < w.length := List.length_pos.mpr hne
        have h5 : pre.length ≠ pre.length + w.length := by omega
        have hz : stringZ (pre ++ (w ++ NUL :: rest)) pre.length = w := by
          apply stringZ_at
          intro c hc
          have := List.all_eq_true.mp hw c hc
          simp only [wordByte, Bool.and_eq_true, bne_iff_ne, ne_eq] at this
          exact this.2
        simp [splitFinish, h5, hz, tokens, Piece.token]
      | cons q qs =>
        cases q with
        | word w2 => simp [Piece.isWord, wordEnds] at hend
        | group b2 body2 => simp [Piece.isWord, wordEnds] at hend
        | space =>
          have e : renderLine (Piece.word w :: Piece.space :: qs) =
              w ++ SP :: renderLine qs := by
            simp [renderLine, Piece.render]
          have e0 : renderLine (Piece.space :: qs) = SP :: renderLine qs := by
            simp [renderLine, Piece.render]
          have hl : (w ++ SP :: renderLine qs).length = (w.length + 1) + (renderLine qs).length := by
            simp; omega
          rw [e, hl, splitLoop_add]
          have h1 := splitLoop_wordSpace w pre (renderLine qs ++ NUL :: rest) acc hw hne
          simp only [List.cons_append, List.append_assoc] at h1 ⊢
          rw [h1]
          simp only [wellFormed, Bool.and_eq_true] at hwf
          have := ih (pre ++ w) (acc ++ [w]) (by simp [wellFormed, hwf])
          rw [e0] at this
          simp only [List.append_assoc, List.length_append, List.cons_append,
            List.length_cons] at this
          simp only [splitLoop] at this
          have hd : deref (pre ++ (w ++ SP :: (renderLine qs ++ NUL :: rest)))
              (pre.length + w.length) = SP := by
            have := deref_at (pre ++ w) SP (renderLine qs ++ NUL :: rest)
            simpa using this
          rw [splitStep_space _ _ _ _ hd] at this
          simp only [ne_eq, not_true_eq_false, ite_false, if_false] at this
          have e1 : pre.length + (w.length + 1 + (renderLine qs).length) =
              pre.length + w.length + ((renderLine qs).length + 1) := by omega
          have e2 : pre.length + (w.length + 1) = pre.length + w.length + 1 := by omega
          rw [e1, e2]
          simpa [tokens, Piece.token] using this

/-- C2: for every well-formed line (no backslash, every group closed and opened at the
start of a token) that is followed by a `NUL`, `split` appends to `items`, in order, one
token per group, equal to the bytes strictly between its delimiters, and one token per
maximal run of non-space bytes outside groups; spaces yield no token and a final run
without terminating space is captured. -/
theorem split_tokens (ps : List Piece) (rest : List Char) (items : List Str)
    (h : wellFormed ps = true) :
    split (renderLine ps ++ NUL :: rest) (renderLine ps).length items = items ++ tokens ps := by
  have := split_pieces ps [] rest items h
  simpa [split] using this

/-- Witness of C2: the line of `test_split` gives its six tokens. -/
theorem split_tokens_witness :
    wellFormed testPieces = true ∧ renderLine testPieces = testLine ∧
    split (testLine ++ [NUL]) 33 [] =
      ["hello".toList, "1 [] 2".toList, "world".toList, [], "\"\"".toList, "bj".toList] :=
  ⟨by decide, by decide, split_tokens testPieces [] [] (by decide)⟩

/-- C3, evaluated on the code: on the buffer that holds the line of `test_split`, its
newline and a `NUL`, with `nline = 33` excluding the newline, the trailing token that
`split` returns is `bj` followed by the newline, a byte at position `nline`; the buffer
that ends at the `NUL` right after `bj` agrees with it on the first 33 bytes and gives a
different result. -/
theorem split_trailing_token_past_nline :
    split (testLine ++ [NL, NUL]) 33 [] =
      ["hello".toList, "1 [] 2".toList, "world".toList, [], "\"\"".toList, "bj\n".toList] ∧
    (testLine ++ [NL, NUL]).take 33 = (testLine ++ [NUL]).take 33 ∧
    split (testLine ++ [NL, NUL]) 33 [] ≠ split (testLine ++ [NUL]) 33 [] := by
  decide

/-! ## filter -/

theorem absidx_in_range (F : List Str) (s : Int) (hlen : F.length < 2147483648)
    (hs : (1 ≤ s ∧ s ≤ F.length) ∨ (-(F.length : Int) ≤ s ∧ s ≤ -1)) :
    ∃ i : Int, absidx s F.length = some i ∧ 0 ≤ i ∧ i.toNat < F.length ∧
      F.getD i.toNat [] = selectField F s := by
  have hne : F.length ≠ 0 := by omega
  rcases hs with ⟨h1, h2⟩ | ⟨h1, h2⟩
  · refine ⟨s - 1, ?_, by omega, by omega, ?_⟩
    · have hpos : s > 0 := by omega
      simp only [absidx, hne, if_false, hpos, if_true, toSizeT, toInt32]
      congr 1
      omega
    · have hpos : s > 0 := by omega
      simp only [selectField, hpos, if_true]
      congr 1
      omega
  · refine ⟨(F.length : Int) + s, ?_, by omega, by omega, ?_⟩
    · have hpos : ¬ s > 0 := by omega
      simp only [absidx, hne, if_false, hpos, toSizeT, toInt32]
      congr 1
      omega
    · have hpos : ¬ s > 0 := by omega
      simp only [selectField, hpos, if_false]
      congr 1
      omega

theorem filterLoop_in_range (F : List Str) (S : List Int) (result : Str)
    (hlen : F.length < 2147483648) (hres : result ≠ [])
    (hsel : ∀ s ∈ S, (1 ≤ s ∧ s ≤ F.length) ∨ (-(F.length : Int) ≤ s ∧ s ≤ -1)) :
    filterLoop F S result =
      some (true, result ++ (S.map (fun s => SP :: selectField F s)).flatten) := by
  induction S generalizing result with
  | nil => simp [filterLoop]
  | cons s S ih =>
    obtain ⟨i, hi, h0, hlt, hget⟩ := absidx_in_range F s hlen (hsel s (List.mem_cons_self _ _))
    have hcond : ¬ (i < 0 ∨ F.length ≤ i.toNat) := by omega
    simp only [filterLoop, hi, hcond, if_false, hres, ne_eq, not_false_eq_true, if_true, hget]
    rw [ih _ (by simp) (fun s hs => hsel s (List.mem_cons_of_mem _ hs))]
    simp

theorem flatten_eq_joinSP (f : Int → Str) (S : List Int) (hS : S ≠ []) :
    (S.map (fun s => SP :: f s)).flatten = SP :: joinSP (S.map f) := by
  induction S with
  | nil => exact absurd rfl hS
  | cons a S ih =>
    cases S with
    | nil => simp [joinSP]
    | cons b S =>
      have := ih (by simp)
      simp only [List.map_cons, List.flatten_cons] at this ⊢
      rw [this]
      simp [joinSP]

/-- C4: with `withhost` set and a non-empty host, for every field list `F` (of fewer than
2^31 fields, so that an index is an `int`) and every non-empty selector list whose elements
`s` satisfy `1 ≤ s ≤ |F|` or `-|F| ≤ s ≤ -1`, `filter` returns true and its result is the
host, one space, and the selected fields joined by single spaces in the order of the
selectors. -/
theorem filter_selected_fields (ctx : LuaCtx) (F : List Str) (result : Str)
    (hwith : ctx.withhost = true) (hhost : ctx.main.host ≠ [])
    (hlen : F.length < 2147483648) (hS : ctx.filters ≠ [])
    (hsel : ∀ s ∈ ctx.filters, (1 ≤ s ∧ s ≤ F.length) ∨ (-(F.length : Int) ≤ s ∧ s ≤ -1)) :
    filter ctx F result =
      some (true, ctx.main.host ++ [SP] ++ joinSP (ctx.filters.map (selectField F))) := by
  simp only [filter, hwith, if_true]
  rw [filterLoop_in_range F ctx.filters ctx.main.host hlen hhost hsel,
    flatten_eq_joinSP (selectField F) ctx.filters hS]
  simp

/-- Witness of C4: the selectors `[4, 5, 6, -1]` over the nine fields of `test_filter`. -/
theorem filter_selected_fields_witness :
    filter filterCtx testFields [] =
      some (true, testMain.host ++ " 2015-04-02T12:05:05 GET / HTTP/1.0 200 95555".toList) :=
  filter_selected_fields filterCtx testFields [] (by decide) (by decide) (by decide) (by decide)
    (by decide)

/-! ## transform -/

/-- C10: in a context with the `transform` pipeline, for every line `body` followed by its
newline, the callback is given `body` (the line without the newline); when it returns nil,
`transform` returns true with an empty result and `processLine` writes no request; when it
returns a string `s`, the result is the host, a space and `s` with `withhost`, and `s`
itself without, which `processLine` sends unless it is empty; when the callback fails or
returns another type, `transform` returns false, leaves the result alone, and
`processLine` writes no request. -/
theorem transform_outcomes (fuel : Nat) (ctx : LuaCtx) (cb : Str → TransformRet)
    (body rest : List Char) (result : Str) (hcb : ctx.transform = some cb) :
    stringN (body ++ NL :: rest) 0 body.length = body ∧
    (cb body = TransformRet.nil →
      transform ctx (body ++ NL :: rest) body.length result = (true, []) ∧
      processLine fuel ctx (body ++ NL :: rest) (body.length + 1) = some (some true, ctx, [])) ∧
    (∀ s, cb body = TransformRet.str s →
      transform ctx (body ++ NL :: rest) body.length result =
        (true, if ctx.withhost then ctx.main.host ++ [SP] ++ s else s) ∧
      processLine fuel ctx (body ++ NL :: rest) (body.length + 1) =
        some (some true, ctx,
          if (if ctx.withhost then ctx.main.host ++ [SP] ++ s else s) = [] then []
          else [{ idx := ctx.idx,
                  datas := [if ctx.withhost then ctx.main.host ++ [SP] ++ s else s] }])) ∧
    (cb body = TransformRet.error ∨ cb body = TransformRet.other →
      transform ctx (body ++ NL :: rest) body.length result = (false, result) ∧
      processLine fuel ctx (body ++ NL :: rest) (body.length + 1) =
        some (some false, ctx, [])) := by
  have harg : stringN (body ++ NL :: rest) 0 body.length = body := by
    simp [stringN]
  refine ⟨harg, ?_, ?_, ?_⟩
  · intro h
    simp [processLine, transform, hcb, harg, h, processLineEnd]
  · intro s h
    cases hw : ctx.withhost
    · by_cases hs : s = [] <;>
        simp [processLine, transform, hcb, harg, h, processLineEnd, hw, hs]
    · simp [processLine, transform, hcb, harg, h, processLineEnd, hw]
  · intro h
    rcases h with h | h <;>
      simp [processLine, transform, hcb, harg, h, processLineEnd]

/-- Witness of C10: `[error] this` is sent with and without the host, `[debug] that`
gives an empty result. -/
theorem transform_outcomes_witness :
    transform transformCtx "[error] this\n".toList 12 [] =
      (true, testMain.host ++ " [error] this".toList) ∧
    transform { transformCtx with withhost := false } "[error] this\n".toList 12 [] =
      (true, "[error] this".toList) ∧
    transform transformCtx "[debug] that\n".toList 12 [] = (true, []) :=
  ⟨((transform_outcomes 0 transformCtx testTransform "[error] this".toList [] [] rfl).2.2.1
      "[error] this".toList rfl).1,
   ((transform_outcomes 0 { transformCtx with withhost := false } testTransform
      "[error] this".toList [] [] rfl).2.2.1 "[error] this".toList rfl).1,
   ((transform_outcomes 0 transformCtx testTransform "[debug] that".toList [] [] rfl).2.1
      rfl).1⟩

/-! ## grep is never dispatched -/

/-- C9, evaluated on the code: in a context whose only pipeline is `grep`, with a
callback that returns nil, `grep` itself yields an empty result (no record), yet
`processLine` never calls it and sends the raw line `a b` with its newline. -/
theorem processLine_grep_sends_raw_line :
    grep grepNilCtx (split ("a b\n".toList ++ [NUL]) 3 []) [] = (true, []) ∧
    (processLine 1 grepNilCtx ("a b\n".toList ++ [NUL]) 4).map (fun r => r.2.2) =
      some [{ idx := 0, datas := ["a b\n".toList] }] := by
  decide

/-! ## iso8601 and the time field -/

theorem iso8601Loop_digit_never_ends (t : Str) (hd : 48 ≤ (deref t 0).toNat ∧ (deref t 0).toNat ≤ 57)
    (fuel : Nat) (s : IsoState) (hs : s.status = IsoStatus.WaitDay) :
    iso8601Loop t fuel 0 s = none := by
  induction fuel generalizing s with
  | zero => rfl
  | succ fuel ih =>
    have h0 : deref t 0 ≠ NUL := by
      intro h
      rw [h] at hd
      revert hd
      decide
    have h1 : deref t 0 ≠ Char.ofNat 47 := by
      intro h
      rw [h] at hd
      revert hd
      decide
    have h2 : deref t 0 ≠ Char.ofNat 58 := by
      intro h
      rw [h] at hd
      revert hd
      decide
    simp only [iso8601Loop, h0, if_false, iso8601Body, h1, h2, hd, and_self, if_true, hs]
    simp only [show IsoStatus.WaitDay ≠ IsoStatus.WaitYear by decide, if_false, if_true]
    exact ih _ rfl

/-- C7, evaluated on the code: on `28/Feb/2015:12:30:23` the loop of `iso8601` never
ends, whatever the fuel: no branch of its body moves `p`, so it reads the first digit
again and again into `day`. -/
theorem iso8601_does_not_return (fuel : Nat) (iso : Str) :
    iso8601 fuel "28/Feb/2015:12:30:23".toList iso = none := by
  unfold iso8601
  rw [iso8601Loop_digit_never_ends "28/Feb/2015:12:30:23".toList (by decide) fuel _ rfl]

/-- C8, evaluated on the code: with `filter = {1}` and `timeidx = 1`, on the line
`oops rest`, `iso8601` rejects the time field `oops`, and `processLine` still runs the
filter and sends the record `host oops`. -/
theorem processLine_keeps_malformed_time :
    iso8601 1 "oops".toList "oops".toList = some (false, "oops".toList) ∧
    (processLine 1 timeFilterCtx ("oops rest\n".toList ++ [NUL]) 10).map (fun r => (r.1, r.2.2)) =
      some (some true, [{ idx := 0, datas := [testMain.host ++ " oops".toList] }]) := by
  decide

/-! ## aggregate on the lines of the unit test -/

/-- The model on `test_aggregate`: the first two lines give no record, the third one
flushes the single record the test expects. -/
theorem aggregate_test_scenario :
    (aggregateAll
      [aggFields "2015-04-02T12:05:04" "200" "230" "0.1" "10086",
       aggFields "2015-04-02T12:05:04" "200" "270" "0.2" "10086"] aggregateCtx []).map
        (fun r => r.2) = some [] ∧
    (aggregateAll
      [aggFields "2015-04-02T12:05:04" "200" "230" "0.1" "10086",
       aggFields "2015-04-02T12:05:04" "200" "270" "0.2" "10086",
       aggFields "2015-04-02T12:05:05" "404" "250" "0.2" "95555"] aggregateCtx []).map
        (fun r => r.2) =
      some [testMain.host ++
        " 2015-04-02T12:05:04 10086 reqt<0.1=1 reqt<0.3=1 size=500 status_200=2".toList] := by
  decide

/-- C5, evaluated on the code: a line under time-key `T1` whose callback returns the
delta `-5` for key `k` of primary key `pk`, followed by a line under `T2`, flushes the
record `host T1 pk k=+`: `to_string` writes `+` for `-5`, not its decimal form. -/
theorem aggregate_negative_sum_record :
    (aggregateAll [["T1".toList], ["T2".toList]] negativeCtx []).map (fun r => r.2) =
      some [testMain.host ++ " T1 pk k=+".toList] ∧
    to_string (-5) = "+".toList := by
  decide

/-! ## aggregate does not depend on the order of the lines of one time-key -/

theorem strLt_irrefl (a : Str) : strLt a a = false := by
  induction a with
  | nil => rfl
  | cons x xs ih => simp [strLt, ih]

theorem strLt_asymm (a b : Str) (h : strLt a b = true) : strLt b a = false := by
  induction a generalizing b with
  | nil => cases b <;> simp [strLt] at h ⊢
  | cons x xs ih =>
    cases b with
    | nil => simp [strLt] at h
    | cons y ys =>
      simp only [strLt] at h ⊢
      by_cases h1 : x < y
      · have h2 : ¬ y < x := lt_asymm h1
        simp [h1, h2]
      · by_cases h2 : y < x
        · simp [h1, h2] at h
        · simp only [h1, h2, if_false] at h ⊢
          exact ih ys h

theorem strLt_total (a b : Str) (hne : a ≠ b) (h : strLt a b = false) : strLt b a = true := by
  induction a generalizing b with
  | nil =>
    cases b with
    | nil => exact absurd rfl hne
    | cons y ys => simp [strLt] at h
  | cons x xs ih =>
    cases b with
    | nil => simp [strLt]
    | cons y ys =>
      simp only [strLt] at h ⊢
      by_cases h1 : x < y
      · simp [h1] at h
      · by_cases h2 : y < x
        · simp [h2]
        · simp only [h1, h2, if_false] at h ⊢
          have hxy : x = y := le_antisymm (not_lt.mp h2) (not_lt.mp h1)
          subst hxy
          exact ih ys (fun e => hne (by rw [e])) h

theorem strLt_trans (a b c : Str) (h1 : strLt a b = true) (h2 : strLt b c = true) :
    strLt a c = true := by
  induction a generalizing b c with
  | nil =>
    cases b with
    | nil => simp [strLt] at h1
    | cons y ys =>
      cases c with
      | nil => simp [strLt] at h2
      | cons z zs => simp [strLt]
  | cons x xs ih =>
    cases b with
    | nil => simp [strLt] at h1
    | cons y ys =>
      cases c with
      | nil => simp [strLt] at h2
      | cons z zs =>
        simp only [strLt] at h1 h2 ⊢
        by_cases hxy : x < y
        · by_cases hyz : y < z
          · simp [lt_trans hxy hyz]
          · by_cases hzy : z < y
            · simp [hyz, hzy] at h2
            · have : y = z := le_antisymm (not_lt.mp hzy) (not_lt.mp hyz)
              subst this
              simp [hxy]
        · by_cases hyx : y < x
          · simp [hxy, hyx] at h1
          · have : x = y := le_antisymm (not_lt.mp hyx) (not_lt.mp hxy)
            subst this
            simp only [hxy, if_false] at h1
            by_cases hyz : x < z
            · simp [hyz]
            · by_cases hzy : z < x
              · simp [hyz, hzy] at h2
              · simp only [hyz, hzy, if_false] at h2 ⊢
                exact ih ys zs h1 h2

theorem mapUpdate_comm {V : Type} (k k2 : Str) (f g : V → V) (d : V)
    (hfg : k = k2 → ∀ v, f (g v) = g (f v)) (m : List (Str × V)) :
    mapUpdate k f d (mapUpdate k2 g d m) = mapUpdate k2 g d (mapUpdate k f d m) := by
  induction m with
  | nil =>
    by_cases hk : k = k2
    · subst hk
      simp [mapUpdate, hfg rfl]
    · have hk2 : k2 ≠ k := fun e => hk e.symm
      by_cases hlt : strLt k k2 = true
      · have := strLt_asymm _ _ hlt
        simp [mapUpdate, hk, hk2, hlt, this]
      · have hlt2 : strLt k k2 = false := by simpa using hlt
        have := strLt_total _ _ hk hlt2
        simp [mapUpdate, hk, hk2, hlt2, this]
  | cons e rest ih =>
    obtain ⟨k0, v0⟩ := e
    by_cases h1 : k = k0
    · subst h1
      by_cases h2 : k2 = k
      · subst h2
        simp [mapUpdate, hfg rfl]
      · have h2s : k ≠ k2 := fun e => h2 e.symm
        by_cases hlt : strLt k2 k = true
        · have := strLt_asymm _ _ hlt
          simp [mapUpdate, h2, h2s, hlt, this]
        · have hlt2 : strLt k2 k = false := by simpa using hlt
          simp [mapUpdate, h2, hlt2]
    · by_cases h2 : k2 = k0
      · subst h2
        have h1s : k2 ≠ k := fun e => h1 e.symm
        by_cases hlt : strLt k k2 = true
        · have := strLt_asymm _ _ hlt
          simp [mapUpdate, h1, h1s, hlt, this]
        · have hlt2 : strLt k k2 = false := by simpa using hlt
          simp [mapUpdate, h1, hlt2]
      · by_cases ha : strLt k k0 = true
        · by_cases hb : strLt k2 k0 = true
          · by_cases hk : k = k2
            · subst hk
              simp [mapUpdate, h1, ha, hfg rfl]
            · have hk2 : k2 ≠ k := fun e => hk e.symm
              by_cases hlt : strLt k k2 = true
              · have := strLt_asymm _ _ hlt
                simp [mapUpdate, h1, h2, ha, hb, hk, hk2, hlt, this]
              · have hlt2 : strLt k k2 = false := by simpa using hlt
                have := strLt_total _ _ hk hlt2
                simp [mapUpdate, h1, h2, ha, hb, hk, hk2, hlt2, this]
          · have hb2 : strLt k2 k0 = false := by simpa using hb
            have hb3 : strLt k0 k2 = true := strLt_total _ _ h2 hb2
            have hkk : strLt k k2 = true := strLt_trans _ _ _ ha hb3
            have hkk2 : strLt k2 k = false := strLt_asymm _ _ hkk
            have hne : k ≠ k2 := by
              intro e
              rw [e, strLt_irrefl] at hkk
              exact Bool.false_ne_true hkk
            have hne2 : k2 ≠ k := fun e => hne e.symm
            simp [mapUpdate, h1, h2, ha, hb2, hne, hne2, hkk, hkk2]
        · have ha2 : strLt k k0 = false := by simpa using ha
          by_cases hb : strLt k2 k0 = true
          · have ha3 : strLt k0 k = true := strLt_total _ _ h1 ha2
            have hkk : strLt k2 k = true := strLt_trans _ _ _ hb ha3
            have hkk2 : strLt k k2 = false := strLt_asymm _ _ hkk
            have hne : k2 ≠ k := by
              intro e
              rw [e, strLt_irrefl] at hkk
              exact Bool.false_ne_true hkk
            have hne2 : k ≠ k2 := fun e => hne e.symm
            simp [mapUpdate, h1, h2, ha2, hb, hne, hne2, hkk, hkk2]
          · have hb2 : strLt k2 k0 = false := by simpa using hb
            simp [mapUpdate, h1, h2, ha2, hb2, ih]

theorem toInt32_add_comm (v a b : Int) :
    toInt32 (toInt32 (v + a) + b) = toInt32 (toInt32 (v + b) + a) := by
  unfold toInt32
  omega

theorem cacheAdd_comm (cache : SSIHash) (p1 k1 : Str) (v1 : Int) (p2 k2 : Str) (v2 : Int) :
    cacheAdd (cacheAdd cache p1 k1 v1) p2 k2 v2 = cacheAdd (cacheAdd cache p2 k2 v2) p1 k1 v1 := by
  unfold cacheAdd
  apply mapUpdate_comm
  intro _ inner
  apply mapUpdate_comm
  intro _ v
  exact toInt32_add_comm v v1 v2

theorem aggregateLoop_cache (pkey : Str) (entries : List AggEntry) (cache : SSIHash) :
    (aggregateLoop pkey entries cache).2 =
      ((goodEntries entries).map (fun e => (pkey, e.1, e.2))).foldl applyUpdate cache := by
  induction entries generalizing cache with
  | nil => rfl
  | cons e rest ih =>
    cases e with
    | none => rfl
    | some kv =>
      obtain ⟨k, v⟩ := kv
      simp only [aggregateLoop, goodEntries, List.map_cons, List.foldl_cons]
      rw [ih]
      rfl

theorem aggregate_step (ctx : LuaCtx) (T : Str) (f : List Str) (results : List Str)
    (ht : timeKey ctx.timeidx f = some T) :
    ∃ rc, aggregate ctx f results =
      some (rc,
        { ctx with
          lasttime := T,
          cache := (lineUpdates ctx.aggregate f).foldl applyUpdate
            (if ctx.lasttime ≠ [] ∧ T ≠ ctx.lasttime then [] else ctx.cache) },
        if ctx.lasttime ≠ [] ∧ T ≠ ctx.lasttime then serializeCache ctx results else results) := by
  unfold timeKey at ht
  cases hi : absidx ctx.timeidx f.length with
  | none => simp [hi] at ht
  | some i =>
    simp only [hi] at ht
    simp only [aggregate, hi, ht]
    by_cases hflush : ctx.lasttime ≠ [] ∧ T ≠ ctx.lasttime
    · simp only [if_pos hflush]
      cases hcb : ctx.aggregate with
      | none => exact ⟨false, by simp [lineUpdates]⟩
      | some cb =>
        simp only [lineUpdates]
        cases hr : cb (f.map c_str) with
        | error => exact ⟨false, by simp⟩
        | badKey => exact ⟨false, by simp⟩
        | badTable p => exact ⟨false, by simp⟩
        | ret pkey entries =>
          refine ⟨(aggregateLoop pkey entries []).1, ?_⟩
          simp [aggregateLoop_cache]
    · simp only [if_neg hflush]
      cases hcb : ctx.aggregate with
      | none => exact ⟨false, by simp [lineUpdates]⟩
      | some cb =>
        simp only [lineUpdates]
        cases hr : cb (f.map c_str) with
        | error => exact ⟨false, by simp⟩
        | badKey => exact ⟨false, by simp⟩
        | badTable p => exact ⟨false, by simp⟩
        | ret pkey entries =>
          refine ⟨(aggregateLoop pkey entries ctx.cache).1, ?_⟩
          simp [aggregateLoop_cache]

theorem mem_mapUpdate {V : Type} (k : Str) (f : V → V) (d : V) (m : List (Str × V))
    (e : Str × V) (he : e ∈ mapUpdate k f d m) :
    e ∈ m ∨ (e.1 = k ∧ (e.2 = f d ∨ ∃ v, (k, v) ∈ m ∧ e.2 = f v)) := by
  induction m with
  | nil =>
    simp only [mapUpdate, List.mem_singleton] at he
    right
    subst he
    exact ⟨rfl, Or.inl rfl⟩
  | cons x rest ih =>
    obtain ⟨k0, v0⟩ := x
    simp only [mapUpdate] at he
    by_cases h1 : k = k0
    · subst h1
      simp only [if_true, List.mem_cons] at he
      rcases he with h | h
      · right
        subst h
        exact ⟨rfl, Or.inr ⟨v0, List.mem_cons_self _ _, rfl⟩⟩
      · left
        exact List.mem_cons_of_mem _ h
    · by_cases h2 : strLt k k0 = true
      · simp only [h1, if_false, h2, if_true, List.mem_cons] at he
        rcases he with h | h | h
        · right
          subst h
          exact ⟨rfl, Or.inl rfl⟩
        · left
          subst h
          exact List.mem_cons_self _ _
        · left
          exact List.mem_cons_of_mem _ h
      · have h2f : strLt k k0 = false := by simpa using h2
        simp only [h1, if_false, h2f, Bool.false_eq_true, List.mem_cons] at he
        rcases he with h | h
        · left
          subst h
          exact List.mem_cons_self _ _
        · rcases ih h with h3 | ⟨h3, h4⟩
          · left
            exact List.mem_cons_of_mem _ h3
          · right
            refine ⟨h3, ?_⟩
            rcases h4 with h4 | ⟨v, hv, h4⟩
            · exact Or.inl h4
            · exact Or.inr ⟨v, List.mem_cons_of_mem _ hv, h4⟩

theorem mapUpdate_ascending {V : Type} (k : Str) (f : V → V) (d : V) (m : List (Str × V))
    (h : keysAscending m) : keysAscending (mapUpdate k f d m) := by
  induction m with
  | nil => simp [mapUpdate, keysAscending]
  | cons x rest ih =>
    obtain ⟨k0, v0⟩ := x
    unfold keysAscending at h ih ⊢
    rw [List.pairwise_cons] at h
    obtain ⟨hhead, htail⟩ := h
    simp only [mapUpdate]
    by_cases h1 : k = k0
    · subst h1
      simp only [if_true]
      rw [List.pairwise_cons]
      exact ⟨hhead, htail⟩
    · by_cases h2 : strLt k k0 = true
      · simp only [h1, if_false, h2, if_true]
        rw [List.pairwise_cons, List.pairwise_cons]
        refine ⟨?_, hhead, htail⟩
        intro b hb
        rcases List.mem_cons.mp hb with h | h
        · subst h
          exact h2
        · exact strLt_trans _ _ _ h2 (hhead b h)
      · have h2f : strLt k k0 = false := by simpa using h2
        simp only [h1, if_false, h2f, Bool.false_eq_true]
        rw [List.pairwise_cons]
        refine ⟨?_, ih htail⟩
        intro b hb
        rcases mem_mapUpdate k f d rest b hb with h | ⟨h, _⟩
        · exact hhead b h
        · show strLt k0 b.1 = true
          rw [h]
          exact strLt_total _ _ h1 h2f

theorem mapGet_of_lt {V : Type} (k : Str) (d : V) (m : List (Str × V))
    (h : ∀ b ∈ m, strLt k b.1 = true) : mapGet k d m = d := by
  induction m with
  | nil => rfl
  | cons x rest ih =>
    obtain ⟨k0, v0⟩ := x
    have h0 : strLt k k0 = true := h (k0, v0) (List.mem_cons_self _ _)
    have hne : k ≠ k0 := by
      intro e
      rw [e, strLt_irrefl] at h0
      exact Bool.false_ne_true h0
    simp only [mapGet, hne, if_false]
    exact ih (fun b hb => h b (List.mem_cons_of_mem _ hb))

theorem mapGet_mapUpdate_same {V : Type} (k : Str) (f : V → V) (d : V) (m : List (Str × V))
    (h : keysAscending m) : mapGet k d (mapUpdate k f d m) = f (mapGet k d m) := by
  induction m with
  | nil => simp [mapUpdate, mapGet]
  | cons x rest ih =>
    obtain ⟨k0, v0⟩ := x
    unfold keysAscending at h ih
    rw [List.pairwise_cons] at h
    obtain ⟨hhead, htail⟩ := h
    by_cases h1 : k = k0
    · subst h1
      simp [mapUpdate, mapGet]
    · by_cases h2 : strLt k k0 = true
      · have : mapGet k d rest = d :=
          mapGet_of_lt k d rest (fun b hb => strLt_trans _ _ _ h2 (hhead b hb))
        simp [mapUpdate, mapGet, h1, h2, this]
      · simp [mapUpdate, mapGet, h1, h2, ih htail]

theorem mapGet_mapUpdate_other {V : Type} (k k2 : Str) (f : V → V) (d : V)
    (m : List (Str × V)) (hne : k2 ≠ k) :
    mapGet k2 d (mapUpdate k f d m) = mapGet k2 d m := by
  induction m with
  | nil => simp [mapUpdate, mapGet, hne]
  | cons x rest ih =>
    obtain ⟨k0, v0⟩ := x
    by_cases h1 : k = k0
    · subst h1
      simp [mapUpdate, mapGet, hne]
    · by_cases h2 : strLt k k0 = true
      · simp [mapUpdate, mapGet, h1, h2, hne]
      · by_cases h3 : k2 = k0
        · simp [mapUpdate, mapGet, h1, h2, h3]
        · simp [mapUpdate, mapGet, h1, h2, h3, ih]

theorem mapGet_ascending (p : Str) (cache : SSIHash) (h : ∀ e ∈ cache, keysAscending e.2) :
    keysAscending (mapGet p [] cache) := by
  induction cache with
  | nil => simp [mapGet, keysAscending]
  | cons x rest ih =>
    obtain ⟨k0, v0⟩ := x
    by_cases h1 : p = k0
    · simp only [mapGet, h1, if_true]
      exact h (k0, v0) (List.mem_cons_self _ _)
    · simp only [mapGet, h1, if_false]
      exact ih (fun e he => h e (List.mem_cons_of_mem _ he))

theorem cacheAdd_ordered (cache : SSIHash) (p k : Str) (v : Int) (h : cacheOrdered cache) :
    cacheOrdered (cacheAdd cache p k v) := by
  obtain ⟨h1, h2⟩ := h
  refine ⟨mapUpdate_ascending _ _ _ _ h1, ?_⟩
  intro e he
  rcases mem_mapUpdate _ _ _ _ e he with h3 | ⟨_, h3 | ⟨inner, hin, h3⟩⟩
  · exact h2 e h3
  · rw [h3]
    exact mapUpdate_ascending _ _ _ _ (by simp [keysAscending])
  · rw [h3]
    exact mapUpdate_ascending _ _ _ _ (h2 (p, inner) hin)

theorem cacheGet_cacheAdd (cache : SSIHash) (p k : Str) (v : Int) (p2 k2 : Str)
    (h : cacheOrdered cache) :
    cacheGet (cacheAdd cache p k v) p2 k2 =
      if p2 = p ∧ k2 = k then toInt32 (cacheGet cache p k + v) else cacheGet cache p2 k2 := by
  obtain ⟨h1, h2⟩ := h
  unfold cacheGet cacheAdd
  by_cases hp : p2 = p
  · subst hp
    rw [mapGet_mapUpdate_same _ _ _ _ h1]
    by_cases hk : k2 = k
    · subst hk
      rw [mapGet_mapUpdate_same _ _ _ _ (mapGet_ascending _ _ h2)]
      simp
    · rw [mapGet_mapUpdate_other _ _ _ _ _ hk]
      simp [hk]
  · rw [mapGet_mapUpdate_other _ _ _ _ _ hp]
    simp [hp]

theorem foldl_applyUpdate_ordered (us : List Update) (cache : SSIHash)
    (h : cacheOrdered cache) : cacheOrdered (us.foldl applyUpdate cache) := by
  induction us generalizing cache with
  | nil => exact h
  | cons u us ih => exact ih _ (cacheAdd_ordered _ _ _ _ h)

theorem cacheGet_foldl (us : List Update) (cache : SSIHash) (p k : Str)
    (h : cacheOrdered cache) :
    cacheGet (us.foldl applyUpdate cache) p k = sumDeltas p k us (cacheGet cache p k) := by
  induction us generalizing cache with
  | nil => rfl
  | cons u us ih =>
    simp only [List.foldl_cons, sumDeltas]
    have hord : cacheOrdered (applyUpdate cache u) := cacheAdd_ordered _ _ _ _ h
    rw [ih _ hord]
    unfold applyUpdate
    rw [cacheGet_cacheAdd _ _ _ _ _ _ h]
    by_cases hc : u.1 = p ∧ u.2.1 = k
    · obtain ⟨h1, h2⟩ := hc
      simp [h1, h2]
    · have hc2 : ¬ (p = u.1 ∧ k = u.2.1) := fun ⟨a, b⟩ => hc ⟨a.symm, b.symm⟩
      simp [hc, hc2]

theorem aggregateAll_steady (T : Str) (l : List (List Str)) (ctx : LuaCtx) (results : List Str)
    (hlast : ctx.lasttime = T) (ht : ∀ f ∈ l, timeKey ctx.timeidx f = some T) :
    aggregateAll l ctx results =
      some ({ ctx with
              lasttime := T,
              cache := (l.flatMap (lineUpdates ctx.aggregate)).foldl applyUpdate ctx.cache },
            results) := by
  induction l generalizing ctx with
  | nil =>
    subst hlast
    simp [aggregateAll]
  | cons f fs ih =>
    obtain ⟨rc, hstep⟩ := aggregate_step ctx T f results (ht f (List.mem_cons_self _ _))
    have hnf : ¬ (ctx.lasttime ≠ [] ∧ T ≠ ctx.lasttime) := by
      intro h
      exact h.2 hlast.symm
    simp only [if_neg hnf] at hstep
    simp only [aggregateAll, hstep]
    refine (ih _ ?_ ?_).trans ?_
    · rfl
    · exact fun g hg => ht g (List.mem_cons_of_mem _ hg)
    · simp [List.flatMap_cons, List.foldl_append]

theorem aggregateAll_cons (T : Str) (f : List Str) (fs : List (List Str)) (ctx : LuaCtx)
    (results : List Str) (ht : ∀ g ∈ f :: fs, timeKey ctx.timeidx g = some T) :
    aggregateAll (f :: fs) ctx results =
      some ({ ctx with
              lasttime := T,
              cache := ((f :: fs).flatMap (lineUpdates ctx.aggregate)).foldl applyUpdate
                (if ctx.lasttime ≠ [] ∧ T ≠ ctx.lasttime then [] else ctx.cache) },
            if ctx.lasttime ≠ [] ∧ T ≠ ctx.lasttime then serializeCache ctx results
            else results) := by
  obtain ⟨rc, hstep⟩ := aggregate_step ctx T f results (ht f (List.mem_cons_self _ _))
  simp only [aggregateAll, hstep]
  refine (aggregateAll_steady T fs _ _ ?_ ?_).trans ?_
  · rfl
  · exact fun g hg => ht g (List.mem_cons_of_mem _ hg)
  · simp [List.flatMap_cons, List.foldl_append]

theorem foldl_applyUpdate_perm (us vs : List Update) (h : us.Perm vs) (cache : SSIHash) :
    us.foldl applyUpdate cache = vs.foldl applyUpdate cache := by
  apply List.Perm.foldl_eq' h
  intro x _ y _ z
  exact cacheAdd_comm z x.1 x.2.1 x.2.2 y.1 y.2.1 y.2.2

/-- C6: for every list of lines that share the time-key `T` and every permutation of it,
with the callback a fixed function of the line, running `aggregate` over the lines in
either order ends, from any context, with the same results, the same `lasttime` and the
same cache: the initial cache (emptied if the first line rolls the key over) with every
delta of every line added, so that each counter is the 32-bit sum of its deltas when the
cache is a well-formed `std::map`, and `serializeCache` yields the same records for both
orders. -/
theorem aggregate_order_independent (ctx : LuaCtx) (T : Str) (l1 l2 : List (List Str))
    (results : List Str) (hperm : l1.Perm l2)
    (ht : ∀ f ∈ l1, timeKey ctx.timeidx f = some T) :
    ∃ c1 c2 r,
      aggregateAll l1 ctx results = some (c1, r) ∧
      aggregateAll l2 ctx results = some (c2, r) ∧
      c1.cache = c2.cache ∧ c1.lasttime = c2.lasttime ∧
      (l1 ≠ [] → c1.cache = (l1.flatMap (lineUpdates ctx.aggregate)).foldl applyUpdate
        (if ctx.lasttime ≠ [] ∧ T ≠ ctx.lasttime then [] else ctx.cache)) ∧
      (l1 ≠ [] → cacheOrdered ctx.cache → ∀ p k : Str,
        cacheGet c1.cache p k = sumDeltas p k (l1.flatMap (lineUpdates ctx.aggregate))
          (cacheGet (if ctx.lasttime ≠ [] ∧ T ≠ ctx.lasttime then [] else ctx.cache) p k)) ∧
      serializeCache c1 [] = serializeCache c2 [] := by
  have ht2 : ∀ f ∈ l2, timeKey ctx.timeidx f = some T := fun f hf => ht f (hperm.mem_iff.mpr hf)
  cases l1 with
  | nil =>
    have : l2 = [] := List.Perm.eq_nil hperm.symm
    subst this
    exact ⟨ctx, ctx, results, rfl, rfl, rfl, rfl, fun h => absurd rfl h,
      fun h => absurd rfl h, rfl⟩
  | cons f fs =>
    cases l2 with
    | nil => exact absurd (List.Perm.eq_nil hperm) (by simp)
    | cons g gs =>
      have hc := foldl_applyUpdate_perm _ _
        (List.Perm.flatMap_right (lineUpdates ctx.aggregate) hperm)
        (if ctx.lasttime ≠ [] ∧ T ≠ ctx.lasttime then [] else ctx.cache)
      refine ⟨_, _, _, aggregateAll_cons T f fs ctx results ht, ?_, rfl, rfl, fun _ => rfl,
        ?_, rfl⟩
      · rw [aggregateAll_cons T g gs ctx results ht2, ← hc]
      · intro _ hord p k
        apply cacheGet_foldl
        by_cases hflush : ctx.lasttime ≠ [] ∧ T ≠ ctx.lasttime
        · rw [if_pos hflush]
          exact ⟨by simp [keysAscending], by simp⟩
        · rw [if_neg hflush]
          exact hord

/-- Witness of C6: the first two lines of `test_aggregate`, in both orders. -/
theorem aggregate_order_independent_witness :
    (∃ c1 c2 r,
      aggregateAll
        [aggFields "2015-04-02T12:05:04" "200" "230" "0.1" "10086",
         aggFields "2015-04-02T12:05:04" "200" "270" "0.2" "10086"] aggregateCtx [] =
          some (c1, r) ∧
      aggregateAll
        [aggFields "2015-04-02T12:05:04" "200" "270" "0.2" "10086",
         aggFields "2015-04-02T12:05:04" "200" "230" "0.1" "10086"] aggregateCtx [] =
          some (c2, r) ∧
      c1.cache = c2.cache ∧ c1.lasttime = c2.lasttime ∧
      ([aggFields "2015-04-02T12:05:04" "200" "230" "0.1" "10086",
        aggFields "2015-04-02T12:05:04" "200" "270" "0.2" "10086"] ≠ [] →
        c1.cache =
          ([aggFields "2015-04-02T12:05:04" "200" "230" "0.1" "10086",
            aggFields "2015-04-02T12:05:04" "200" "270" "0.2" "10086"].flatMap
              (lineUpdates aggregateCtx.aggregate)).foldl applyUpdate
            (if aggregateCtx.lasttime ≠ [] ∧ "2015-04-02T12:05:04".toList ≠ aggregateCtx.lasttime
              then [] else aggregateCtx.cache)) ∧
      ([aggFields "2015-04-02T12:05:04" "200" "230" "0.1" "10086",
        aggFields "2015-04-02T12:05:04" "200" "270" "0.2" "10086"] ≠ [] →
        cacheOrdered aggregateCtx.cache → ∀ p k : Str,
        cacheGet c1.cache p k =
          sumDeltas p k
            ([aggFields "2015-04-02T12:05:04" "200" "230" "0.1" "10086",
              aggFields "2015-04-02T12:05:04" "200" "270" "0.2" "10086"].flatMap
                (lineUpdates aggregateCtx.aggregate))
            (cacheGet
              (if aggregateCtx.lasttime ≠ [] ∧
                  "2015-04-02T12:05:04".toList ≠ aggregateCtx.lasttime
                then [] else aggregateCtx.cache) p k)) ∧
      serializeCache c1 [] = serializeCache c2 []) ∧
    (aggregateAll
      [aggFields "2015-04-02T12:05:04" "200" "270" "0.2" "10086",
       aggFields "2015-04-02T12:05:04" "200" "230" "0.1" "10086"] aggregateCtx []).map
        (fun r => serializeCache r.1 []) =
      some [testMain.host ++
        " 2015-04-02T12:05:04 10086 reqt<0.1=1 reqt<0.3=1 size=500 status_200=2".toList] :=
  ⟨aggregate_order_independent aggregateCtx "2015-04-02T12:05:04".toList _ _ []
      (List.Perm.swap _ _ []) (by decide),
   by decide⟩

theorem aggregateAll_append (l1 l2 : List (List Str)) (ctx : LuaCtx) (results : List Str) :
    aggregateAll (l1 ++ l2) ctx results =
      match aggregateAll l1 ctx results with
      | none => none
      | some r => aggregateAll l2 r.1 r.2 := by
  induction l1 generalizing ctx results with
  | nil => simp [aggregateAll]
  | cons f fs ih =>
    simp only [List.cons_append, aggregateAll]
    cases aggregate ctx f results with
    | none => rfl
    | some r => exact ih r.2.1 r.2.2

/-- The rollover of `aggregate`, as C5 describes it apart from the decimal form of the
counters: from an empty cache, lines that share the non-empty time-key `T` append nothing
and leave in the cache their deltas, added up; a following line under another time-key
appends one record per entry of that cache, built by `serializeCache` under `lasttime = T`,
and leaves `lasttime` at the new key and in the cache its own deltas only. -/
theorem aggregate_rollover (ctx : LuaCtx) (T T2 : Str) (l : List (List Str)) (last : List Str)
    (hcache : ctx.cache = []) (hT : T ≠ []) (hT2 : T2 ≠ T) (hl : l ≠ [])
    (ht : ∀ f ∈ l, timeKey ctx.timeidx f = some T)
    (ht2 : timeKey ctx.timeidx last = some T2) :
    ∃ c1 c2 : LuaCtx,
      aggregateAll l ctx [] = some (c1, []) ∧
      c1.cache = (l.flatMap (lineUpdates ctx.aggregate)).foldl applyUpdate [] ∧
      aggregateAll (l ++ [last]) ctx [] =
        some (c2, c1.cache.map (fun e => serializeOne { ctx with lasttime := T } e.1 e.2)) ∧
      c2.lasttime = T2 ∧
      c2.cache = (lineUpdates ctx.aggregate last).foldl applyUpdate [] := by
  cases l with
  | nil => exact absurd rfl hl
  | cons f fs =>
    have h1 := aggregateAll_cons T f fs ctx [] ht
    have hc0 : (if ctx.lasttime ≠ [] ∧ T ≠ ctx.lasttime then ([] : SSIHash) else ctx.cache) = [] := by
      rw [hcache]
      simp
    have hr0 : (if ctx.lasttime ≠ [] ∧ T ≠ ctx.lasttime then serializeCache ctx [] else [])
        = [] := by
      simp [serializeCache, hcache]
    rw [hc0, hr0] at h1
    obtain ⟨rc, h2⟩ := aggregate_step
      { ctx with
        lasttime := T,
        cache := ((f :: fs).flatMap (lineUpdates ctx.aggregate)).foldl applyUpdate [] }
      T2 last [] ht2
    have hflush : T ≠ [] ∧ T2 ≠ T := ⟨hT, hT2⟩
    simp only [if_pos hflush] at h2
    refine ⟨{ ctx with
              lasttime := T,
              cache := ((f :: fs).flatMap (lineUpdates ctx.aggregate)).foldl applyUpdate [] },
            { ctx with
              lasttime := T2,
              cache := (lineUpdates ctx.aggregate last).foldl applyUpdate [] },
            h1, rfl, ?_, rfl, rfl⟩
    rw [aggregateAll_append, h1]
    simp only [aggregateAll, h2]
    simp [serializeCache, serializeOne]

/-! ## tail2kafka on the raw pipeline -/

theorem memchr_not_mem (W rest : List Char) (c : Char) (h : c ∉ W) :
    memchr (W ++ rest) c W.length = none := by
  induction W with
  | nil => simp [memchr]
  | cons x xs ih =>
    have hx : x ≠ c := fun e => h (by simp [e])
    have hxs : c ∉ xs := fun e => h (List.mem_cons_of_mem _ e)
    simp [memchr, hx, ih hxs]

theorem memchr_first (b W rest : List Char) (c : Char) (h : c ∉ b) :
    memchr (b ++ c :: W ++ rest) c (b ++ c :: W).length = some b.length := by
  induction b with
  | nil => simp [memchr]
  | cons x xs ih =>
    have hx : x ≠ c := fun e => h (by simp [e])
    have hxs : c ∉ xs := fun e => h (List.mem_cons_of_mem _ e)
    have e : memchr ((x :: xs) ++ c :: W ++ rest) c ((x :: xs) ++ c :: W).length =
        Option.map (fun p => p + 1) (memchr (xs ++ c :: W ++ rest) c (xs ++ c :: W).length) := by
      simp [memchr, hx]
    rw [e, ih hxs]
    rfl

theorem processLine_raw (fuel : Nat) (ctx : LuaCtx) (hraw : isRaw ctx) (line : Mem) (nline : Nat)
    (hne : stringN line 0 nline ≠ []) :
    processLine fuel ctx line nline = some (none, ctx, [rawReq ctx (stringN line 0 nline)]) := by
  obtain ⟨h1, h2, h3⟩ := hraw
  simp [processLine, h1, h2, h3, processLineEnd, hne, rawReq]

theorem scanLoop_raw (ctx : LuaCtx) (hraw : isRaw ctx) (fuel : Nat) :
    ∀ (n : Nat) (out : List OneTaskReq) (W rest : List Char),
      ctx.buffer.drop n = W ++ rest → ctx.npos = n + W.length → W.length < fuel →
      ∃ (lines : List Str) (residue : List Char), W = lines.flatten ++ residue ∧ (∀ l ∈ lines, isLine l) ∧ NL ∉ residue ∧
        scanLoop fuel ctx n out =
          some (ctx, n + lines.flatten.length, out ++ lines.map (rawReq ctx)) := by
  induction fuel with
  | zero => intro n out W rest _ _ h; omega
  | succ k ih =>
    intro n out W rest hbuf hnpos hfuel
    have hlen : ctx.npos - n = W.length := by omega
    by_cases hmem : NL ∈ W
    · obtain ⟨b, W2, hW, hb⟩ := List.eq_append_cons_of_mem hmem
      subst hW
      have hm : memchr (ctx.buffer.drop n) NL (ctx.npos - n) = some b.length := by
        rw [hbuf, hlen]
        exact memchr_first b W2 rest NL hb
      have hs : stringN (ctx.buffer.drop n) 0 (b.length + 1) = b ++ [NL] := by
        rw [hbuf]
        simp [stringN, List.take_append_eq_append_take]
      have hp := processLine_raw k ctx hraw (ctx.buffer.drop n) (b.length + 1)
        (by rw [hs]; simp)
      rw [hs] at hp
      by_cases hW2 : W2 = []
      · subst hW2
        refine ⟨[b ++ [NL]], [], by simp, ?_, by simp, ?_⟩
        · intro l hl
          simp only [List.mem_singleton] at hl
          exact ⟨b, hl, hb⟩
        · have hn : n + b.length + 1 = ctx.npos := by
            simp only [List.length_append, List.length_cons, List.length_nil] at hnpos
            omega
          simp only [scanLoop, hm, hp, hn, if_true]
          have e1 : n + ([b ++ [NL]] : List Str).flatten.length = ctx.npos := by
            rw [← hn]
            simp
            omega
          rw [e1]
          simp
      · have hn : ¬ (n + b.length + 1 = ctx.npos) := by
          have : 0 < W2.length := List.length_pos.mpr hW2
          simp only [List.length_append, List.length_cons] at hnpos
          omega
        have hdrop : ctx.buffer.drop (n + b.length + 1) = W2 ++ rest := by
          have : ctx.buffer.drop (n + b.length + 1) = (ctx.buffer.drop n).drop (b.length + 1) := by
            rw [List.drop_drop]
            congr 1
          rw [this, hbuf]
          have e : b ++ NL :: W2 ++ rest = (b ++ [NL]) ++ (W2 ++ rest) := by simp
          rw [e, List.drop_left' (by simp)]
        obtain ⟨lines, residue, hsplit, hlines, hres, hscan⟩ :=
          ih (n + b.length + 1) (out ++ [rawReq ctx (b ++ [NL])]) W2 rest hdrop
            (by simp only [List.length_append, List.length_cons] at hnpos; omega)
            (by simp only [List.length_append, List.length_cons] at hfuel; omega)
        refine ⟨(b ++ [NL]) :: lines, residue, ?_, ?_, hres, ?_⟩
        · rw [hsplit]; simp
        · intro l hl
          rcases List.mem_cons.mp hl with h | h
          · exact ⟨b, h, hb⟩
          · exact hlines l h
        · simp only [scanLoop, hm, hp, hn, if_false, hscan]
          have e1 : n + ((b ++ [NL]) :: lines).flatten.length =
              n + b.length + 1 + lines.flatten.length := by
            simp
            omega
          rw [e1]
          simp
    · have hm : memchr (ctx.buffer.drop n) NL (ctx.npos - n) = none := by
        rw [hbuf, hlen]
        exact memchr_not_mem W rest NL hmem
      refine ⟨[], W, by simp, by simp, hmem, ?_⟩
      simp [scanLoop, hm]

theorem memWrite_length (mem : Mem) (at0 : Nat) (data : List Char)
    (h : at0 + data.length ≤ mem.length) : (memWrite mem at0 data).length = mem.length := by
  simp only [memWrite, List.length_append, List.length_take, List.length_drop]
  omega

theorem compact_spec (ctx : LuaCtx) (L residue rest : List Char)
    (hbuf : ctx.buffer = L ++ residue ++ rest) (hnpos : ctx.npos = L.length + residue.length) :
    (compact ctx L.length).buffer.take (compact ctx L.length).npos = residue ∧
    (compact ctx L.length).npos = residue.length ∧
    (compact ctx L.length).buffer.length = ctx.buffer.length ∧
    (compact ctx L.length).idx = ctx.idx ∧ (compact ctx L.length).off = ctx.off ∧
    (compact ctx L.length).size = ctx.size ∧
    (compact ctx L.length).transform = ctx.transform ∧
    (compact ctx L.length).aggregate = ctx.aggregate ∧
    (compact ctx L.length).filter = ctx.filter := by
  by_cases h : ctx.npos > L.length
  · have hs : stringN ctx.buffer L.length (ctx.npos - L.length) = residue := by
      have e : ctx.npos - L.length = residue.length := by omega
      rw [e, hbuf]
      simp [stringN]
    have hc : compact ctx L.length =
        { ctx with npos := residue.length, buffer := memWrite ctx.buffer 0 residue } := by
      have e : ctx.npos - L.length = residue.length := by omega
      rw [e] at hs
      simp only [compact, h, if_true, hs, e]
    rw [hc]
    refine ⟨?_, rfl, ?_, rfl, rfl, rfl, rfl, rfl, rfl⟩
    · simp [memWrite]
    · apply memWrite_length
      rw [hbuf]
      simp
      omega
  · have e : residue = [] := by
      have : residue.length = 0 := by omega
      exact List.length_eq_zero.mp this
    subst e
    simp [compact, h]

theorem boundedLines_tail (pre content : List Char) (h : boundedLines (pre ++ content)) :
    boundedLines content := by
  intro p seg post he hs
  exact h (pre ++ p) seg post (by rw [he]; simp) hs

theorem readInto_spec (file : List Char) (ctx : LuaCtx) (hsize : ctx.size = file.length)
    (hlt : ctx.off < ctx.size) (hblen : ctx.buffer.length = MAX_LINE_LEN)
    (hnpos : ctx.npos < MAX_LINE_LEN) :
    ∃ data : List Char, 0 < data.length ∧
      file.drop ctx.off = data ++ file.drop (ctx.off + data.length) ∧
      (readInto file ctx).buffer =
        ctx.buffer.take ctx.npos ++ data ++ ctx.buffer.drop (ctx.npos + data.length) ∧
      (readInto file ctx).npos = ctx.npos + data.length ∧
      (readInto file ctx).npos ≤ MAX_LINE_LEN ∧
      (readInto file ctx).off = ctx.off + data.length ∧
      (readInto file ctx).off ≤ file.length ∧
      (readInto file ctx).size = ctx.size ∧ (readInto file ctx).idx = ctx.idx ∧
      (readInto file ctx).transform = ctx.transform ∧
      (readInto file ctx).aggregate = ctx.aggregate ∧
      (readInto file ctx).filter = ctx.filter ∧
      (readInto file ctx).buffer.length = MAX_LINE_LEN := by
  have hlen : (stringN file ctx.off (min (ctx.size - ctx.off) (MAX_LINE_LEN - ctx.npos))).length =
      min (ctx.size - ctx.off) (MAX_LINE_LEN - ctx.npos) := by
    simp only [stringN, List.length_take, List.length_drop]
    omega
  refine ⟨stringN file ctx.off (min (ctx.size - ctx.off) (MAX_LINE_LEN - ctx.npos)), ?_, ?_, rfl,
    rfl, ?_, rfl, ?_, rfl, rfl, rfl, rfl, rfl, ?_⟩
  · rw [hlen]; omega
  · rw [hlen]
    simp only [stringN]
    rw [← List.drop_drop]
    exact (List.take_append_drop _ _).symm
  · show ctx.npos + _ ≤ MAX_LINE_LEN
    rw [hlen]; omega
  · show ctx.off + _ ≤ file.length
    rw [hlen]; omega
  · show (memWrite _ _ _).length = MAX_LINE_LEN
    rw [memWrite_length, hblen]
    rw [hlen, hblen]; omega

theorem tailLoop_raw (file : List Char) (fuel : Nat) :
    ∀ (ctx : LuaCtx) (out : List OneTaskReq),
      isRaw ctx → ctx.size = file.length → ctx.off ≤ file.length →
      ctx.buffer.length = MAX_LINE_LEN → ctx.npos ≤ MAX_LINE_LEN →
      NL ∉ ctx.buffer.take ctx.npos →
      boundedLines (ctx.buffer.take ctx.npos ++ file.drop ctx.off) →
      MAX_LINE_LEN + (file.length - ctx.off) < fuel →
      ∃ (ctx2 : LuaCtx) (lines : List Str),
        tailLoop file fuel ctx out = some (ctx2, out ++ lines.map (rawReq ctx)) ∧
        lines.flatten ++ ctx2.buffer.take ctx2.npos =
          ctx.buffer.take ctx.npos ++ file.drop ctx.off ∧
        (∀ l ∈ lines, isLine l) ∧ NL ∉ ctx2.buffer.take ctx2.npos ∧
        isRaw ctx2 ∧ ctx2.idx = ctx.idx ∧ ctx2.off = file.length ∧ ctx2.size = file.length ∧
        ctx2.buffer.length = MAX_LINE_LEN ∧ ctx2.npos ≤ MAX_LINE_LEN := by
  induction fuel with
  | zero => intro ctx out _ _ _ _ _ _ _ h; omega
  | succ k ih =>
    intro ctx out hraw hsize hoff hblen hnpos hnl hbound hfuel
    by_cases hlt : ctx.off < ctx.size
    · have hVlen : (ctx.buffer.take ctx.npos).length = ctx.npos := by
        simp only [List.length_take]
        omega
      have hVlt : ctx.npos < MAX_LINE_LEN := by
        have := hbound [] (ctx.buffer.take ctx.npos) (file.drop ctx.off) (by simp) hnl
        omega
      obtain ⟨data, hdpos, hfile, hbuf1, hnpos1, hnpos1le, hoff1, hoff1le, hsize1, hidx1, htr1,
        hag1, hfi1, hblen1⟩ := readInto_spec file ctx hsize hlt hblen hVlt
      have hraw1 : isRaw (readInto file ctx) := by
        obtain ⟨h1, h2, h3⟩ := hraw
        exact ⟨htr1.trans h1, hag1.trans h2, hfi1.trans h3⟩
      obtain ⟨lines1, residue, hsplit, hlines1, hres, hscan⟩ :=
        scanLoop_raw (readInto file ctx) hraw1 k 0 out (ctx.buffer.take ctx.npos ++ data)
          (ctx.buffer.drop (ctx.npos + data.length)) (by simpa using hbuf1)
          (by rw [hnpos1]; simp [hVlen])
          (by
            have : (ctx.buffer.take ctx.npos ++ data).length ≤ MAX_LINE_LEN := by
              rw [List.length_append, hVlen, ← hnpos1]
              exact hnpos1le
            omega)
      obtain ⟨hc1, hc2, hc3, hc4, hc5, hc6, hc7, hc8, hc9⟩ :=
        compact_spec (readInto file ctx) lines1.flatten residue
          (ctx.buffer.drop (ctx.npos + data.length)) (by rw [hbuf1, hsplit])
          (by
            rw [hnpos1, ← hVlen, ← List.length_append, hsplit, List.length_append])
      have hreslen : residue.length ≤ MAX_LINE_LEN := by
        have : (lines1.flatten ++ residue).length ≤ MAX_LINE_LEN := by
          rw [← hsplit, List.length_append, hVlen, ← hnpos1]
          exact hnpos1le
        rw [List.length_append] at this
        omega
      have hraw3 : isRaw (compact (readInto file ctx) lines1.flatten.length) := by
        obtain ⟨h1, h2, h3⟩ := hraw1
        exact ⟨hc7.trans h1, hc8.trans h2, hc9.trans h3⟩
      have hcontent : ctx.buffer.take ctx.npos ++ file.drop ctx.off =
          lines1.flatten ++ (residue ++ file.drop (ctx.off + data.length)) := by
        rw [hfile, ← List.append_assoc, hsplit, List.append_assoc]
      have hbound3 : boundedLines
          ((compact (readInto file ctx) lines1.flatten.length).buffer.take
              (compact (readInto file ctx) lines1.flatten.length).npos ++
            file.drop (compact (readInto file ctx) lines1.flatten.length).off) := by
        rw [hc1, hc5, hoff1]
        apply boundedLines_tail lines1.flatten
        rw [← hcontent]
        exact hbound
      obtain ⟨ctx2, lines2, hrun, hjoin, hlines2, hnl2, hraw2, hidx2, hoff2, hsize2, hblen2,
        hnpos2⟩ :=
        ih (compact (readInto file ctx) lines1.flatten.length) (out ++ lines1.map (rawReq ctx))
          hraw3 (by rw [hc6, hsize1, hsize]) (by rw [hc5]; exact hoff1le)
          (by rw [hc3, hblen1]) (by rw [hc2]; exact hreslen) (by rw [hc1]; exact hres) hbound3
          (by rw [hc5, hoff1]; omega)
      have hreq1 : rawReq (readInto file ctx) = rawReq ctx := by
        funext l
        simp [rawReq, hidx1]
      have hreq3 : rawReq (compact (readInto file ctx) lines1.flatten.length) = rawReq ctx := by
        funext l
        simp only [rawReq, hc4, hidx1]
      refine ⟨ctx2, lines1 ++ lines2, ?_, ?_, ?_, hnl2, hraw2, ?_, hoff2, hsize2, hblen2, hnpos2⟩
      · simp only [tailLoop, if_pos hlt, hscan, Nat.zero_add, hrun, hreq1, hreq3]
        simp
      · rw [List.flatten_append, List.append_assoc, hjoin, hc1, hc5, hoff1, hcontent]
      · intro l hl
        rcases List.mem_append.mp hl with h | h
        · exact hlines1 l h
        · exact hlines2 l h
      · rw [hidx2, hc4, hidx1]
    · have hoffeq : ctx.off = file.length := by omega
      refine ⟨ctx, [], ?_, ?_, by simp, hnl, hraw, rfl, hoffeq, hsize, hblen, hnpos⟩
      · simp [tailLoop, hlt]
      · simp [hoffeq]

theorem boundedLines_init (content post : List Char) (h : boundedLines (content ++ post)) :
    boundedLines content := by
  intro p seg q he hs
  exact h p seg (q ++ post) (by rw [he]; simp) hs

theorem tailChunks_raw (fuel : Nat) (chunks : List (List Char)) :
    ∀ (file : List Char) (ctx : LuaCtx),
      isRaw ctx → ctx.off = file.length → ctx.buffer.length = MAX_LINE_LEN →
      ctx.npos ≤ MAX_LINE_LEN → NL ∉ ctx.buffer.take ctx.npos →
      boundedLines (ctx.buffer.take ctx.npos ++ chunks.flatten) →
      MAX_LINE_LEN + chunks.flatten.length < fuel →
      ∃ (ctx2 : LuaCtx) (lines : List Str),
        tailChunks fuel file ctx chunks = some (ctx2, lines.map (rawReq ctx)) ∧
        lines.flatten ++ ctx2.buffer.take ctx2.npos =
          ctx.buffer.take ctx.npos ++ chunks.flatten ∧
        (∀ l ∈ lines, isLine l) ∧ NL ∉ ctx2.buffer.take ctx2.npos := by
  induction chunks with
  | nil =>
    intro file ctx _ _ _ _ hnl _ _
    exact ⟨ctx, [], by simp [tailChunks], by simp, by simp, hnl⟩
  | cons c cs ih =>
    intro file ctx hraw hoff hblen hnpos hnl hbound hfuel
    have hflat : (c :: cs).flatten = c ++ cs.flatten := by simp
    rw [hflat] at hbound hfuel
    rw [List.length_append] at hfuel
    have hdrop : (file ++ c).drop ctx.off = c := by
      rw [hoff]
      simp
    obtain ⟨ctx1, lines1, hrun1, hjoin1, hlines1, hnl1, hraw1, hidx1, hoff1, _, hblen1, hnpos1⟩ :=
      tailLoop_raw (file ++ c) fuel { ctx with size := (file ++ c).length } [] hraw rfl
        (by show ctx.off ≤ (file ++ c).length; rw [hoff]; simp) hblen hnpos hnl
        (by
          show boundedLines (ctx.buffer.take ctx.npos ++ (file ++ c).drop ctx.off)
          rw [hdrop]
          apply boundedLines_init _ cs.flatten
          rw [List.append_assoc]
          exact hbound)
        (by
          show MAX_LINE_LEN + ((file ++ c).length - ctx.off) < fuel
          rw [hoff, List.length_append]
          omega)
    have hjoin1b : lines1.flatten ++ ctx1.buffer.take ctx1.npos = ctx.buffer.take ctx.npos ++ c := by
      rw [hjoin1]
      show ctx.buffer.take ctx.npos ++ (file ++ c).drop ctx.off = _
      rw [hdrop]
    obtain ⟨ctx2, lines2, hrun2, hjoin2, hlines2, hnl2⟩ :=
      ih (file ++ c) ctx1 hraw1 hoff1 hblen1 hnpos1 hnl1
        (by
          apply boundedLines_tail lines1.flatten
          rw [← List.append_assoc, hjoin1b, List.append_assoc]
          exact hbound)
        (by omega)
    have hreq : rawReq ctx1 = rawReq ctx := by
      funext l
      simp only [rawReq, hidx1]
    have hreq0 : rawReq { ctx with size := (file ++ c).length } = rawReq ctx := rfl
    refine ⟨ctx2, lines1 ++ lines2, ?_, ?_, ?_, hnl2⟩
    · simp only [tailChunks, tail2kafka, hrun1, hrun2, hreq, hreq0]
      simp
    · rw [List.flatten_append, List.append_assoc, hjoin2, ← List.append_assoc, hjoin1b, hflat,
        List.append_assoc]
    · intro l hl
      rcases List.mem_append.mp hl with h | h
      · exact hlines1 l h
      · exact hlines2 l h

theorem payloads_rawReq (ctx : LuaCtx) (lines : List Str) :
    payloads (lines.map (rawReq ctx)) = lines := by
  induction lines with
  | nil => rfl
  | cons l ls ih =>
    have h : payloads (List.map (rawReq ctx) (l :: ls)) =
        l :: payloads (List.map (rawReq ctx) ls) := rfl
    rw [h, ih]

/-- C1: in a context with the raw pipeline whose buffer holds the newline-free residue `R`,
with the descriptor at the end of what was read, for every sequence of appended chunks such
that every line of `R` followed by the chunks has at most `MAX_LINE_LEN` bytes with its
newline, the successive calls of `tail2kafka` all return (given the fuel for the bytes to
read); the payloads they send, concatenated in order and followed by the bytes left in
`buffer[0..npos)`, are exactly `R` followed by the appended bytes; every request carries
one record, a line with its newline and nothing else; and the bytes left in the buffer hold
no newline, so they are the bytes after the last newline. -/
theorem tail2kafka_raw_lines (fuel : Nat) (file : List Char) (ctx : LuaCtx) (R : Str)
    (chunks : List (List Char)) (hraw : isRaw ctx) (hbuf : ctx.buffer.length = MAX_LINE_LEN)
    (hnpos : ctx.npos = R.length) (hR : ctx.buffer.take ctx.npos = R) (hnl : NL ∉ R)
    (hoff : ctx.off = file.length) (hbound : boundedLines (R ++ chunks.flatten))
    (hfuel : MAX_LINE_LEN + chunks.flatten.length < fuel) :
    ∃ (ctx2 : LuaCtx) (reqs : List OneTaskReq),
      tailChunks fuel file ctx chunks = some (ctx2, reqs) ∧
      (payloads reqs).flatten ++ ctx2.buffer.take ctx2.npos = R ++ chunks.flatten ∧
      (∀ r ∈ reqs, ∃ l : Str, r = { idx := ctx.idx, datas := [l] } ∧ isLine l) ∧
      NL ∉ ctx2.buffer.take ctx2.npos := by
  have hle : ctx.npos ≤ MAX_LINE_LEN := by
    have := congrArg List.length hR
    rw [List.length_take, hbuf] at this
    omega
  obtain ⟨ctx2, lines, hrun, hjoin, hlines, hnl2⟩ :=
    tailChunks_raw fuel chunks file ctx hraw hoff hbuf hle (by rw [hR]; exact hnl)
      (by rw [hR]; exact hbound) hfuel
  refine ⟨ctx2, lines.map (rawReq ctx), hrun, ?_, ?_, hnl2⟩
  · rw [payloads_rawReq, hjoin, hR]
  · intro r hr
    obtain ⟨l, hl, rfl⟩ := List.mem_map.mp hr
    exact ⟨l, rfl, hlines l hl⟩

theorem boundedLines_of_short (content : List Char) (h : content.length < MAX_LINE_LEN) :
    boundedLines content := by
  intro p seg q he _
  have := congrArg List.length he
  simp only [List.length_append] at this
  omega

/-- Witness of C1: with the residue `456` in the buffer, appending a newline, `789` and a
newline sends `456` and then `789`, each with its newline, and leaves the buffer empty. -/
theorem tail2kafka_raw_lines_witness :
    (∃ (ctx2 : LuaCtx) (reqs : List OneTaskReq),
      tailChunks 10250 "12\n456".toList watchCtx ["\n789\n".toList] = some (ctx2, reqs) ∧
      (payloads reqs).flatten ++ ctx2.buffer.take ctx2.npos =
        "456".toList ++ ["\n789\n".toList].flatten ∧
      (∀ r ∈ reqs, ∃ l : Str, r = { idx := watchCtx.idx, datas := [l] } ∧ isLine l) ∧
      NL ∉ ctx2.buffer.take ctx2.npos) ∧
    (tailChunks 10250 "12\n456".toList watchCtx ["\n789\n".toList]).map
      (fun r => (payloads r.2, r.1.npos)) = some (["456\n".toList, "789\n".toList], 0) :=
  ⟨tail2kafka_raw_lines 10250 "12\n456".toList watchCtx "456".toList ["\n789\n".toList]
      ⟨rfl, rfl, rfl⟩ (by
        rw [show watchCtx.buffer = "456".toList ++ List.replicate 10237 NUL from rfl,
          List.length_append, List.length_replicate]
        rfl) rfl (by decide) (by decide)
      rfl (boundedLines_of_short _ (by decide)) (by decide),
   by decide⟩

/-! ## lineAlign and the full buffer -/

theorem memrchr_last (tail : List Char) (d0 rest : List Char) (c : Char) (h : c ∉ tail) :
    memrchr (d0 ++ c :: tail ++ rest) c (d0.length + 1 + tail.length) = some d0.length := by
  induction tail using List.reverseRecOn generalizing rest with
  | nil =>
    have hd : deref (d0 ++ c :: [] ++ rest) d0.length = c := by
      have := deref_at d0 c ([] ++ rest)
      simpa using this
    simp only [List.length_nil, Nat.add_zero, memrchr, hd, if_true]
  | append_singleton t x ih =>
    have hx : x ≠ c := fun e => h (by simp [e])
    have ht : c ∉ t := fun e => h (by simp [e])
    have hlen : d0.length + 1 + (t ++ [x]).length = (d0.length + 1 + t.length) + 1 := by
      simp
      omega
    have hd : deref (d0 ++ c :: (t ++ [x]) ++ rest) (d0.length + 1 + t.length) = x := by
      have := deref_at (d0 ++ c :: t) x rest
      have e : (d0 ++ c :: t).length = d0.length + 1 + t.length := by
        simp
        omega
      rw [e] at this
      simpa using this
    rw [hlen]
    simp only [memrchr, hd, hx, if_false]
    have := ih (x :: rest) ht
    simpa using this

theorem lineAlign_tail (file pre tail : List Char) (ctx : LuaCtx)
    (hfile : file = pre ++ NL :: tail) (hnl : NL ∉ tail) (htail : tail.length < MAX_LINE_LEN)
    (hsize : ctx.size = file.length) :
    (lineAlign file ctx).1 = true ∧
    (lineAlign file ctx).2.npos = tail.length ∧
    (lineAlign file ctx).2.buffer.take (lineAlign file ctx).2.npos = tail ∧
    (lineAlign file ctx).2.off = file.length := by
  have hlen : file.length = pre.length + 1 + tail.length := by
    rw [hfile]
    simp
    omega
  have hm : tail.length + 1 ≤ min ctx.size MAX_LINE_LEN := by
    rw [hsize, hlen]
    omega
  have hk : ctx.size - min ctx.size MAX_LINE_LEN ≤ pre.length := by
    rw [hsize, hlen] at hm ⊢
    omega
  -- the bytes read: the last `min` bytes of the file
  have hdrop : file.drop (ctx.size - min ctx.size MAX_LINE_LEN) =
      pre.drop (ctx.size - min ctx.size MAX_LINE_LEN) ++ NL :: tail := by
    rw [hfile, List.drop_append_of_le_length hk]
  have hd0 : (pre.drop (ctx.size - min ctx.size MAX_LINE_LEN)).length + 1 + tail.length =
      min ctx.size MAX_LINE_LEN := by
    rw [List.length_drop]
    rw [hsize, hlen] at hk ⊢
    omega
  have hdata : stringN file (ctx.size - min ctx.size MAX_LINE_LEN) MAX_LINE_LEN =
      pre.drop (ctx.size - min ctx.size MAX_LINE_LEN) ++ NL :: tail := by
    unfold stringN
    rw [hdrop]
    apply List.take_of_length_le
    have : (pre.drop (ctx.size - min ctx.size MAX_LINE_LEN) ++ NL :: tail).length =
        min ctx.size MAX_LINE_LEN := by
      rw [← hd0]
      simp
      omega
    rw [this]
    exact Nat.min_le_right _ _
  have hdlen : (pre.drop (ctx.size - min ctx.size MAX_LINE_LEN) ++ NL :: tail).length =
      min ctx.size MAX_LINE_LEN := by
    rw [← hd0]
    simp
    omega
  have hne : ctx.size ≠ 0 := by
    rw [hsize, hlen]
    omega
  have hbuf1 : memWrite ctx.buffer 0 (pre.drop (ctx.size - min ctx.size MAX_LINE_LEN) ++ NL :: tail)
      = pre.drop (ctx.size - min ctx.size MAX_LINE_LEN) ++ NL :: tail ++
        ctx.buffer.drop (min ctx.size MAX_LINE_LEN) := by
    simp only [memWrite, List.take_zero, List.nil_append, Nat.zero_add, hdlen]
  have hr := memrchr_last tail (pre.drop (ctx.size - min ctx.size MAX_LINE_LEN))
    (ctx.buffer.drop (min ctx.size MAX_LINE_LEN)) NL hnl
  rw [hd0] at hr
  have hnp : min ctx.size MAX_LINE_LEN -
      ((pre.drop (ctx.size - min ctx.size MAX_LINE_LEN)).length + 1) = tail.length := by
    omega
  have hs : stringN (pre.drop (ctx.size - min ctx.size MAX_LINE_LEN) ++ NL :: tail ++
        ctx.buffer.drop (min ctx.size MAX_LINE_LEN))
      ((pre.drop (ctx.size - min ctx.size MAX_LINE_LEN)).length + 1) tail.length = tail := by
    have := stringN_at (pre.drop (ctx.size - min ctx.size MAX_LINE_LEN) ++ [NL]) tail
      (ctx.buffer.drop (min ctx.size MAX_LINE_LEN))
    simpa using this
  simp only [lineAlign, hne, if_false, hdata, hdlen, ne_eq, not_true_eq_false, hbuf1, hr, hnp, hs]
  refine ⟨trivial, trivial, ?_, ?_⟩
  · simp [memWrite]
  · rw [hsize] at hk ⊢
    rw [hlen] at hk ⊢
    have : min (pre.length + 1 + tail.length) MAX_LINE_LEN ≤ pre.length + 1 + tail.length :=
      Nat.min_le_left _ _
    omega

theorem scanLoop_no_newline (ctx : LuaCtx) (k : Nat) (out : List OneTaskReq)
    (hlen : ctx.npos = ctx.buffer.length) (hnl : NL ∉ ctx.buffer) :
    scanLoop (k + 1) ctx 0 out = some (ctx, 0, out) := by
  have hm : memchr (ctx.buffer.drop 0) NL (ctx.npos - 0) = none := by
    have := memchr_not_mem ctx.buffer [] NL hnl
    simpa [hlen] using this
  simp only [scanLoop, hm]

theorem memWrite_whole (mem : Mem) : memWrite mem 0 (stringN mem 0 mem.length) = mem := by
  simp [memWrite, stringN]

theorem memWrite_nothing (mem : Mem) (at0 : Nat) : memWrite mem at0 [] = mem := by
  simp [memWrite]

/-- The state in which `tail2kafka` is stuck: the buffer is full, holds no newline, and
bytes of the file are still unread. -/
theorem tailLoop_stuck (file : List Char) (fuel : Nat) :
    ∀ (ctx : LuaCtx) (out : List OneTaskReq),
      ctx.npos = MAX_LINE_LEN → ctx.buffer.length = MAX_LINE_LEN → NL ∉ ctx.buffer →
      ctx.off < ctx.size → tailLoop file fuel ctx out = none := by
  induction fuel with
  | zero => intro ctx out _ _ _ _; rfl
  | succ k ih =>
    intro ctx out hnpos hblen hnl hlt
    have hdata : stringN file ctx.off (min (ctx.size - ctx.off) (MAX_LINE_LEN - ctx.npos)) = [] := by
      rw [hnpos]
      simp [stringN]
    have hr1 : (readInto file ctx).buffer = ctx.buffer := by
      simp only [readInto, hdata, memWrite_nothing]
    have hr2 : (readInto file ctx).npos = MAX_LINE_LEN := by
      simp only [readInto, hdata]
      simp only [List.length_nil, Nat.add_zero, hnpos]
    have hr3 : (readInto file ctx).off = ctx.off := by
      simp only [readInto, hdata, List.length_nil, Nat.add_zero]
    have hr4 : (readInto file ctx).size = ctx.size := rfl
    simp only [tailLoop, if_pos hlt]
    cases k with
    | zero => rfl
    | succ j =>
      rw [scanLoop_no_newline (readInto file ctx) j out (by rw [hr1, hr2, hblen])
        (by rw [hr1]; exact hnl)]
      have hpos : (readInto file ctx).npos > 0 := by
        rw [hr2]
        decide
      have hc1 : (compact (readInto file ctx) 0).npos = MAX_LINE_LEN := by
        simp only [compact, if_pos hpos]
        simp only [Nat.sub_zero, hr2]
      have hc2 : (compact (readInto file ctx) 0).buffer = ctx.buffer := by
        simp only [compact, if_pos hpos]
        simp only [Nat.sub_zero, hr2, hr1]
        rw [← hblen]
        exact memWrite_whole ctx.buffer
      have hc3 : (compact (readInto file ctx) 0).off = ctx.off := by
        simp only [compact, if_pos hpos, hr3]
      have hc4 : (compact (readInto file ctx) 0).size = ctx.size := by
        simp only [compact, if_pos hpos, hr4]
      exact ih _ _ hc1 (by rw [hc2, hblen]) (by rw [hc2]; exact hnl) (by rw [hc3, hc4]; exact hlt)

/-- The round of `tail2kafka` that fills an empty buffer with `MAX_LINE_LEN` bytes that
hold no newline: nothing is sent and the buffer stays full. -/
theorem tailLoop_fill (file run more : List Char) (k : Nat) (ctx : LuaCtx)
    (out : List OneTaskReq) (hnpos : ctx.npos = 0) (hblen : ctx.buffer.length = MAX_LINE_LEN)
    (hsize : ctx.size = file.length) (hfile : file.drop ctx.off = run ++ more)
    (hrun : run.length = MAX_LINE_LEN) (hnl : NL ∉ run) :
    tailLoop file (k + 2) ctx out =
      tailLoop file (k + 1)
        { ctx with buffer := run, off := ctx.off + MAX_LINE_LEN, npos := MAX_LINE_LEN } out := by
  have hrest : file.length - ctx.off = MAX_LINE_LEN + more.length := by
    have := congrArg List.length hfile
    rw [List.length_drop, List.length_append, hrun] at this
    exact this
  have hlt : ctx.off < ctx.size := by
    rw [hsize]
    have : 0 < MAX_LINE_LEN := by decide
    omega
  have hmin : min (ctx.size - ctx.off) (MAX_LINE_LEN - ctx.npos) = MAX_LINE_LEN := by
    rw [hnpos, hsize, hrest]
    simp
  have hdata : stringN file ctx.off (min (ctx.size - ctx.off) (MAX_LINE_LEN - ctx.npos)) = run := by
    rw [hmin]
    unfold stringN
    rw [hfile, ← hrun]
    simp
  have hw : memWrite ctx.buffer 0 run = run := by
    have : ctx.buffer.drop run.length = [] := by
      apply List.drop_of_length_le
      rw [hblen, hrun]
    simp [memWrite, this]
  have hread : readInto file ctx =
      { ctx with buffer := run, off := ctx.off + MAX_LINE_LEN, npos := MAX_LINE_LEN } := by
    simp only [readInto, hdata]
    simp only [hnpos, hw, hrun, Nat.zero_add]
  have hscan := scanLoop_no_newline
    { ctx with buffer := run, off := ctx.off + MAX_LINE_LEN, npos := MAX_LINE_LEN } k out
    (by show MAX_LINE_LEN = run.length; rw [hrun]) hnl
  have hcompact : compact
      { ctx with buffer := run, off := ctx.off + MAX_LINE_LEN, npos := MAX_LINE_LEN } 0 =
      { ctx with buffer := run, off := ctx.off + MAX_LINE_LEN, npos := MAX_LINE_LEN } := by
    have hpos : MAX_LINE_LEN > 0 := by decide
    have hww : memWrite run 0 (stringN run 0 MAX_LINE_LEN) = run := by
      rw [← hrun]
      exact memWrite_whole run
    simp only [compact, if_pos hpos, Nat.sub_zero, hww]
  have hstep : tailLoop file (k + 1 + 1) ctx out =
      tailLoop file (k + 1)
        { ctx with buffer := run, off := ctx.off + MAX_LINE_LEN, npos := MAX_LINE_LEN } out := by
    simp only [tailLoop, if_pos hlt, hread, hscan, hcompact]
  exact hstep

/-- C13: for a file of size `ctx.size`, `lineAlign` returns true with the context
untouched when the file is empty, and when the file is `pre`, a newline and a `tail`
without a newline that is shorter than `MAX_LINE_LEN` (so that the last
`min(size, MAX_LINE_LEN)` bytes hold a newline), it returns true, `npos` is the length of
`tail`, `buffer[0..npos)` is `tail`, and the descriptor is at the end of the file. -/
theorem lineAlign_seeds_buffer (file : List Char) (ctx : LuaCtx)
    (hsize : ctx.size = file.length) :
    (file = [] → lineAlign file ctx = (true, ctx)) ∧
    (∀ pre tail : List Char, file = pre ++ NL :: tail → NL ∉ tail →
      tail.length < MAX_LINE_LEN →
      (lineAlign file ctx).1 = true ∧ (lineAlign file ctx).2.npos = tail.length ∧
      (lineAlign file ctx).2.buffer.take (lineAlign file ctx).2.npos = tail ∧
      (lineAlign file ctx).2.off = file.length) := by
  refine ⟨?_, ?_⟩
  · intro h
    have h0 : ctx.size = 0 := by rw [hsize, h]; rfl
    simp only [lineAlign, if_pos h0]
  · intro pre tail hfile hnl htail
    exact lineAlign_tail file pre tail ctx hfile hnl htail hsize

/-- Witness of C13: the content `12\n456` of `test_watchInit` leaves `456` in the buffer,
`npos = 3` and the descriptor at offset 6; an empty file leaves the fresh context with
`npos = 0`. -/
theorem lineAlign_seeds_buffer_witness :
    ((lineAlign "12\n456".toList { LuaCtx.new testMain with size := 6 }).1 = true ∧
     (lineAlign "12\n456".toList { LuaCtx.new testMain with size := 6 }).2.npos = 3 ∧
     (lineAlign "12\n456".toList { LuaCtx.new testMain with size := 6 }).2.buffer.take
       (lineAlign "12\n456".toList { LuaCtx.new testMain with size := 6 }).2.npos =
       "456".toList ∧
     (lineAlign "12\n456".toList { LuaCtx.new testMain with size := 6 }).2.off = 6) ∧
    (lineAlign [] (LuaCtx.new testMain)).1 = true ∧
    (lineAlign [] (LuaCtx.new testMain)).2.npos = 0 :=
  ⟨(lineAlign_seeds_buffer "12\n456".toList { LuaCtx.new testMain with size := 6 } rfl).2
      "12".toList "456".toList rfl (by decide) (by decide),
   congrArg Prod.fst ((lineAlign_seeds_buffer [] (LuaCtx.new testMain) rfl).1 rfl),
   congrArg (fun r => r.2.npos) ((lineAlign_seeds_buffer [] (LuaCtx.new testMain) rfl).1 rfl)⟩

theorem longRun_length : longRun.length = MAX_LINE_LEN := List.length_replicate _ _

theorem longRun_no_newline : NL ∉ longRun := by
  intro h
  have := (List.mem_replicate.mp h).2
  revert this
  decide

/-- C14, evaluated on the code: after `MAX_LINE_LEN` bytes without a newline are appended
to an empty file, `tail2kafka` returns, for every fuel that lets the loop run, with
nothing sent, the run in the buffer and `npos = MAX_LINE_LEN`, which is not below
`MAX_LINE_LEN`. -/
theorem tail2kafka_returns_full_buffer (fuel : Nat) :
    ∃ r : LuaCtx × List OneTaskReq,
      tail2kafka (fuel + 2) longRun (LuaCtx.new testMain) = some r ∧
      r.1.npos = MAX_LINE_LEN ∧ r.1.buffer = longRun ∧ r.2 = [] ∧ ¬ r.1.npos < MAX_LINE_LEN := by
  have hfill := tailLoop_fill longRun longRun [] fuel
    { LuaCtx.new testMain with size := longRun.length } [] rfl (List.length_replicate _ _)
    rfl (by simp [LuaCtx.new]) longRun_length longRun_no_newline
  have hend : ¬ (0 + MAX_LINE_LEN < longRun.length) := by
    rw [longRun_length]
    omega
  have hrun : tail2kafka (fuel + 2) longRun (LuaCtx.new testMain) =
      some ({ LuaCtx.new testMain with
              size := longRun.length, buffer := longRun, off := 0 + MAX_LINE_LEN,
              npos := MAX_LINE_LEN }, []) := by
    unfold tail2kafka
    rw [hfill]
    simp only [tailLoop, LuaCtx.new, if_neg hend]
  exact ⟨_, hrun, rfl, rfl, rfl, Nat.lt_irrefl _⟩

/-- C15, evaluated on the code: on a line of `MAX_LINE_LEN` bytes followed by its newline,
appended to an empty file, `tail2kafka` never returns, whatever the fuel: once the buffer
holds `MAX_LINE_LEN` bytes without a newline, `read` is asked for no byte, `off` stays
below `size`, and the loop goes round for ever; no truncated line is sent. -/
theorem tail2kafka_never_returns_on_long_line (fuel : Nat) :
    tail2kafka fuel (longRun ++ [NL]) (LuaCtx.new testMain) = none := by
  have hlen : (longRun ++ [NL]).length = MAX_LINE_LEN + 1 := by
    rw [List.length_append, longRun_length]
    rfl
  match fuel with
  | 0 => rfl
  | 1 =>
    have hlt : 0 < (longRun ++ [NL]).length := by rw [hlen]; omega
    simp only [tail2kafka, tailLoop, LuaCtx.new, if_pos hlt, scanLoop]
  | k + 2 =>
    have hfill := tailLoop_fill (longRun ++ [NL]) longRun [NL] k
      { LuaCtx.new testMain with size := (longRun ++ [NL]).length } []
      rfl (List.length_replicate _ _) rfl (by simp [LuaCtx.new]) longRun_length
      longRun_no_newline
    unfold tail2kafka
    rw [hfill]
    apply tailLoop_stuck
    · rfl
    · exact longRun_length
    · exact longRun_no_newline
    · show 0 + MAX_LINE_LEN < (longRun ++ [NL]).length
      rw [hlen]
      omega

/-! ## filter with a selector out of range -/

/-- C11, evaluated on the code: with `filter = {1, 3}` and the line `a b`, which has two
fields, selector 3 is out of range and `filter` returns false, after it has put the host
and field 1 into the result; `processLine` does not look at the boolean and sends the
record `host a`, which holds only the first of the two selected fields. -/
theorem processLine_sends_partial_filter_record :
    (split ("a b\n".toList ++ [NUL]) 3 []).length = 2 ∧
    filter selectorCtx (split ("a b\n".toList ++ [NUL]) 3 []) [] =
      some (false, testMain.host ++ " a".toList) ∧
    (processLine 1 selectorCtx ("a b\n".toList ++ [NUL]) 4).map (fun r => (r.1, r.2.2)) =
      some (some false, [{ idx := 0, datas := [testMain.host ++ " a".toList] }]) := by
  decide

/-! ## flushCache -/

theorem flushCache_cache (sn : Nat) (timeout : Bool) (ctxs : List LuaCtx) :
    (flushCache sn ctxs timeout).1.map (fun c => c.cache) = ctxs.map (fun c => c.cache) := by
  induction ctxs with
  | nil => rfl
  | cons c rest ih =>
    have h1 : (flushOne sn timeout c).1.cache = c.cache := by
      unfold flushOne
      split
      · rfl
      · split <;> rfl
    simp only [flushCache, List.map_cons, h1, ih]

/-- C12, evaluated on the code: after the first two lines of `test_aggregate` the cache
holds one bucket; `flushCache` with `timeout = true` writes its record and leaves the
bucket in the cache, so a second `flushCache` writes the same record again, and so does
`aggregate` on the next line, whose time-key differs. -/
theorem flushCache_leaves_cache_filled :
    (aggregateAll
      [aggFields "2015-04-02T12:05:04" "200" "230" "0.1" "10086",
       aggFields "2015-04-02T12:05:04" "200" "270" "0.2" "10086"] aggregateCtx []).map
        (fun r => r.1.cache) = some cachedCtx.cache ∧
    (aggregateAll
      [aggFields "2015-04-02T12:05:04" "200" "230" "0.1" "10086",
       aggFields "2015-04-02T12:05:04" "200" "270" "0.2" "10086"] aggregateCtx []).map
        (fun r => r.1.lasttime) = some cachedCtx.lasttime ∧
    (flushCache 0 [cachedCtx] true).2 = [{ idx := 0, datas := [cachedRecord] }] ∧
    (flushCache 0 [cachedCtx] true).1.map (fun c => c.cache) = [cachedCtx.cache] ∧
    cachedCtx.cache ≠ [] ∧
    (flushCache 0 (flushCache 0 [cachedCtx] true).1 true).2 =
      [{ idx := 0, datas := [cachedRecord] }] ∧
    (((flushCache 0 [cachedCtx] true).1.head?).bind
      (fun c => aggregate c (aggFields "2015-04-02T12:05:05" "404" "250" "0.2" "95555") [])).map
        (fun r => r.2.2) = some [cachedRecord] :=
  ⟨by decide, by decide, by decide, by decide, by decide, by decide, by decide⟩

/-! ## The empty line -/

/-- C16, evaluated on the code: the empty line, a single newline, splits to zero fields;
`absidx` then fails its assertion `total != 0`, and `processLine` does not return, in the
context of `test_filter` as in the context of `test_aggregate`, whatever the fuel. -/
theorem processLine_aborts_on_empty_line (fuel : Nat) :
    split ("\n".toList ++ [NUL]) 0 [] = [] ∧
    absidx filterCtx.timeidx 0 = none ∧
    processLine fuel filterCtx ("\n".toList ++ [NUL]) 1 = none ∧
    processLine fuel aggregateCtx ("\n".toList ++ [NUL]) 1 = none ∧
    processLine fuel selectorCtx ("\n".toList ++ [NUL]) 1 = none :=
  ⟨by decide, by decide, rfl, rfl, rfl⟩

/-! ## The event loop of watchLoop -/

theorem eventLoop_ignored (fuel : Nat) (w : Watcher) (event : InotifyEvent)
    (rest : List InotifyEvent) (calls : List Nat) (out : List OneTaskReq)
    (h : event.mask = IN_IGNORED) : eventLoop fuel w (event :: rest) calls out = none := by
  induction fuel with
  | zero => rfl
  | succ k ih => simp only [eventLoop, if_pos h, ih]

/-- C17, evaluated on the code: a batch that holds an `IN_IGNORED` event is never worked
off, whatever the fuel and whatever follows the event: `continue` leaves `p` on it.  The
batch with the `IN_MODIFY` event alone ends after one call of `tail2kafka`, which sends the
line `456789`; with the `IN_IGNORED` event before it, that call is never made. -/
theorem eventLoop_never_passes_ignored (fuel : Nat) (w : Watcher) (rest : List InotifyEvent)
    (calls : List Nat) (out : List OneTaskReq) :
    eventLoop fuel w (ignoredEvent :: rest) calls out = none ∧
    watchEvents fuel testWatcher [ignoredEvent, modifyEvent] = none ∧
    (watchEvents 4 testWatcher [modifyEvent]).map (fun r => (r.2.1, r.2.2)) =
      some ([0], [{ idx := 0, datas := ["456789\n".toList] }]) :=
  ⟨eventLoop_ignored fuel w ignoredEvent rest calls out rfl,
   eventLoop_ignored fuel _ ignoredEvent [modifyEvent] [] [] rfl, by decide⟩

/-! ## A group that opens inside a token -/

/-- C18, evaluated on the code: on `msg="a b"` the group opens after the bytes `msg=`, and
`split` gives the single token `sg="a b`: at the opener it moves `pos` on by one, not to
the byte after the opener, so the token keeps the bytes before the group and the opening
quote.  On `"a b"`, where the group opens a token, the token is `a b`; a `[` inside a
token does the same as the quote. -/
theorem split_group_inside_token :
    split ("msg=\"a b\"".toList ++ [NUL]) 9 [] = ["sg=\"a b".toList] ∧
    split ("\"a b\"".toList ++ [NUL]) 5 [] = ["a b".toList] ∧
    split ("x=[a b] y".toList ++ [NUL]) 9 [] = ["=[a b".toList, "y".toList] := by
  decide

/-! ## doResponse: the offset commit -/

/-- C19 as stated does not hold: it is not so that, for every completed response,
`doResponse` commits the offset of the record if and only if the response code is 201 and
the record carries a real offset.  A response with code 429 for `testRecord`, whose offset
is 5 with inode 7, commits the offset. -/
theorem doResponseDone_commits_on_429 :
    ¬ (∀ (u : EsUrl) (w : EsWorld) (r : FileRecord),
        u.status_ = EsStatus.IDLE → u.record_ = some r →
        ((doResponseDone u w).map (fun x => x.2.committed) = some (w.committed ++ [r]) ↔
          (u.respCode_ = 201 ∧ r.off ≠ -1 ∧ r.inode > 0))) := by
  intro h
  have h1 := h { testUrl with status_ := EsStatus.IDLE, respCode_ := 429 } emptyWorld
    testRecord rfl rfl
  have h2 : (doResponseDone { testUrl with status_ := EsStatus.IDLE, respCode_ := 429 }
      emptyWorld).map (fun x => x.2.committed) = some (emptyWorld.committed ++ [testRecord]) := by
    decide
  have h3 := (h1.mp h2).1
  revert h3
  decide

/-- C19, amended: for every completed response (`status_ == IDLE` after the receive
loop) on a connection that holds the record `r`, `doResponse` returns, and it commits the
offset of `r` if and only if `r` carries a real offset (`off != -1` and `inode > 0`),
whatever the response code; the send counter goes up by one, the error counter goes up by
one exactly when the code is none of 201, 400 and 429, and the record is destroyed and
taken off the connection. -/
theorem doResponseDone_commit (u : EsUrl) (w : EsWorld) (r : FileRecord)
    (hidle : u.status_ = EsStatus.IDLE) (hrec : u.record_ = some r) :
    ∃ (u1 : EsUrl) (w1 : EsWorld), doResponseDone u w = some (u1, w1) ∧
      w1.committed = (if r.off ≠ -1 ∧ r.inode > 0 then w.committed ++ [r] else w.committed) ∧
      w1.sendCount = w.sendCount + 1 ∧
      w1.errorCount =
        (if u.respCode_ ≠ 201 ∧ u.respCode_ ≠ 400 ∧ u.respCode_ ≠ 429 then w.errorCount + 1
         else w.errorCount) ∧
      w1.destroyed = w.destroyed ++ [r] ∧ u1.record_ = none := by
  simp only [doResponseDone, if_pos hidle, hrec]
  refine ⟨_, _, rfl, ?_, ?_, ?_, ?_, rfl⟩ <;>
    by_cases h201 : u.respCode_ = 201 <;>
    by_cases h4 : u.respCode_ ≠ 400 ∧ u.respCode_ ≠ 429 <;>
    by_cases hoff : r.off ≠ -1 ∧ r.inode > 0 <;> simp [h201, hoff, h4]

/-- Witness of C19, amended: the response with code 429 for `testRecord` commits its
offset, counts one send and no error, and destroys the record. -/
theorem doResponseDone_commit_witness :
    ∃ (u1 : EsUrl) (w1 : EsWorld),
      doResponseDone { testUrl with status_ := EsStatus.IDLE, respCode_ := 429 } emptyWorld =
        some (u1, w1) ∧
      w1.committed =
        (if testRecord.off ≠ -1 ∧ testRecord.inode > 0 then emptyWorld.committed ++ [testRecord]
         else emptyWorld.committed) ∧
      w1.sendCount = emptyWorld.sendCount + 1 ∧
      w1.errorCount =
        (if ({ testUrl with status_ := EsStatus.IDLE, respCode_ := 429 } : EsUrl).respCode_ ≠ 201 ∧
            ({ testUrl with status_ := EsStatus.IDLE, respCode_ := 429 } : EsUrl).respCode_ ≠ 400 ∧
            ({ testUrl with status_ := EsStatus.IDLE, respCode_ := 429 } : EsUrl).respCode_ ≠ 429
         then emptyWorld.errorCount + 1 else emptyWorld.errorCount) ∧
      w1.destroyed = emptyWorld.destroyed ++ [testRecord] ∧ u1.record_ = none :=
  doResponseDone_commit { testUrl with status_ := EsStatus.IDLE, respCode_ := 429 } emptyWorld
    testRecord rfl rfl

/-! ## onTimeout: rotation over the nodes -/

theorem next_node (idx n : Nat) (hint : n ≤ 2147483647) (hidx : idx < n) :
    toInt32 (toSizeT ((idx : Int) + 1) % (n : Int)) = (((idx + 1) % n : Nat) : Int) := by
  have h1 : toSizeT ((idx : Int) + 1) = ((idx + 1 : Nat) : Int) := by
    unfold toSizeT
    push_cast
    omega
  have hm : (idx + 1) % n < n := Nat.mod_lt _ (by omega)
  rw [h1, ← Int.natCast_mod]
  unfold toInt32
  omega

theorem reinit_rotate (u : EsUrl) (w : EsWorld) (r : FileRecord)
    (hint : u.nodes_.length ≤ 2147483647) (hidx : u.idx_ < u.nodes_.length) :
    ∃ (u1 : EsUrl) (w1 : EsWorld), reinit u w (some r) 1 = some (u1, w1) ∧
      u1.idx_ = (u.idx_ + 1) % u.nodes_.length ∧ u1.nodes_.get? u1.idx_ = some u1.node_ ∧
      u1.timeoutRetry_ = u.timeoutRetry_ + 1 ∧ u1.record_ = some r ∧ u1.nodes_ = u.nodes_ ∧
      u1.status_ = (if u.status_ = EsStatus.IDLE then EsStatus.WRITING else u.status_) ∧
      w1.closed = w.closed ∧ w1.errorCount = w.errorCount ∧ w1.destroyed = w.destroyed ∧
      w1.committed = w.committed ∧ posts w1 = posts w + 1 := by
  have hn0 : u.nodes_.length ≠ 0 := by omega
  have hnext := next_node u.idx_ u.nodes_.length hint hidx
  have hm : (u.idx_ + 1) % u.nodes_.length < u.nodes_.length := Nat.mod_lt _ (by omega)
  obtain ⟨src, hsrc⟩ : ∃ src, u.nodes_.get? u.idx_ = some src :=
    ⟨_, List.get?_eq_get hidx⟩
  obtain ⟨dst, hdst⟩ : ∃ dst, u.nodes_.get? ((u.idx_ + 1) % u.nodes_.length) = some dst :=
    ⟨_, List.get?_eq_get hm⟩
  have hnn : ¬ ((((u.idx_ + 1) % u.nodes_.length : Nat) : Int) < 0) := by omega
  have hmove : reinitMove u w 1 =
      some ({ u with idx_ := (u.idx_ + 1) % u.nodes_.length, node_ := dst,
                     timeoutRetry_ := u.timeoutRetry_ + 1 },
            { w with log := w.log ++ [EsLog.switchNode (c_str src) (c_str dst)] }) := by
    have h10 : (1 : Int) ≠ 0 := by decide
    simp only [reinitMove, if_pos h10, if_neg hn0, hnext, if_neg hnn, Int.toNat_ofNat, hsrc,
      hdst]
  by_cases hst : u.status_ = EsStatus.IDLE
  · simp only [reinit, hmove, if_pos hst]
    refine ⟨_, _, rfl, rfl, hdst, rfl, rfl, rfl, rfl, rfl, rfl, rfl, rfl, ?_⟩
    simp [posts, List.countP_append, List.countP_cons, List.countP_nil]
  · simp only [reinit, hmove, if_neg hst]
    refine ⟨_, _, rfl, rfl, hdst, rfl, rfl, rfl, rfl, rfl, rfl, rfl, rfl, ?_⟩
    simp [posts, List.countP_append, List.countP_cons, List.countP_nil]

theorem reinitMove_some (u : EsUrl) (w : EsWorld) (u1 : EsUrl) (w1 : EsWorld)
    (h : reinitMove u w 1 = some (u1, w1)) :
    u1.timeoutRetry_ = u.timeoutRetry_ + 1 ∧ u1.nodes_ = u.nodes_ ∧ posts w1 = posts w := by
  have h10 : (1 : Int) ≠ 0 := by decide
  simp only [reinitMove, if_pos h10] at h
  split at h
  · exact absurd h (by simp)
  · split at h
    · exact absurd h (by simp)
    · split at h
      · simp only [Option.some.injEq, Prod.mk.injEq] at h
        obtain ⟨hu, hw⟩ := h
        subst hu
        subst hw
        refine ⟨rfl, rfl, ?_⟩
        simp [posts, List.countP_append, List.countP_cons, List.countP_nil]
      · exact absurd h (by simp)

theorem reinit_some (u : EsUrl) (w : EsWorld) (rec : Option FileRecord) (u1 : EsUrl)
    (w1 : EsWorld) (h : reinit u w rec 1 = some (u1, w1)) :
    u1.timeoutRetry_ = u.timeoutRetry_ + 1 ∧ u1.nodes_ = u.nodes_ ∧ posts w1 = posts w + 1 := by
  cases rec with
  | none => exact absurd h (by simp [reinit])
  | some r =>
    cases hm : reinitMove u w 1 with
    | none => exact absurd h (by simp [reinit, hm])
    | some p =>
      obtain ⟨u0, w0⟩ := p
      obtain ⟨h1, h2, h3⟩ := reinitMove_some u w u0 w0 hm
      simp only [reinit, hm] at h
      split at h
      · simp only [Option.some.injEq, Prod.mk.injEq] at h
        obtain ⟨hu, hw⟩ := h
        subst hu
        subst hw
        refine ⟨h1, h2, ?_⟩
        simp only [posts] at h3
        simp [posts, List.countP_append, List.countP_cons, List.countP_nil, h3]
      · simp only [Option.some.injEq, Prod.mk.injEq] at h
        obtain ⟨hu, hw⟩ := h
        subst hu
        subst hw
        refine ⟨h1, h2, ?_⟩
        simp only [posts] at h3
        simp [posts, List.countP_append, List.countP_cons, List.countP_nil, h3]

theorem onError_frame (u : EsUrl) (w : EsWorld) (e : Str) :
    (onError u w e).1.timeoutRetry_ = u.timeoutRetry_ ∧ (onError u w e).1.nodes_ = u.nodes_ ∧
    posts (onError u w e).2 = posts w := by
  unfold onError
  cases u.record_ with
  | none =>
    refine ⟨rfl, rfl, ?_⟩
    simp [destroy, posts, List.countP_append, List.countP_cons, List.countP_nil]
  | some r =>
    refine ⟨rfl, rfl, ?_⟩
    simp [destroy, posts, List.countP_append, List.countP_cons, List.countP_nil]

theorem onTimeout_posts (onEvent : EsUrl → EsWorld → Option (EsUrl × EsWorld))
    (hframe : ∀ u w u1 w1, onEvent u w = some (u1, w1) →
      u1.timeoutRetry_ = u.timeoutRetry_ ∧ u1.nodes_ = u.nodes_ ∧ posts w1 = posts w)
    (u : EsUrl) (w : EsWorld) (now : Int) (u1 : EsUrl) (w1 : EsWorld)
    (hle : u.timeoutRetry_ ≤ u.nodes_.length) (h : onTimeout onEvent u w now = some (u1, w1)) :
    posts w1 + u.timeoutRetry_ = posts w + u1.timeoutRetry_ ∧
    u1.timeoutRetry_ ≤ u1.nodes_.length ∧ u1.nodes_ = u.nodes_ := by
  unfold onTimeout at h
  split at h
  · have hposts : posts (destroy u
        { w with log := w.log ++ [EsLog.timeout u.fd_ (c_str u.url_) (c_str u.body_)] }).2 =
        posts w := by
      simp [destroy, posts, List.countP_append, List.countP_cons, List.countP_nil]
    simp only at h
    split at h
    · rename_i heq
      have heq1 : u.timeoutRetry_ = u.nodes_.length := heq
      simp only [Option.some.injEq] at h
      have hf := onError_frame (destroy u
        { w with log := w.log ++ [EsLog.timeout u.fd_ (c_str u.url_) (c_str u.body_)] }).1
        (destroy u
        { w with log := w.log ++ [EsLog.timeout u.fd_ (c_str u.url_) (c_str u.body_)] }).2
        "exceed maximum timeout retries".toList
      rw [h] at hf
      obtain ⟨f1, f2, f3⟩ := hf
      have f1a : u1.timeoutRetry_ = u.timeoutRetry_ := f1
      have f2a : u1.nodes_ = u.nodes_ := f2
      rw [hposts] at f3
      have f3a : posts w1 = posts w := f3
      refine ⟨by omega, by rw [f1a, f2a]; exact hle, f2a⟩
    · rename_i hne
      have hne1 : u.timeoutRetry_ ≠ u.nodes_.length := hne
      split at h
      · exact absurd h (by simp)
      · rename_i r hr
        obtain ⟨r1, r2, r3⟩ := reinit_some _ _ _ r.1 r.2 hr
        obtain ⟨e1, e2, e3⟩ := hframe r.1 r.2 u1 w1 h
        have r1a : r.1.timeoutRetry_ = u.timeoutRetry_ + 1 := r1
        have r2a : r.1.nodes_ = u.nodes_ := r2
        rw [hposts] at r3
        refine ⟨by omega, ?_, by rw [e2, r2a]⟩
        rw [e1, e2, r1a, r2a]
        omega
  · simp only [Option.some.injEq, Prod.mk.injEq] at h
    obtain ⟨hu, hw⟩ := h
    subst hu
    subst hw
    exact ⟨rfl, hle, rfl⟩

theorem timeoutRun_posts (onEvent : EsUrl → EsWorld → Option (EsUrl × EsWorld))
    (hframe : ∀ u w u1 w1, onEvent u w = some (u1, w1) →
      u1.timeoutRetry_ = u.timeoutRetry_ ∧ u1.nodes_ = u.nodes_ ∧ posts w1 = posts w)
    (k : Nat) :
    ∀ (u : EsUrl) (w : EsWorld) (u1 : EsUrl) (w1 : EsWorld),
      u.timeoutRetry_ ≤ u.nodes_.length → timeoutRun onEvent k u w = some (u1, w1) →
      posts w1 + u.timeoutRetry_ = posts w + u1.timeoutRetry_ ∧
      u1.timeoutRetry_ ≤ u1.nodes_.length ∧ u1.nodes_ = u.nodes_ := by
  induction k with
  | zero =>
    intro u w u1 w1 hle h
    simp only [timeoutRun, Option.some.injEq, Prod.mk.injEq] at h
    obtain ⟨hu, hw⟩ := h
    subst hu
    subst hw
    exact ⟨rfl, hle, rfl⟩
  | succ k ih =>
    intro u w u1 w1 hle h
    simp only [timeoutRun] at h
    split at h
    · exact absurd h (by simp)
    · rename_i r hr
      obtain ⟨s1, s2, s3⟩ := onTimeout_posts onEvent hframe u w _ r.1 r.2 hle hr
      obtain ⟨t1, t2, t3⟩ := ih r.1 r.2 u1 w1 s2 h
      refine ⟨by omega, t2, by rw [t3, s3]⟩

/-- C20: on a connection that holds the record `r`, over `n = nodes_.size()` nodes with
`idx_ < n` (and `n` within the range of `int`), at a time `now` with
`now - activeTime_ > 30`: when `timeoutRetry_` is not `n`, `onTimeout` closes the
descriptor and ends with `onEvent` on the connection with `idx_ = (idx_ + 1) mod n`,
`node_ = nodes_[idx_]`, `timeoutRetry_` one higher, the same record, one more `POST`
issued, no error counted and no record destroyed; when `timeoutRetry_` is `n`, it destroys
the record, counts one error and issues nothing; `reinit` with `move = 0` sets
`timeoutRetry_` to 0 and leaves `idx_` alone; and in every run of timeouts from
`timeoutRetry_ = 0`, with an `onEvent` that leaves `timeoutRetry_`, `nodes_` and the count
of issues alone, the record is issued again at most `n` times, so `n + 1` times in all.
Function `onEvent` stands for the call `onEvent(pfd)` that ends `onTimeout`. -/
theorem onTimeout_rotates (onEvent : EsUrl → EsWorld → Option (EsUrl × EsWorld))
    (u : EsUrl) (w : EsWorld) (r : FileRecord) (now : Int)
    (hint : u.nodes_.length ≤ 2147483647) (hidx : u.idx_ < u.nodes_.length)
    (hrec : u.record_ = some r) (hnow : now - u.activeTime_ > 30) :
    (u.timeoutRetry_ ≠ u.nodes_.length →
      ∃ (u1 : EsUrl) (w1 : EsWorld), onTimeout onEvent u w now = onEvent u1 w1 ∧
        u1.idx_ = (u.idx_ + 1) % u.nodes_.length ∧ u1.nodes_.get? u1.idx_ = some u1.node_ ∧
        u1.timeoutRetry_ = u.timeoutRetry_ + 1 ∧ u1.record_ = some r ∧
        u1.nodes_ = u.nodes_ ∧ u1.status_ = EsStatus.UNINIT ∧
        w1.closed = w.closed ++ [u.fd_] ∧ w1.errorCount = w.errorCount ∧
        w1.destroyed = w.destroyed ∧ posts w1 = posts w + 1) ∧
    (u.timeoutRetry_ = u.nodes_.length →
      ∃ (u2 : EsUrl) (w2 : EsWorld), onTimeout onEvent u w now = some (u2, w2) ∧
        u2.record_ = none ∧ u2.status_ = EsStatus.UNINIT ∧
        w2.destroyed = w.destroyed ++ [r] ∧ w2.errorCount = w.errorCount + 1 ∧
        posts w2 = posts w) ∧
    (∀ r0 : FileRecord, ∃ (u3 : EsUrl) (w3 : EsWorld),
      reinit u w (some r0) 0 = some (u3, w3) ∧ u3.timeoutRetry_ = 0 ∧ u3.idx_ = u.idx_ ∧
        u3.record_ = some r0) ∧
    ((∀ u w u1 w1, onEvent u w = some (u1, w1) →
        u1.timeoutRetry_ = u.timeoutRetry_ ∧ u1.nodes_ = u.nodes_ ∧ posts w1 = posts w) →
      u.timeoutRetry_ = 0 → ∀ (k : Nat) (u4 : EsUrl) (w4 : EsWorld),
      timeoutRun onEvent k u w = some (u4, w4) → posts w4 ≤ posts w + u.nodes_.length) := by
  refine ⟨?_, ?_, ?_, ?_⟩
  · intro hne
    obtain ⟨u1, w1, h1, h2, h3, h4, h5, h6, h7, h8, h9, h10, _, h12⟩ :=
      reinit_rotate
        (destroy u
          { w with log := w.log ++ [EsLog.timeout u.fd_ (c_str u.url_) (c_str u.body_)] }).1
        (destroy u
          { w with log := w.log ++ [EsLog.timeout u.fd_ (c_str u.url_) (c_str u.body_)] }).2
        r hint hidx
    have hposts : posts (destroy u
        { w with log := w.log ++ [EsLog.timeout u.fd_ (c_str u.url_) (c_str u.body_)] }).2 =
        posts w := by
      simp [destroy, posts, List.countP_append, List.countP_cons, List.countP_nil]
    have hne1 : ¬ ((destroy u
        { w with log := w.log ++ [EsLog.timeout u.fd_ (c_str u.url_) (c_str u.body_)] }).1.timeoutRetry_ =
        (destroy u
        { w with log := w.log ++ [EsLog.timeout u.fd_ (c_str u.url_) (c_str u.body_)] }).1.nodes_.length) :=
      hne
    have hrec1 : (destroy u
        { w with log := w.log ++ [EsLog.timeout u.fd_ (c_str u.url_) (c_str u.body_)] }).1.record_ =
        some r := hrec
    refine ⟨u1, w1, ?_, h2, h3, h4, h5, h6, ?_, h8, h9, h10, ?_⟩
    · simp only [onTimeout, if_pos hnow, if_neg hne1, hrec1, h1]
    · rw [h7]
      rfl
    · rw [h12, hposts]
  · intro heq
    have heq1 : (destroy u
        { w with log := w.log ++ [EsLog.timeout u.fd_ (c_str u.url_) (c_str u.body_)] }).1.timeoutRetry_ =
        (destroy u
        { w with log := w.log ++ [EsLog.timeout u.fd_ (c_str u.url_) (c_str u.body_)] }).1.nodes_.length :=
      heq
    have hrun : onTimeout onEvent u w now =
        some ((onError (destroy u
          { w with log := w.log ++ [EsLog.timeout u.fd_ (c_str u.url_) (c_str u.body_)] }).1
          (destroy u
          { w with log := w.log ++ [EsLog.timeout u.fd_ (c_str u.url_) (c_str u.body_)] }).2
          "exceed maximum timeout retries".toList).1,
          (onError (destroy u
          { w with log := w.log ++ [EsLog.timeout u.fd_ (c_str u.url_) (c_str u.body_)] }).1
          (destroy u
          { w with log := w.log ++ [EsLog.timeout u.fd_ (c_str u.url_) (c_str u.body_)] }).2
          "exceed maximum timeout retries".toList).2) := by
      simp only [onTimeout, if_pos hnow, if_pos heq1]
    refine ⟨_, _, hrun, ?_, ?_, ?_, ?_, ?_⟩
    · simp only [onError, destroy, hrec]
    · simp only [onError, destroy, hrec]
    · simp only [onError, destroy, hrec]
    · simp only [onError, destroy, hrec]
    · simp [onError, destroy, hrec, posts, List.countP_append, List.countP_cons,
        List.countP_nil]
  · intro r0
    by_cases hst : u.status_ = EsStatus.IDLE
    · simp only [reinit, reinitMove, ne_eq, not_true_eq_false, if_false, if_pos hst]
      exact ⟨_, _, rfl, rfl, rfl, rfl⟩
    · simp only [reinit, reinitMove, ne_eq, not_true_eq_false, if_false, if_neg hst]
      exact ⟨_, _, rfl, rfl, rfl, rfl⟩
  · intro hframe h0 k u4 w4 hrun
    obtain ⟨t1, t2, t3⟩ := timeoutRun_posts onEvent hframe k u w u4 w4 (by omega) hrun
    rw [t3] at t2
    omega

theorem stallEvent_frame (u : EsUrl) (w : EsWorld) (u1 : EsUrl) (w1 : EsWorld)
    (h : stallEvent u w = some (u1, w1)) :
    u1.timeoutRetry_ = u.timeoutRetry_ ∧ u1.nodes_ = u.nodes_ ∧ posts w1 = posts w := by
  simp only [stallEvent, Option.some.injEq, Prod.mk.injEq] at h
  obtain ⟨hu, hw⟩ := h
  subst hu
  subst hw
  exact ⟨rfl, rfl, rfl⟩

/-- Witness of C20: over the nodes `n1`, `n2`, `n3`, a timeout on `n1` sends the record
to `n2` next, with `idx_ = 1` and `timeoutRetry_ = 1`; when every node stalls, three
timeouts issue the record three more times and leave it on the connection, the fourth
destroys it and counts one error, and no run of timeouts issues it more than three times
again. -/
theorem onTimeout_rotates_witness :
    (∃ (u1 : EsUrl) (w1 : EsWorld),
      onTimeout stallEvent testUrl emptyWorld 131 = stallEvent u1 w1 ∧
        u1.idx_ = (testUrl.idx_ + 1) % testUrl.nodes_.length ∧
        u1.nodes_.get? u1.idx_ = some u1.node_ ∧
        u1.timeoutRetry_ = testUrl.timeoutRetry_ + 1 ∧ u1.record_ = some testRecord ∧
        u1.nodes_ = testUrl.nodes_ ∧ u1.status_ = EsStatus.UNINIT ∧
        w1.closed = emptyWorld.closed ++ [testUrl.fd_] ∧
        w1.errorCount = emptyWorld.errorCount ∧
        w1.destroyed = emptyWorld.destroyed ∧ posts w1 = posts emptyWorld + 1) ∧
    (onTimeout stallEvent testUrl emptyWorld 131).map
      (fun x => (x.1.node_, x.1.idx_, x.1.timeoutRetry_)) = some ("n2".toList, 1, 1) ∧
    (timeoutRun stallEvent 3 testUrl emptyWorld).map
      (fun x => (x.1.record_, x.2.errorCount, posts x.2)) = some (some testRecord, 0, 3) ∧
    (timeoutRun stallEvent 4 testUrl emptyWorld).map
      (fun x => (x.1.record_, x.2.errorCount, posts x.2)) = some (none, 1, 3) ∧
    (∀ (k : Nat) (u4 : EsUrl) (w4 : EsWorld),
      timeoutRun stallEvent k testUrl emptyWorld = some (u4, w4) →
      posts w4 ≤ posts emptyWorld + testUrl.nodes_.length) :=
  ⟨(onTimeout_rotates stallEvent testUrl emptyWorld testRecord 131
      (by decide) (by decide) rfl (by decide)).1 (by decide),
   by decide, by decide, by decide,
   (onTimeout_rotates stallEvent testUrl emptyWorld testRecord 131
      (by decide) (by decide) rfl (by decide)).2.2.2 stallEvent_frame rfl⟩

set_option maxRecDepth 100000

/-! ## to_string on negative counters -/

/-- C27, evaluated on the code: for the counter value `-12`, `to_string` gives the two
bytes `/.`, which carry no minus sign and are no decimal digits, and `serializeCache`
writes `k=/.`; for `0` and for `1234` it gives the decimal text. -/
theorem to_string_negative_not_decimal :
    to_string (-12) = "/.".toList ∧
    to_string (-1) = "/".toList ∧
    serializeCache
      { LuaCtx.new testMain with
        lasttime := "T1".toList, cache := [("pk".toList, [("k".toList, -12)])] } [] =
      [testMain.host ++ " T1 pk k=/.".toList] ∧
    to_string 0 = "0".toList ∧ to_string 1234 = "1234".toList := by
  decide

/-! ## initIOV -/

/-- C29: for a connection whose header text fits the buffer (`nheader_` bytes of
`header_`) and whose body has `nbody_` bytes, and for `offset_ ≤ nheader_ + nbody_`, the
segments of `initIOV`, concatenated, are the header followed by the body from byte
`offset_` on, `nheader_ + nbody_ - offset_` bytes; there are two segments, the rest of
the header and the whole body, while `offset_ < nheader_`, one segment, the rest of the
body, while `nheader_ ≤ offset_ < nheader_ + nbody_`, and none exactly when
`offset_ = nheader_ + nbody_`. -/
theorem initIOV_suffix (u : EsUrl) (hoff : u.offset_ ≤ u.nheader_ + u.nbody_)
    (hh : u.nheader_ ≤ u.header_.length) (hb : u.body_.length = u.nbody_) :
    (initIOV u).flatten = (u.header_.take u.nheader_ ++ u.body_).drop u.offset_ ∧
    (initIOV u).flatten.length = u.nheader_ + u.nbody_ - u.offset_ ∧
    (u.offset_ < u.nheader_ →
      initIOV u = [(u.header_.take u.nheader_).drop u.offset_, u.body_]) ∧
    (u.nheader_ ≤ u.offset_ → u.offset_ < u.nheader_ + u.nbody_ →
      initIOV u = [u.body_.drop (u.offset_ - u.nheader_)]) ∧
    (initIOV u = [] ↔ u.offset_ = u.nheader_ + u.nbody_) := by
  have hlen : (u.header_.take u.nheader_).length = u.nheader_ := by
    rw [List.length_take]
    omega
  have hbody : stringN u.body_ 0 u.nbody_ = u.body_ := by
    unfold stringN
    rw [List.drop_zero, ← hb, List.take_length]
  by_cases h1 : u.offset_ < u.nheader_
  · have hseg : stringN u.header_ u.offset_ (u.nheader_ - u.offset_) =
        (u.header_.take u.nheader_).drop u.offset_ := by
      unfold stringN
      rw [List.drop_take]
    have hio : initIOV u = [(u.header_.take u.nheader_).drop u.offset_, u.body_] := by
      simp only [initIOV, if_pos h1, hseg, hbody]
    refine ⟨?_, ?_, fun _ => hio, fun h _ => absurd h1 (by omega), ?_⟩
    · rw [hio, List.drop_append_of_le_length (by omega)]
      simp
    · rw [hio]
      simp only [List.flatten, List.length_append, List.length_drop, hlen, hb,
        List.length_nil]
      omega
    · rw [hio]
      constructor
      · intro h
        exact absurd h (by simp)
      · intro h
        omega
  · by_cases h2 : u.offset_ < u.nheader_ + u.nbody_
    · have hseg : stringN u.body_ (u.offset_ - u.nheader_) (u.nheader_ + u.nbody_ - u.offset_) =
          u.body_.drop (u.offset_ - u.nheader_) := by
        unfold stringN
        apply List.take_of_length_le
        rw [List.length_drop]
        omega
      have hio : initIOV u = [u.body_.drop (u.offset_ - u.nheader_)] := by
        simp only [initIOV, if_neg h1, if_pos h2, hseg]
      refine ⟨?_, ?_, fun h => absurd h h1, fun _ _ => hio, ?_⟩
      · rw [hio, List.drop_append_eq_append_drop, hlen]
        have : (u.header_.take u.nheader_).drop u.offset_ = [] := by
          apply List.drop_of_length_le
          omega
        simp [this]
      · rw [hio]
        simp only [List.flatten, List.length_append, List.length_drop, hb, List.length_nil]
        omega
      · rw [hio]
        constructor
        · intro h
          exact absurd h (by simp)
        · intro h
          omega
    · have hio : initIOV u = [] := by
        simp only [initIOV, if_neg h1, if_neg h2]
      have heq : u.offset_ = u.nheader_ + u.nbody_ := by omega
      refine ⟨?_, ?_, fun h => absurd h h1, fun _ h => absurd h h2, ?_⟩
      · rw [hio]
        symm
        apply List.drop_of_length_le
        rw [List.length_append, hlen, hb]
        omega
      · rw [hio]
        simp only [List.flatten, List.length_nil]
        omega
      · exact ⟨fun _ => heq, fun _ => hio⟩

/-- Witness of C29: after 10 bytes of a request with a header of 19 bytes, the segments
are the last 9 bytes of the header and the body. -/
theorem initIOV_suffix_witness :
    (initIOV iovUrl).flatten = (iovUrl.header_.take iovUrl.nheader_ ++ iovUrl.body_).drop iovUrl.offset_ ∧
    (initIOV iovUrl).flatten.length = iovUrl.nheader_ + iovUrl.nbody_ - iovUrl.offset_ :=
  ⟨(initIOV_suffix iovUrl (by decide) (by decide) (by decide)).1,
   (initIOV_suffix iovUrl (by decide) (by decide) (by decide)).2.1⟩

/-! ## doRequest on EAGAIN -/

theorem doRequestLoop_eagain (net : Net) (h : ∀ k, net.writev k = WriteRes.eagain)
    (fuel : Nat) :
    ∀ (errbuf : Str) (s : EsState), initIOV s.url ≠ [] →
      doRequestLoop net fuel errbuf s = none := by
  induction fuel with
  | zero => intro _ _ _; rfl
  | succ k ih =>
    intro errbuf s hio
    simp only [doRequestLoop, if_neg hio, h]
    exact ih _ _ hio

/-- C28, evaluated on the code: on the request for `testRecord`, when the first `writev`
returns `-1` with `EAGAIN`, `doRequest` sets `status_ = WRITING` and calls `writev` again
in the same invocation: with a second call that takes the request it returns with two
calls made and `status_ = READING`, and when `writev` never has room it does not return,
whatever the fuel. -/
theorem doRequest_retries_on_eagain (fuel : Nat) :
    busyNet.writev 0 = WriteRes.eagain ∧
    (doRequest busyNet 3 "OK".toList (issuedState EsStatus.WRITING)).map
      (fun r => (r.1, r.2.2.url.status_, r.2.2.url.offset_, r.2.2.wire.nwritev)) =
      some (true, EsStatus.READING, 0, 2) ∧
    doRequest fullNet fuel "OK".toList (issuedState EsStatus.WRITING) = none := by
  refine ⟨rfl, by decide, ?_⟩
  unfold doRequest
  rw [doRequestLoop_eagain fullNet (fun _ => rfl) fuel _ _ (by decide)]

/-! ## doResponse when recv returns 0 -/

theorem doResponseLoop_zero (net : Net) (fuel : Nat) :
    ∀ (errbuf : Str) (s : EsState), s.url.offset_ ≤ s.url.maxHeader →
      (∀ k, ∃ bytes, net.recv k = RecvRes.data bytes ∧
        (bytes = [] ∨ s.url.offset_ = s.url.maxHeader)) →
      doResponseLoop net fuel errbuf s = none := by
  induction fuel with
  | zero => intro _ _ _ _; rfl
  | succ k ih =>
    intro errbuf s hle h
    obtain ⟨bytes, hb, hz⟩ := h s.wire.nrecv
    have hempty : bytes.take (s.url.maxHeader - s.url.offset_) = [] := by
      rcases hz with hz | hz
      · rw [hz]
        exact List.take_nil
      · rw [hz, Nat.sub_self]
        rfl
    simp only [doResponseLoop, if_neg (Nat.not_lt.mpr hle), hb, hempty]
    exact ih _ _ hle h

/-- C24, evaluated on the code: while `recv` returns 0, `doResponse` does not return,
whatever the fuel: it adds 0 to `offset_` and calls `recv` again.  This is so when the
peer has closed the connection, and when the buffer is full (`offset_` equal to
`MAX_HTTP_HEADER_LEN`, so that `recv` is given no room) while the peer still sends. -/
theorem doResponse_never_returns_on_zero_recv (fuel : Nat) :
    closedNet.recv 0 = RecvRes.data [] ∧
    doResponse closedNet fuel "OK".toList (issuedState EsStatus.READING) = none ∧
    doResponse { okNet with recv := fun _ => RecvRes.data "x".toList } fuel "OK".toList
      { url := { readUrl with offset_ := 128 }, world := emptyWorld, wire := emptyWire } =
      none := by
  refine ⟨rfl, ?_, ?_⟩
  · unfold doResponse
    rw [doResponseLoop_zero closedNet fuel _ _ (by decide)
      (fun _ => ⟨[], rfl, Or.inl rfl⟩)]
  · unfold doResponse
    rw [doResponseLoop_zero _ fuel _ _ (by decide) (fun _ => ⟨"x".toList, rfl, Or.inr rfl⟩)]

/-! ## onEvent on a socket error -/

/-- C21, evaluated on the code: for `testRecord` on a connection over three nodes with
`timeoutRetry_ = 0`, a failure of `socket()` in the connection attempt, a failure of
`writev` in the request and a failure of `recv` in the response each end `onEvent` in
`onError`: the record is destroyed and one error is counted, `idx_` and `timeoutRetry_`
stay 0 and no `POST` is issued again. -/
theorem onEvent_destroys_on_socket_error :
    (issuedState EsStatus.UNINIT).url.timeoutRetry_ < (issuedState EsStatus.UNINIT).url.nodes_.length ∧
    (onEvent noSocketNet 3 (issuedState EsStatus.UNINIT)).map
      (fun s => (s.url.record_, s.world.destroyed, s.world.errorCount, s.url.idx_,
        s.url.timeoutRetry_, posts s.world)) =
      some (none, [testRecord], 1, 0, 0, 0) ∧
    (onEvent brokenNet 3 (issuedState EsStatus.WRITING)).map
      (fun s => (s.url.record_, s.world.destroyed, s.world.errorCount, s.url.idx_,
        s.url.timeoutRetry_, posts s.world)) =
      some (none, [testRecord], 1, 0, 0, 0) ∧
    (onEvent resetNet 3 (issuedState EsStatus.READING)).map
      (fun s => (s.url.record_, s.world.destroyed, s.world.errorCount, s.url.idx_,
        s.url.timeoutRetry_, posts s.world)) =
      some (none, [testRecord], 1, 0, 0, 0) :=
  ⟨by decide, by decide, by decide, by decide⟩

/-! ## The parser on a chunked body -/

theorem initHttpResponse_chunked (fuel : Nat) (u : EsUrl) (eof : Nat) (u1 u2 : EsUrl)
    (h0 : u.respWant_ = HttpRespWant.STATUS_LINE)
    (h1 : initHttpResponseStatusLine u eof = some u1)
    (h1w : u1.respWant_ = HttpRespWant.HEADER)
    (h2 : initHttpResponseHeader u1 eof = some u2)
    (h2w : u2.respWant_ = HttpRespWant.BODY_CHUNK_LEN) :
    initHttpResponse fuel u eof =
      (initHttpResponseBody eof fuel u2).map
        (fun u3 => (decide (u3.respWant_ = HttpRespWant.RESP_EOF), u3)) := by
  have e0 : ¬ (u.respWant_ = HttpRespWant.RESP_EOF) := by rw [h0]; decide
  have e2 : ¬ (u2.respWant_ = HttpRespWant.BODY) := by rw [h2w]; decide
  simp only [initHttpResponse, if_neg e0, if_pos h0, h1, if_pos h1w, h2, if_neg e2, h2w,
    true_or, if_true]
  cases initHttpResponseBody eof fuel u2 <;> rfl

theorem body_none_fix (eof : Nat) (u : EsUrl) (hfix : bodyRound eof u = some u)
    (hne : u.respWant_ ≠ HttpRespWant.RESP_EOF) (fuel : Nat) :
    initHttpResponseBody eof fuel u = none := by
  induction fuel with
  | zero => rfl
  | succ k ih => simp only [initHttpResponseBody, if_neg hne, hfix, ih]

theorem body_none_of_stuck (eof : Nat) (n : Nat) :
    ∀ (u : EsUrl), stuckAfter eof n u = true → ∀ fuel, initHttpResponseBody eof fuel u = none := by
  induction n with
  | zero =>
    intro u h fuel
    simp only [stuckAfter, Bool.and_eq_true, decide_eq_true_eq] at h
    exact body_none_fix eof u h.1 h.2 fuel
  | succ n ih =>
    intro u h fuel
    simp only [stuckAfter, Bool.and_eq_true, decide_eq_true_eq] at h
    obtain ⟨hne, hrest⟩ := h
    cases fuel with
    | zero => rfl
    | succ f =>
      cases hb : bodyRound eof u with
      | none =>
        rw [hb] at hrest
        exact absurd hrest (by simp)
      | some u1 =>
        rw [hb] at hrest
        simp only [initHttpResponseBody, if_neg hne, hb]
        exact ih u1 hrest f

theorem parseReads_chunked_none (n : Nat) (bytes : List Char) (h : chunkStuck n bytes = true)
    (fuel : Nat) : parseReads fuel [bytes] readUrl = none := by
  unfold chunkStuck at h
  cases h1 : initHttpResponseStatusLine (recvInto readUrl bytes) (recvInto readUrl bytes).offset_ with
  | none =>
    rw [h1] at h
    exact absurd h (by simp)
  | some u1 =>
    rw [h1] at h
    simp only [Bool.and_eq_true, decide_eq_true_eq] at h
    obtain ⟨h1w, h⟩ := h
    cases h2 : initHttpResponseHeader u1 (recvInto readUrl bytes).offset_ with
    | none =>
      rw [h2] at h
      exact absurd h (by simp)
    | some u2 =>
      rw [h2] at h
      simp only [Bool.and_eq_true, decide_eq_true_eq] at h
      obtain ⟨h2w, h⟩ := h
      have hbody := body_none_of_stuck _ n u2 h fuel
      have hinit := initHttpResponse_chunked fuel (recvInto readUrl bytes)
        (recvInto readUrl bytes).offset_ u1 u2 rfl h1 h1w h2 h2w
      rw [hbody] at hinit
      simp only [parseReads, hinit]
      rfl

/-- C23, evaluated on the code: on a connection that has read a complete header block
without `Content-Length`, `initHttpResponse` does not return, whatever the fuel, for the
well-formed chunked body `5 CRLF hello CRLF 0 CRLF CRLF`, nor for the one whose chunk data
is the byte `0`: after the data of a chunk, `resp_` still points at the data, which is
read as the next chunk-length line, and the block for the chunk content then never
leaves the loop `while (respWant_ != RESP_EOF)`.  It does not return either when the
buffer ends inside a chunk-length line or inside chunk data. -/
theorem initHttpResponse_chunked_never_returns (fuel : Nat) :
    parseReads fuel [chunkedHello] readUrl = none ∧
    parseReads fuel [chunkedZero] readUrl = none ∧
    parseReads fuel [chunkedCutLen] readUrl = none ∧
    parseReads fuel [chunkedCutData] readUrl = none :=
  ⟨parseReads_chunked_none 3 chunkedHello rfl fuel,
   parseReads_chunked_none 3 chunkedZero rfl fuel,
   parseReads_chunked_none 0 chunkedCutLen rfl fuel,
   parseReads_chunked_none 3 chunkedCutData rfl fuel⟩

/-! ## The parser on a response split over two reads -/

/-- C30, evaluated on the code: the response with the headers `Content-Length: 5` and
`A: b` and the body `hello`, read at once, is complete with the body `hello`; read in two
parts, the first ending after `A: b`, it is not complete after the second part and the
body is `CRLF hello`: the first call has overwritten the colons and the end of the
`Content-Length` line in the buffer, and the second call, which starts again at the head
of the header block, takes the end of the line `A: b` for the end of the block. -/
theorem initHttpResponse_depends_on_split (fuel : Nat) :
    "HTTP/1.1 201 Created\r\nContent-Length: 5\r\nA: b".toList ++ "\r\n\r\nhello".toList =
      lengthResponse ∧
    (parseReads fuel [lengthResponse] readUrl).map
      (fun x => (x.1, x.2.respCode_, x.2.wantLen_, x.2.respBody_)) =
      some ([true], 201, 5, "hello".toList) ∧
    (parseReads fuel
      ["HTTP/1.1 201 Created\r\nContent-Length: 5\r\nA: b".toList, "\r\n\r\nhello".toList]
      readUrl).map (fun x => (x.1, x.2.respCode_, x.2.wantLen_, x.2.respBody_)) =
      some ([false, false], 201, 5, "\r\nhello".toList) :=
  ⟨by decide, rfl, rfl⟩

/-! ## flowControl -/

theorem overload_eq (load max : Int) (h1 : 0 ≤ load ∧ load ≤ 2147483647)
    (h2 : 0 ≤ max ∧ max ≤ 2147483647) : toInt32 (toSizeT load - toSizeT max) = load - max := by
  unfold toInt32 toSizeT
  omega

theorem flowLoop_short (loads : Nat → Int) (max : Int)
    (hmax : 0 ≤ max ∧ max ≤ 2147483647) (pre : List Int) :
    ∀ (f : Nat) (i : Int) (c : EsCtx), c.esMaxConns = max → f ≤ pre.length →
      (∀ l ∈ pre, (0 ≤ l ∧ l ≤ 2147483647) ∧ l - max > 10) →
      (∀ j, j < pre.length → loads (c.polls + j) = pre.getD j 0) →
      flowLoop loads f i c = none := by
  induction pre with
  | nil =>
    intro f i c _ hf _ _
    have : f = 0 := by simpa using hf
    rw [this]
    rfl
  | cons l pre ih =>
    intro f i c hc hf hover hobs
    cases f with
    | zero => rfl
    | succ f =>
      have hl := hover l (List.mem_cons_self _ _)
      have h0 : loads c.polls = l := by
        have := hobs 0 (Nat.succ_pos _)
        simpa using this
      have hov : toInt32 (toSizeT (loads c.polls) - toSizeT c.esMaxConns) > 10 := by
        rw [h0, hc, overload_eq l max hl.1 hmax]
        exact hl.2
      simp only [flowLoop, if_pos hov]
      by_cases hi : i = 2147483647
      · simp only [if_pos hi]
      · simp only [if_neg hi]
        apply ih f (i + 1)
        · split <;> exact hc
        · simpa using hf
        · intro x hx
          exact hover x (List.mem_cons_of_mem _ hx)
        · intro j hj
          have := hobs (j + 1) (by simpa using hj)
          have hp : (if Int.tmod i 500 = 0 then
              { c with polls := c.polls + 1, kafkaBlock := true,
                       blockWrites := c.blockWrites ++ [true],
                       log := c.log ++ [FlowLog.tooMuch
                         (toInt32 (toSizeT (loads c.polls) - toSizeT c.esMaxConns))
                         (Int.tdiv i 100)] }
              else { c with polls := c.polls + 1 }).polls = c.polls + 1 := by
            split <;> rfl
          rw [hp]
          rw [show c.polls + 1 + j = c.polls + (j + 1) by omega, this]
          rfl

theorem flowLoop_run (loads : Nat → Int) (max : Int)
    (hmax : 0 ≤ max ∧ max ≤ 2147483647) (last : Int) (hlast : 0 ≤ last ∧ last ≤ 2147483647)
    (hin : last - max ≤ 10) (k : Nat) (pre : List Int) :
    ∀ (i : Int) (c : EsCtx), c.esMaxConns = max → 0 ≤ i → i + pre.length ≤ 2147483647 →
      (∀ l ∈ pre, (0 ≤ l ∧ l ≤ 2147483647) ∧ l - max > 10) →
      (∀ j, j < pre.length + 1 → loads (c.polls + j) = (pre ++ [last]).getD j 0) →
      ∃ (c1 : EsCtx) (m : Nat),
        flowLoop loads (pre.length + 1 + k) i c = some (i + pre.length, last - max, c1) ∧
        c1.polls = c.polls + pre.length + 1 ∧ c1.esSenders_ = c.esSenders_ ∧
        c1.lastSenderIndex_ = c.lastSenderIndex_ ∧ c1.destroyed = c.destroyed ∧
        c1.pipeWrites = c.pipeWrites ∧ c1.esMaxConns = c.esMaxConns ∧
        c1.recvCount = c.recvCount ∧ c1.running_ = c.running_ ∧
        c1.blockWrites = c.blockWrites ++ List.replicate m true ∧
        (pre = [] → m = 0 ∧ c1.kafkaBlock = c.kafkaBlock) ∧
        (pre ≠ [] → Int.tmod i 500 = 0 → 1 ≤ m) := by
  induction pre with
  | nil =>
    intro i c hc _ _ _ hobs
    have h0 : loads c.polls = last := by
      have := hobs 0 (by simp)
      simpa using this
    have hov : ¬ toInt32 (toSizeT (loads c.polls) - toSizeT c.esMaxConns) > 10 := by
      rw [h0, hc, overload_eq last max hlast hmax]
      omega
    refine ⟨{ c with polls := c.polls + 1 }, 0, ?_, rfl, rfl, rfl, rfl, rfl, rfl, rfl, rfl, ?_,
      fun _ => ⟨rfl, rfl⟩, fun h => absurd rfl h⟩
    · have e : ([] : List Int).length + 1 + k = k + 1 := by simp; omega
      rw [e]
      simp only [flowLoop, if_neg hov]
      rw [h0, hc, overload_eq last max hlast hmax]
      simp
    · simp
  | cons l pre ih =>
    intro i c hc hi hlen hover hobs
    have hl := hover l (List.mem_cons_self _ _)
    have h0 : loads c.polls = l := by
      have := hobs 0 (by simp)
      simpa using this
    have hov : toInt32 (toSizeT (loads c.polls) - toSizeT c.esMaxConns) > 10 := by
      rw [h0, hc, overload_eq l max hl.1 hmax]
      exact hl.2
    have hlen1 : i + 1 + (pre.length : Int) ≤ 2147483647 := by
      have : ((l :: pre).length : Int) = pre.length + 1 := by simp
      omega
    have hine : ¬ i = 2147483647 := by
      have : ((l :: pre).length : Int) = pre.length + 1 := by simp
      omega
    have hfuel : (l :: pre).length + 1 + k = (pre.length + 1 + k) + 1 := by simp; omega
    by_cases hmod : Int.tmod i 500 = 0
    · obtain ⟨c1, m, h1, h2, h3, h4, h5, h6, h7, h8, h9, h10, h11, _⟩ :=
        ih (i + 1)
          { c with polls := c.polls + 1, kafkaBlock := true,
                   blockWrites := c.blockWrites ++ [true],
                   log := c.log ++ [FlowLog.tooMuch
                     (toInt32 (toSizeT (loads c.polls) - toSizeT c.esMaxConns))
                     (Int.tdiv i 100)] }
          hc (by omega) hlen1 (fun x hx => hover x (List.mem_cons_of_mem _ hx))
          (by
            intro j hj
            have := hobs (j + 1) (by simpa using hj)
            rw [show c.polls + 1 + j = c.polls + (j + 1) by omega, this]
            rfl)
      refine ⟨c1, m + 1, ?_, ?_, h3, h4, h5, h6, h7, h8, h9, ?_, fun h => absurd h (by simp),
        fun _ _ => by omega⟩
      · rw [hfuel]
        simp only [flowLoop, if_pos hov, if_neg hine, if_pos hmod, h1]
        have : ((l :: pre).length : Int) = pre.length + 1 := by simp
        rw [this]
        congr 2
        omega
      · rw [h2]
        simp only [List.length_cons]
        omega
      · rw [h10, List.replicate_succ, List.append_assoc]
        rfl
    · obtain ⟨c1, m, h1, h2, h3, h4, h5, h6, h7, h8, h9, h10, h11, _⟩ :=
        ih (i + 1) { c with polls := c.polls + 1 }
          hc (by omega) hlen1 (fun x hx => hover x (List.mem_cons_of_mem _ hx))
          (by
            intro j hj
            have := hobs (j + 1) (by simpa using hj)
            rw [show c.polls + 1 + j = c.polls + (j + 1) by omega, this]
            rfl)
      refine ⟨c1, m, ?_, ?_, h3, h4, h5, h6, h7, h8, h9, h10, fun h => absurd h (by simp),
        fun _ h => absurd h hmod⟩
      · rw [hfuel]
        simp only [flowLoop, if_pos hov, if_neg hine, if_neg hmod, h1]
        have : ((l :: pre).length : Int) = pre.length + 1 := by simp
        rw [this]
        congr 2
        omega
      · rw [h2]
        simp only [List.length_cons]
        omega

/-- C26: let the values of `load` in the successive rounds of `flowControl` be `pre`
followed by `last`, all within the range of a non-negative `int` as `esMaxConns` is, with
`load - esMaxConns > 10` for every value of `pre` and `last - esMaxConns ≤ 10`.  Then
`flowControl` does not return within `pre.length` rounds, and it returns in round
`pre.length + 1`, having polled that often, with the senders, their queues and the
destroyed records as they were.  When `pre` is empty, `kafkaBlock` is not written;
otherwise the values written are `true`, once or more, then `false`, and `kafkaBlock` is
`false` at the return. -/
theorem flowControl_waits (loads : Nat → Int) (c : EsCtx) (pre : List Int) (last : Int)
    (k : Nat) (hmax : 0 ≤ c.esMaxConns ∧ c.esMaxConns ≤ 2147483647)
    (hlast : 0 ≤ last ∧ last ≤ 2147483647)
    (hover : ∀ l ∈ pre, (0 ≤ l ∧ l ≤ 2147483647) ∧ l - c.esMaxConns > 10)
    (hin : last - c.esMaxConns ≤ 10)
    (hobs : ∀ j, j < pre.length + 1 → loads (c.polls + j) = (pre ++ [last]).getD j 0)
    (hlen : pre.length ≤ 2147483647) :
    (∀ f, f ≤ pre.length → flowControl loads f c = none) ∧
    ∃ c1 : EsCtx, flowControl loads (pre.length + 1 + k) c = some c1 ∧
      c1.polls = c.polls + pre.length + 1 ∧ c1.esSenders_ = c.esSenders_ ∧
      c1.lastSenderIndex_ = c.lastSenderIndex_ ∧ c1.destroyed = c.destroyed ∧
      c1.pipeWrites = c.pipeWrites ∧
      (pre = [] → c1.blockWrites = c.blockWrites ∧ c1.kafkaBlock = c.kafkaBlock) ∧
      (pre ≠ [] → c1.kafkaBlock = false ∧
        ∃ m : Nat, c1.blockWrites = c.blockWrites ++ List.replicate (m + 1) true ++ [false]) := by
  constructor
  · intro f hf
    have hobs1 : ∀ j, j < pre.length → loads (c.polls + j) = pre.getD j 0 := by
      intro j hj
      rw [hobs j (by omega)]
      simp only [List.getD_eq_getElem?_getD]
      rw [List.getElem?_append_left hj]
    unfold flowControl
    rw [flowLoop_short loads c.esMaxConns hmax pre f 0 c rfl hf hover hobs1]
  · obtain ⟨c1, m, h1, h2, h3, h4, h5, h6, _, _, _, h10, h11, h12⟩ :=
      flowLoop_run loads c.esMaxConns hmax last hlast hin k pre 0 c rfl (le_refl _)
        (by omega) hover hobs
    by_cases hp : pre = []
    · have hi : ¬ ((0 : Int) + (pre.length : Int) > 0) := by
        rw [hp]
        simp
      obtain ⟨hm, hk⟩ := h11 hp
      refine ⟨c1, ?_, h2, h3, h4, h5, h6, fun _ => ⟨?_, hk⟩, fun h => absurd hp h⟩
      · simp only [flowControl, h1, if_neg hi]
      · rw [h10, hm]
        simp
    · have hpos : 0 < pre.length := List.length_pos.mpr hp
      have hi : (0 : Int) + (pre.length : Int) > 0 := by omega
      have hm := h12 hp (by decide)
      refine ⟨{ c1 with kafkaBlock := false, blockWrites := c1.blockWrites ++ [false],
                        log := c1.log ++ [FlowLog.restart (last - c.esMaxConns)] },
        ?_, h2, h3, h4, h5, h6, fun h => absurd h hp, fun _ => ⟨rfl, m - 1, ?_⟩⟩
      · simp only [flowControl, h1, if_pos hi]
      · show c1.blockWrites ++ [false] = _
        rw [h10, show m - 1 + 1 = m by omega]

/-- Witness of C26: with `esMaxConns = 100`, a load of 120 and then a load of 110, the
flag is set to `true` in the first round and to `false` at the return, after two
rounds. -/
theorem flowControl_waits_witness :
    (∀ f, f ≤ [(120 : Int)].length →
      flowControl (fun j => if j = 0 then 120 else 110) f testCtx = none) ∧
    ∃ c1 : EsCtx, flowControl (fun j => if j = 0 then 120 else 110) ([(120 : Int)].length + 1 + 0)
        testCtx = some c1 ∧
      c1.polls = testCtx.polls + [(120 : Int)].length + 1 ∧ c1.esSenders_ = testCtx.esSenders_ ∧
      c1.lastSenderIndex_ = testCtx.lastSenderIndex_ ∧ c1.destroyed = testCtx.destroyed ∧
      c1.pipeWrites = testCtx.pipeWrites ∧
      ([(120 : Int)] = [] → c1.blockWrites = testCtx.blockWrites ∧
        c1.kafkaBlock = testCtx.kafkaBlock) ∧
      ([(120 : Int)] ≠ [] → c1.kafkaBlock = false ∧
        ∃ m : Nat, c1.blockWrites =
          testCtx.blockWrites ++ List.replicate (m + 1) true ++ [false]) :=
  flowControl_waits (fun j => if j = 0 then 120 else 110) testCtx [120] 110 0
    (by decide) (by decide) (by decide) (by decide)
    (by
      intro j hj
      have : j = 0 ∨ j = 1 := by
        simp only [List.length_cons, List.length_nil] at hj
        omega
      rcases this with h | h <;> subst h <;> rfl)
    (by decide)

/-! ## produce -/

theorem flowLoop_returns (loads : Nat → Int) (max : Int) (hmax : 0 ≤ max ∧ max ≤ 2147483647)
    (hrange : ∀ k, 0 ≤ loads k ∧ loads k ≤ 2147483647) (j : Nat) :
    ∀ (fuel : Nat) (i : Int) (c : EsCtx), c.esMaxConns = max → 0 ≤ i →
      i + j ≤ 2147483647 → j < fuel → loads (c.polls + j) - max ≤ 10 →
      ∃ (r : Int × Int × EsCtx), flowLoop loads fuel i c = some r ∧
        r.2.2.esSenders_ = c.esSenders_ ∧ r.2.2.lastSenderIndex_ = c.lastSenderIndex_ ∧
        r.2.2.destroyed = c.destroyed ∧ r.2.2.pipeWrites = c.pipeWrites ∧
        r.2.2.esMaxConns = c.esMaxConns := by
  induction j with
  | zero =>
    intro fuel i c hc _ _ hf hin
    cases fuel with
    | zero => omega
    | succ f =>
      have hov : ¬ toInt32 (toSizeT (loads c.polls) - toSizeT c.esMaxConns) > 10 := by
        rw [hc, overload_eq _ max (hrange _) hmax]
        have : loads (c.polls + 0) = loads c.polls := rfl
        omega
      refine ⟨(i, toInt32 (toSizeT (loads c.polls) - toSizeT c.esMaxConns),
        { c with polls := c.polls + 1 }), ?_, rfl, rfl, rfl, rfl, rfl⟩
      simp only [flowLoop, if_neg hov]
  | succ j ih =>
    intro fuel i c hc hi hlen hf hin
    cases fuel with
    | zero => omega
    | succ f =>
      by_cases hov : toInt32 (toSizeT (loads c.polls) - toSizeT c.esMaxConns) > 10
      · have hine : ¬ i = 2147483647 := by omega
        by_cases hmod : Int.tmod i 500 = 0
        · obtain ⟨r, h1, h2, h3, h4, h5, h6⟩ := ih f (i + 1)
            { c with polls := c.polls + 1, kafkaBlock := true,
                     blockWrites := c.blockWrites ++ [true],
                     log := c.log ++ [FlowLog.tooMuch
                       (toInt32 (toSizeT (loads c.polls) - toSizeT c.esMaxConns))
                       (Int.tdiv i 100)] }
            hc (by omega) (by push_cast at hlen ⊢; omega) (by omega)
            (by
              show loads (c.polls + 1 + j) - max ≤ 10
              rw [show c.polls + 1 + j = c.polls + (j + 1) by omega]
              exact hin)
          exact ⟨r, by simp only [flowLoop, if_pos hov, if_neg hine, if_pos hmod, h1],
            h2, h3, h4, h5, h6⟩
        · obtain ⟨r, h1, h2, h3, h4, h5, h6⟩ := ih f (i + 1) { c with polls := c.polls + 1 }
            hc (by omega) (by push_cast at hlen ⊢; omega) (by omega)
            (by
              show loads (c.polls + 1 + j) - max ≤ 10
              rw [show c.polls + 1 + j = c.polls + (j + 1) by omega]
              exact hin)
          exact ⟨r, by simp only [flowLoop, if_pos hov, if_neg hine, if_neg hmod, h1],
            h2, h3, h4, h5, h6⟩
      · refine ⟨(i, toInt32 (toSizeT (loads c.polls) - toSizeT c.esMaxConns),
          { c with polls := c.polls + 1 }), ?_, rfl, rfl, rfl, rfl, rfl⟩
        simp only [flowLoop, if_neg hov]

theorem flowControl_returns (loads : Nat → Int) (c : EsCtx) (B fuel : Nat)
    (hmax : 0 ≤ c.esMaxConns ∧ c.esMaxConns ≤ 2147483647)
    (hrange : ∀ k, 0 ≤ loads k ∧ loads k ≤ 2147483647)
    (hB : ∀ k, ∃ j, j < B ∧ loads (k + j) - c.esMaxConns ≤ 10) (hBmax : B ≤ 2147483647)
    (hfuel : B ≤ fuel) :
    ∃ c1 : EsCtx, flowControl loads fuel c = some c1 ∧
      c1.esSenders_ = c.esSenders_ ∧ c1.lastSenderIndex_ = c.lastSenderIndex_ ∧
      c1.destroyed = c.destroyed ∧ c1.pipeWrites = c.pipeWrites ∧
      c1.esMaxConns = c.esMaxConns := by
  obtain ⟨j, hj, hin⟩ := hB c.polls
  obtain ⟨r, h1, h2, h3, h4, h5, h6⟩ :=
    flowLoop_returns loads c.esMaxConns hmax hrange j fuel 0 c rfl (le_refl _) (by omega)
      (by omega) hin
  obtain ⟨i, ov, c1⟩ := r
  by_cases hi : i > 0
  · refine ⟨{ c1 with kafkaBlock := false, blockWrites := c1.blockWrites ++ [false],
                      log := c1.log ++ [FlowLog.restart ov] }, ?_, h2, h3, h4, h5, h6⟩
    simp only [flowControl, h1, if_pos hi]
  · refine ⟨c1, ?_, h2, h3, h4, h5, h6⟩
    simp only [flowControl, h1, if_neg hi]

theorem dealt_mod (n s : Nat) (records : List FileRecord) :
    ∀ a : Nat, dealt n (a % n) s records = dealt n a s records := by
  induction records with
  | nil => intro a; rfl
  | cons r rest ih =>
    intro a
    simp only [dealt, Nat.mod_mod]
    rw [← ih (a % n + 1), ← ih (a + 1), Nat.add_mod, Nat.mod_mod, ← Nat.add_mod]

theorem produceLoop_deals (loads : Nat → Int) (pipe : Nat → PipeRes) (B fuel : Nat) (max : Int)
    (hpipe : ∀ k, pipe k = PipeRes.written)
    (hmax : 0 ≤ max ∧ max ≤ 2147483647)
    (hrange : ∀ k, 0 ≤ loads k ∧ loads k ≤ 2147483647)
    (hB : ∀ k, ∃ j, j < B ∧ loads (k + j) - max ≤ 10) (hBmax : B ≤ 2147483647)
    (hfuel : B ≤ fuel) (records : List FileRecord) :
    ∀ c : EsCtx, c.esMaxConns = max → c.lastSenderIndex_ < c.esSenders_.length →
      ∃ c1 : EsCtx, produceLoop loads pipe fuel records c = some (true, c1) ∧
        c1.esSenders_.length = c.esSenders_.length ∧
        (∀ s, s < c.esSenders_.length →
          c1.esSenders_.getD s [] =
            c.esSenders_.getD s [] ++
              dealt c.esSenders_.length c.lastSenderIndex_ s
                (records.filter (fun r => decide (r.off ≠ -1)))) ∧
        c1.destroyed = c.destroyed ++ records.filter (fun r => decide (r.off = -1)) ∧
        c1.lastSenderIndex_ < c.esSenders_.length := by
  induction records with
  | nil =>
    intro c _ hidx
    exact ⟨c, rfl, rfl, fun s _ => by simp [dealt], by simp, hidx⟩
  | cons r rest ih =>
    intro c hc hidx
    by_cases hoff : r.off = -1
    · obtain ⟨c1, h1, h2, h3, h4, h5⟩ :=
        ih { c with destroyed := c.destroyed ++ [r] } hc hidx
      refine ⟨c1, by simp only [produceLoop, if_pos hoff, h1], h2, ?_, ?_, h5⟩
      · intro s hs
        rw [h3 s hs]
        simp [List.filter_cons, hoff]
      · rw [h4]
        simp [List.filter_cons, hoff]
    · obtain ⟨c0, f1, f2, f3, f4, f5, f6⟩ :=
        flowControl_returns loads c B fuel (by rw [hc]; exact hmax) hrange
          (by rw [hc]; exact hB) hBmax hfuel
      have hidx0 : c0.lastSenderIndex_ < c0.esSenders_.length := by rw [f2, f3]; exact hidx
      obtain ⟨q, hq⟩ : ∃ q, c0.esSenders_.get? c0.lastSenderIndex_ = some q :=
        ⟨_, List.get?_eq_get hidx0⟩
      have hlenset : (c0.esSenders_.set c0.lastSenderIndex_ (q ++ [r])).length =
          c.esSenders_.length := by rw [List.length_set, f2]
      have hnext : (if c0.lastSenderIndex_ + 1 ≥ c0.esSenders_.length then 0
          else c0.lastSenderIndex_ + 1) = (c.lastSenderIndex_ + 1) % c.esSenders_.length := by
        rw [f2, f3]
        by_cases hge : c.lastSenderIndex_ + 1 ≥ c.esSenders_.length
        · rw [if_pos hge]
          have : c.lastSenderIndex_ + 1 = c.esSenders_.length := by omega
          rw [this, Nat.mod_self]
        · rw [if_neg hge, Nat.mod_eq_of_lt (by omega)]
      obtain ⟨c1, h1, h2, h3, h4, h5⟩ :=
        ih { c0 with
             pipeWrites := c0.pipeWrites + 1,
             esSenders_ := c0.esSenders_.set c0.lastSenderIndex_ (q ++ [r]),
             lastSenderIndex_ := (c.lastSenderIndex_ + 1) % c.esSenders_.length }
          (by show c0.esMaxConns = max; rw [f6, hc])
          (by
            show (c.lastSenderIndex_ + 1) % c.esSenders_.length < _
            rw [hlenset]
            exact Nat.mod_lt _ (by omega))
      have h2a : c1.esSenders_.length = c.esSenders_.length := by rw [h2]; exact hlenset
      refine ⟨c1, ?_, h2a, ?_, ?_, ?_⟩
      · simp only [produceLoop, if_neg hoff, f1, hq, hpipe, hnext, if_true]
        exact h1
      · intro s hs
        have := h3 s (by
          show s < (c0.esSenders_.set c0.lastSenderIndex_ (q ++ [r])).length
          rw [hlenset]; exact hs)
        rw [this]
        have hfil : (r :: rest).filter (fun r => decide (r.off ≠ -1)) =
            r :: rest.filter (fun r => decide (r.off ≠ -1)) := by
          simp [List.filter_cons, hoff]
        rw [hfil]
        show (c0.esSenders_.set c0.lastSenderIndex_ (q ++ [r])).getD s [] ++
          dealt (c0.esSenders_.set c0.lastSenderIndex_ (q ++ [r])).length
            ((c.lastSenderIndex_ + 1) % c.esSenders_.length) s _ = _
        rw [hlenset, dealt_mod]
        simp only [dealt]
        rw [Nat.mod_eq_of_lt hidx]
        have hq2 : q = c.esSenders_.getD c.lastSenderIndex_ [] := by
          rw [f3, f2] at hq
          simp only [List.getD_eq_getElem?_getD]
          rw [List.get?_eq_getElem?] at hq
          rw [hq]
          rfl
        by_cases hs2 : c.lastSenderIndex_ = s
        · subst hs2
          simp only [if_true, List.getD_eq_getElem?_getD]
          rw [f3, f2, List.getElem?_set_self hidx]
          simp only [Option.getD_some, hq2, List.getD_eq_getElem?_getD, List.append_assoc]
        · simp only [if_neg hs2, List.nil_append, List.getD_eq_getElem?_getD]
          rw [f3, f2, List.getElem?_set_ne hs2]
      · rw [h4]
        show c0.destroyed ++ _ = _
        rw [f4]
        simp [List.filter_cons, hoff]
      · have := h5
        rw [hlenset] at this
        exact this

/-- C25 as stated does not hold: it is not so that `produce`, on a running context whose
pipe writes succeed, hands every record of the list to a sender and destroys none.  The
record of an aggregation flush, whose offset is `-1`, is destroyed and reaches no
sender. -/
theorem produce_destroys_flush_record :
    ¬ (∀ (records : List FileRecord) (c : EsCtx), c.running_ = true →
        c.lastSenderIndex_ < c.esSenders_.length →
        ∃ c1 : EsCtx, produce (fun _ => 0) (fun _ => PipeRes.written) 1 records c = some (true, c1) ∧
          c1.destroyed = c.destroyed ∧
          (c1.esSenders_.map List.length).sum =
            (c.esSenders_.map List.length).sum + records.length) := by
  intro h
  obtain ⟨c1, h1, h2, _⟩ := h [flushRecord] testCtx rfl (by decide)
  have h3 : produce (fun _ => 0) (fun _ => PipeRes.written) 1 [flushRecord] testCtx =
      some (true, { testCtx with recvCount := 1, destroyed := [flushRecord] }) := by
    decide
  rw [h3] at h1
  simp only [Option.some.injEq, Prod.mk.injEq, true_and] at h1
  rw [← h1] at h2
  revert h2
  decide

/-- C25, amended: on a running context with `lastSenderIndex_` below the number `n` of
senders, when every pipe write succeeds and every overload ends within `B` rounds of
`flowControl` (loads and `esMaxConns` within the range of a non-negative `int`),
`produce` returns true; the records whose offset is not `-1` are handed out in list
order and in turn, the first to sender `lastSenderIndex_`, each to one sender, at the end
of its queue; the records whose offset is `-1` are destroyed and reach no sender; and
`lastSenderIndex_` stays below `n`. -/
theorem produce_round_robin (loads : Nat → Int) (pipe : Nat → PipeRes) (B fuel : Nat)
    (records : List FileRecord) (c : EsCtx) (hrun : c.running_ = true)
    (hidx : c.lastSenderIndex_ < c.esSenders_.length)
    (hpipe : ∀ k, pipe k = PipeRes.written)
    (hmax : 0 ≤ c.esMaxConns ∧ c.esMaxConns ≤ 2147483647)
    (hrange : ∀ k, 0 ≤ loads k ∧ loads k ≤ 2147483647)
    (hB : ∀ k, ∃ j, j < B ∧ loads (k + j) - c.esMaxConns ≤ 10) (hBmax : B ≤ 2147483647)
    (hfuel : B ≤ fuel) :
    ∃ c1 : EsCtx, produce loads pipe fuel records c = some (true, c1) ∧
      c1.esSenders_.length = c.esSenders_.length ∧
      (∀ s, s < c.esSenders_.length →
        c1.esSenders_.getD s [] =
          c.esSenders_.getD s [] ++
            dealt c.esSenders_.length c.lastSenderIndex_ s
              (records.filter (fun r => decide (r.off ≠ -1)))) ∧
      c1.destroyed = c.destroyed ++ records.filter (fun r => decide (r.off = -1)) ∧
      c1.lastSenderIndex_ < c.esSenders_.length := by
  have hrun1 : ¬ (c.running_ = false) := by rw [hrun]; decide
  obtain ⟨c1, h1, h2, h3, h4, h5⟩ :=
    produceLoop_deals loads pipe B fuel c.esMaxConns hpipe hmax hrange hB hBmax hfuel records
      { c with recvCount := c.recvCount + records.length } rfl hidx
  exact ⟨c1, by simp only [produce, if_neg hrun1, h1], h2, h3, h4, h5⟩

/-- Witness of C25, amended: of the records `testRecord`, `flushRecord`, `testRecord`
given to three senders, the first goes to sender 0, the flush record is destroyed, and
the third goes to sender 1. -/
theorem produce_round_robin_witness :
    (∃ c1 : EsCtx,
      produce (fun _ => 0) (fun _ => PipeRes.written) 1 [testRecord, flushRecord, testRecord]
        testCtx = some (true, c1) ∧
      c1.esSenders_.length = testCtx.esSenders_.length ∧
      (∀ s, s < testCtx.esSenders_.length →
        c1.esSenders_.getD s [] =
          testCtx.esSenders_.getD s [] ++
            dealt testCtx.esSenders_.length testCtx.lastSenderIndex_ s
              ([testRecord, flushRecord, testRecord].filter (fun r => decide (r.off ≠ -1)))) ∧
      c1.destroyed = testCtx.destroyed ++
        [testRecord, flushRecord, testRecord].filter (fun r => decide (r.off = -1)) ∧
      c1.lastSenderIndex_ < testCtx.esSenders_.length) ∧
    (produce (fun _ => 0) (fun _ => PipeRes.written) 1 [testRecord, flushRecord, testRecord]
      testCtx).map (fun r => (r.1, r.2.esSenders_, r.2.destroyed, r.2.lastSenderIndex_)) =
      some (true, [[testRecord], [testRecord], []], [flushRecord], 2) :=
  ⟨produce_round_robin (fun _ => 0) (fun _ => PipeRes.written) 1 1
      [testRecord, flushRecord, testRecord] testCtx rfl (by decide) (fun _ => rfl)
      (by decide) (fun _ => ⟨le_refl _, show (0 : Int) ≤ 2147483647 by decide⟩)
      (fun _ => ⟨0, by decide, show (0 : Int) - 100 ≤ 10 by decide⟩) (by decide)
      (le_refl _),
   by decide⟩

/-! ## The parser on a response with Content-Length -/

theorem deref_next (pre : List Char) (c d : Char) (post : List Char) :
    deref (pre ++ c :: d :: post) (pre.length + 1) = d := by
  have := deref_at (pre ++ [c]) d post
  simpa using this

theorem memWrite_at (pre : List Char) (c x : Char) (post : List Char) :
    memWrite (pre ++ c :: post) pre.length [x] = pre ++ x :: post := by
  simp [memWrite]

theorem statusLineLoop_plain (eof n p : Nat) (field : Int) (start : Nat) (u : EsUrl)
    (h1 : p + 1 ≠ eof) (hw : u.respWant_ = HttpRespWant.STATUS_LINE)
    (hlen : p < u.header_.length) (hsp : deref u.header_ p ≠ ' ')
    (hcr : deref u.header_ p ≠ '\r') :
    statusLineLoop eof (n + 1) p field start u = statusLineLoop eof n (p + 1) field start u := by
  have c1 : ¬ (p + 1 = eof ∨ u.respWant_ ≠ HttpRespWant.STATUS_LINE) := by
    rw [hw]
    simp [h1]
  have c2 : ¬ (u.header_.length ≤ p) := by omega
  have c3 : ¬ (deref u.header_ p = '\r' ∧ deref u.header_ (p + 1) = '\n') := fun h => hcr h.1
  simp only [statusLineLoop, if_neg c1, if_neg c2, if_neg hsp, if_neg c3]

theorem statusLineLoop_skip (eof n : Nat) (seg : List Char) :
    ∀ (done rest : List Char) (field : Int) (start : Nat) (u : EsUrl),
      u.header_ = done ++ (seg ++ rest) → u.respWant_ = HttpRespWant.STATUS_LINE →
      (∀ c ∈ seg, c ≠ ' ' ∧ c ≠ '\r') → done.length + seg.length < eof →
      statusLineLoop eof (n + seg.length) done.length field start u =
        statusLineLoop eof n (done.length + seg.length) field start u := by
  induction seg with
  | nil => intro done rest field start u _ _ _ _; rfl
  | cons c cs ih =>
    intro done rest field start u hh hw hseg hlt
    have hc := hseg c (List.mem_cons_self _ _)
    have hd : deref u.header_ done.length = c := by
      rw [hh]
      exact deref_at done c (cs ++ rest)
    have hlen : done.length < u.header_.length := by
      rw [hh]
      simp
    have e1 : n + (c :: cs).length = (n + cs.length) + 1 := by simp; omega
    simp only [List.length_cons] at hlt
    rw [e1, statusLineLoop_plain eof _ _ field start u (by omega) hw hlen (by rw [hd]; exact hc.1)
      (by rw [hd]; exact hc.2)]
    have := ih (done ++ [c]) rest field start u (by rw [hh]; simp) hw
      (fun x hx => hseg x (List.mem_cons_of_mem _ hx)) (by simp; omega)
    simp only [List.length_append, List.length_singleton] at this
    rw [this]
    simp only [List.length_cons]
    congr 1
    omega

theorem statusLineLoop_reason (eof n : Nat) (seg : List Char) :
    ∀ (done rest : List Char) (field : Int) (start : Nat) (u : EsUrl),
      u.header_ = done ++ (seg ++ rest) → u.respWant_ = HttpRespWant.STATUS_LINE →
      (∀ c ∈ seg, c ≠ '\r') → 2 ≤ field → done.length + seg.length < eof →
      ∃ field1 : Int, 2 ≤ field1 ∧
        statusLineLoop eof (n + seg.length) done.length field start u =
          statusLineLoop eof n (done.length + seg.length) field1 start u := by
  induction seg with
  | nil => intro done rest field start u _ _ _ hf _; exact ⟨field, hf, rfl⟩
  | cons c cs ih =>
    intro done rest field start u hh hw hseg hf hlt
    have hc := hseg c (List.mem_cons_self _ _)
    have hd : deref u.header_ done.length = c := by
      rw [hh]
      exact deref_at done c (cs ++ rest)
    have hlen : done.length < u.header_.length := by
      rw [hh]
      simp
    have e1 : n + (c :: cs).length = (n + cs.length) + 1 := by simp; omega
    simp only [List.length_cons] at hlt
    have e2 : done.length + (cs.length + 1) = (done ++ [c]).length + cs.length := by
      simp; omega
    by_cases hsp : c = ' '
    · have c1 : ¬ (done.length + 1 = eof ∨ u.respWant_ ≠ HttpRespWant.STATUS_LINE) := by
        rw [hw]
        simp
        omega
      have c2 : ¬ (u.header_.length ≤ done.length) := by omega
      have c3 : deref u.header_ done.length = ' ' := by rw [hd, hsp]
      have c4 : ¬ (field + 1 = 1) := by omega
      have c5 : ¬ (field + 1 = 2) := by omega
      obtain ⟨f1, hf1, h1⟩ := ih (done ++ [c]) rest (field + 1) start u (by rw [hh]; simp) hw
        (fun x hx => hseg x (List.mem_cons_of_mem _ hx)) (by omega) (by simp; omega)
      refine ⟨f1, hf1, ?_⟩
      rw [e1]
      simp only [statusLineLoop, if_neg c1, if_neg c2, if_pos c3, if_neg c4, if_neg c5]
      simp only [List.length_append, List.length_singleton] at h1
      rw [h1, List.length_cons, e2]
      simp
    · obtain ⟨f1, hf1, h1⟩ := ih (done ++ [c]) rest field start u (by rw [hh]; simp) hw
        (fun x hx => hseg x (List.mem_cons_of_mem _ hx)) hf (by simp; omega)
      refine ⟨f1, hf1, ?_⟩
      rw [e1, statusLineLoop_plain eof _ _ field start u (by omega) hw hlen
        (by rw [hd]; exact hsp) (by rw [hd]; exact hc)]
      simp only [List.length_append, List.length_singleton] at h1
      rw [h1, List.length_cons, e2]
      simp

theorem statusLineLoop_done (eof m p : Nat) (field : Int) (start : Nat) (u : EsUrl)
    (h : u.respWant_ ≠ HttpRespWant.STATUS_LINE) :
    statusLineLoop eof (m + 1) p field start u = some u := by
  have c : (p + 1 = eof ∨ u.respWant_ ≠ HttpRespWant.STATUS_LINE) := Or.inr h
  simp only [statusLineLoop, if_pos c]

theorem statusLineLoop_crlf (eof n p : Nat) (field : Int) (start : Nat) (u : EsUrl)
    (h1 : p + 1 ≠ eof) (hw : u.respWant_ = HttpRespWant.STATUS_LINE)
    (hlen : p < u.header_.length) (hd1 : deref u.header_ p = '\r')
    (hd2 : deref u.header_ (p + 1) = '\n') :
    statusLineLoop eof (n + 1) p field start u =
      statusLineLoop eof n (p + 1) field start
        { u with respWant_ := HttpRespWant.HEADER, resp_ := p + 2 } := by
  have c1 : ¬ (p + 1 = eof ∨ u.respWant_ ≠ HttpRespWant.STATUS_LINE) := by
    rw [hw]
    simp [h1]
  have c2 : ¬ (u.header_.length ≤ p) := by omega
  have c3 : ¬ (deref u.header_ p = ' ') := by rw [hd1]; decide
  have c4 : deref u.header_ p = '\r' ∧ deref u.header_ (p + 1) = '\n' := ⟨hd1, hd2⟩
  simp only [statusLineLoop, if_neg c1, if_neg c2, if_neg c3, if_pos c4]

theorem initHttpResponseStatusLine_ok (u : EsUrl) (eof : Nat) (ver code reason rest : List Char)
    (hh : u.header_ = ver ++ ' ' :: (code ++ ' ' :: (reason ++ '\r' :: '\n' :: rest)))
    (hr : u.resp_ = 0) (hw : u.respWant_ = HttpRespWant.STATUS_LINE)
    (hver : ∀ c ∈ ver, c ≠ ' ' ∧ c ≠ '\r') (hcode : ∀ c ∈ code, c.isDigit = true)
    (hreason : ∀ c ∈ reason, c ≠ '\r')
    (heof : ver.length + 1 + code.length + 1 + reason.length + 1 < eof) :
    initHttpResponseStatusLine u eof =
      some { u with
        header_ := ver ++ ' ' :: (code ++ NUL :: (reason ++ '\r' :: '\n' :: rest)),
        respCode_ := toInt code,
        respWant_ := HttpRespWant.HEADER,
        resp_ := ver.length + 1 + code.length + 1 + reason.length + 2 } := by
  have hcode2 : ∀ c ∈ code, c ≠ ' ' ∧ c ≠ '\r' := by
    intro c hc
    have := hcode c hc
    constructor
    · intro e
      rw [e] at this
      revert this
      decide
    · intro e
      rw [e] at this
      revert this
      decide
  have hcode3 : ∀ c ∈ code, c ≠ NUL := by
    intro c hc e
    have := hcode c hc
    rw [e] at this
    revert this
    decide
  have hfuel : u.header_.length + 1 =
      (((((((rest.length + 1) + 1) + 1) + reason.length) + 1) + code.length) + 1) + ver.length := by
    rw [hh]
    simp
    omega
  unfold initHttpResponseStatusLine
  rw [hfuel, hr]
  -- the version
  have s1 := statusLineLoop_skip eof
    ((((((rest.length + 1) + 1) + 1) + reason.length) + 1) + code.length + 1) ver [] _ 0 0 u
    (by simpa using hh) hw hver (by simp; omega)
  simp only [List.length_nil, Nat.zero_add] at s1
  rw [s1]
  -- the first space
  have hlen1 : ver.length < u.header_.length := by rw [hh]; simp
  have hd1 : deref u.header_ ver.length = ' ' := by rw [hh]; exact deref_at ver ' ' _
  have c1 : ¬ (ver.length + 1 = eof ∨ u.respWant_ ≠ HttpRespWant.STATUS_LINE) := by
    rw [hw]
    simp
    omega
  have c2 : ¬ (u.header_.length ≤ ver.length) := by omega
  have s2 : statusLineLoop eof ((((((rest.length + 1) + 1) + 1) + reason.length) + 1) + code.length + 1)
      ver.length 0 0 u =
      statusLineLoop eof ((((((rest.length + 1) + 1) + 1) + reason.length) + 1) + code.length)
        (ver.length + 1) 1 (ver.length + 1) u := by
    simp only [statusLineLoop, if_neg c1, if_neg c2, if_pos hd1]
    rfl
  rw [s2]
  -- the code
  have s3 := statusLineLoop_skip eof (((((rest.length + 1) + 1) + 1) + reason.length) + 1) code
    (ver ++ [' ']) (' ' :: (reason ++ '\r' :: '\n' :: rest)) 1 (ver.length + 1) u
    (by rw [hh]; simp) hw hcode2 (by simp; omega)
  simp only [List.length_append, List.length_singleton] at s3
  rw [s3]
  -- the second space
  have hh2 : u.header_ = (ver ++ ' ' :: code) ++ ' ' :: (reason ++ '\r' :: '\n' :: rest) := by
    rw [hh]; simp
  have hp2 : (ver ++ ' ' :: code).length = ver.length + 1 + code.length := by simp; omega
  have hlen2 : ver.length + 1 + code.length < u.header_.length := by rw [hh]; simp; omega
  have hd2 : deref u.header_ (ver.length + 1 + code.length) = ' ' := by
    rw [hh2, ← hp2]
    exact deref_at _ ' ' _
  have hm2 : memWrite u.header_ (ver.length + 1 + code.length) [NUL] =
      ver ++ ' ' :: (code ++ NUL :: (reason ++ '\r' :: '\n' :: rest)) := by
    rw [hh2, ← hp2, memWrite_at]
    simp
  have hz2 : stringZ (ver ++ ' ' :: (code ++ NUL :: (reason ++ '\r' :: '\n' :: rest)))
      (ver.length + 1) = code := by
    have := stringZ_at (ver ++ [' ']) code (reason ++ '\r' :: '\n' :: rest) hcode3
    simpa using this
  have c3 : ¬ (ver.length + 1 + code.length + 1 = eof ∨
      u.respWant_ ≠ HttpRespWant.STATUS_LINE) := by
    rw [hw]
    simp
    omega
  have c4 : ¬ (u.header_.length ≤ ver.length + 1 + code.length) := by omega
  have s4 : statusLineLoop eof (((((rest.length + 1) + 1) + 1) + reason.length) + 1)
      (ver.length + 1 + code.length) 1 (ver.length + 1) u =
      statusLineLoop eof ((((rest.length + 1) + 1) + 1) + reason.length)
        (ver.length + 1 + code.length + 1) 2 (ver.length + 1)
        { u with header_ := ver ++ ' ' :: (code ++ NUL :: (reason ++ '\r' :: '\n' :: rest)),
                 respCode_ := toInt code } := by
    simp only [statusLineLoop, if_neg c3, if_neg c4, if_pos hd2, hm2, hz2]
    rfl
  rw [s4]
  -- the reason
  obtain ⟨f1, _, s5⟩ := statusLineLoop_reason eof (((rest.length + 1) + 1) + 1) reason
    (ver ++ ' ' :: (code ++ [NUL])) ('\r' :: '\n' :: rest) 2 (ver.length + 1)
    { u with header_ := ver ++ ' ' :: (code ++ NUL :: (reason ++ '\r' :: '\n' :: rest)),
             respCode_ := toInt code }
    (by simp) hw hreason (le_refl _) (by simp; omega)
  have hp5 : (ver ++ ' ' :: (code ++ [NUL])).length = ver.length + 1 + code.length + 1 := by
    simp; omega
  rw [hp5] at s5
  rw [s5]
  -- the end of the line
  have hp6 : (ver ++ ' ' :: (code ++ NUL :: reason)).length =
      ver.length + 1 + code.length + 1 + reason.length := by simp; omega
  have hh6 : ver ++ ' ' :: (code ++ NUL :: (reason ++ '\r' :: '\n' :: rest)) =
      (ver ++ ' ' :: (code ++ NUL :: reason)) ++ '\r' :: '\n' :: rest := by simp
  have hd6 : deref (ver ++ ' ' :: (code ++ NUL :: (reason ++ '\r' :: '\n' :: rest)))
      (ver.length + 1 + code.length + 1 + reason.length) = '\r' := by
    rw [hh6, ← hp6]
    exact deref_at _ '\r' _
  have hd7 : deref (ver ++ ' ' :: (code ++ NUL :: (reason ++ '\r' :: '\n' :: rest)))
      (ver.length + 1 + code.length + 1 + reason.length + 1) = '\n' := by
    rw [hh6, ← hp6]
    exact deref_next _ '\r' '\n' _
  rw [statusLineLoop_crlf eof _ _ f1 _
    { u with header_ := ver ++ ' ' :: (code ++ NUL :: (reason ++ '\r' :: '\n' :: rest)),
             respCode_ := toInt code }
    (by omega) hw (by simp; omega) hd6 hd7]
  refine statusLineLoop_done eof _ _ f1 _ _ ?_
  show HttpRespWant.HEADER ≠ HttpRespWant.STATUS_LINE
  decide

theorem takeWhile_nul (seg rest : List Char) :
    (seg ++ NUL :: rest).takeWhile (fun c => c != NUL) = seg.takeWhile (fun c => c != NUL) := by
  induction seg with
  | nil => simp [List.takeWhile]
  | cons c cs ih =>
    by_cases hc : c = NUL
    · simp [List.takeWhile, hc]
    · have hb : (c != NUL) = true := by simpa using hc
      simp [List.takeWhile, hb, ih]

theorem stringZ_cstr (pre seg rest : List Char) :
    stringZ (pre ++ (seg ++ NUL :: rest)) pre.length = c_str seg := by
  simp only [stringZ, List.drop_left, c_str]
  exact takeWhile_nul seg rest

theorem c_str_idem (s : Str) : c_str (c_str s) = c_str s := by
  unfold c_str
  induction s with
  | nil => rfl
  | cons c cs ih =>
    by_cases hc : c = NUL
    · simp [List.takeWhile, hc]
    · have hb : (c != NUL) = true := by simpa using hc
      simp [List.takeWhile, hb, ih]

theorem strcaseEq_cstr (a b : Str) : strcaseEq (c_str a) b = strcaseEq a b := by
  unfold strcaseEq
  rw [c_str_idem]

theorem headerLoop_name (eof n p key value : Nat) (u : EsUrl)
    (h1 : p + 1 ≠ eof) (hlen : p < u.header_.length) (hco : deref u.header_ p ≠ ':')
    (hcr : deref u.header_ p ≠ '\r') :
    headerLoop eof (n + 1) p HttpRespWant.HEADER_NAME key value u =
      headerLoop eof n (p + 1) HttpRespWant.HEADER_NAME key value u := by
  have c2 : ¬ (u.header_.length ≤ p) := by omega
  have c3 : ¬ (deref u.header_ p = '\r' ∧ deref u.header_ (p + 1) = '\n') := fun h => hcr h.1
  simp only [headerLoop, if_neg h1, if_neg c2, if_true, if_neg hco, if_neg c3]

theorem headerLoop_value (eof n p key value : Nat) (u : EsUrl)
    (h1 : p + 1 ≠ eof) (hlen : p < u.header_.length) (hcr : deref u.header_ p ≠ '\r') :
    headerLoop eof (n + 1) p HttpRespWant.HEADER_VALUE key value u =
      headerLoop eof n (p + 1) HttpRespWant.HEADER_VALUE key value u := by
  have c2 : ¬ (u.header_.length ≤ p) := by omega
  have c3 : ¬ (deref u.header_ p = '\r' ∧ deref u.header_ (p + 1) = '\n') := fun h => hcr h.1
  have c4 : ¬ (HttpRespWant.HEADER_VALUE = HttpRespWant.HEADER_NAME) := by decide
  simp only [headerLoop, if_neg h1, if_neg c2, if_neg c4, if_true, if_neg c3]

theorem headerLoop_nameSkip (eof n key value : Nat) (seg : List Char) :
    ∀ (done rest : List Char) (u : EsUrl),
      u.header_ = done ++ (seg ++ rest) → (∀ c ∈ seg, c ≠ ':' ∧ c ≠ '\r') →
      done.length + seg.length < eof →
      headerLoop eof (n + seg.length) done.length HttpRespWant.HEADER_NAME key value u =
        headerLoop eof n (done.length + seg.length) HttpRespWant.HEADER_NAME key value u := by
  induction seg with
  | nil => intro done rest u _ _ _; rfl
  | cons c cs ih =>
    intro done rest u hh hseg hlt
    have hc := hseg c (List.mem_cons_self _ _)
    have hd : deref u.header_ done.length = c := by
      rw [hh]
      exact deref_at done c (cs ++ rest)
    have hlen : done.length < u.header_.length := by
      rw [hh]
      simp
    have e1 : n + (c :: cs).length = (n + cs.length) + 1 := by simp; omega
    simp only [List.length_cons] at hlt
    rw [e1, headerLoop_name eof _ _ key value u (by omega) hlen (by rw [hd]; exact hc.1)
      (by rw [hd]; exact hc.2)]
    have := ih (done ++ [c]) rest u (by rw [hh]; simp)
      (fun x hx => hseg x (List.mem_cons_of_mem _ hx)) (by simp; omega)
    simp only [List.length_append, List.length_singleton] at this
    rw [this]
    simp only [List.length_cons]
    congr 1
    omega

theorem headerLoop_valueSkip (eof n key value : Nat) (seg : List Char) :
    ∀ (done rest : List Char) (u : EsUrl),
      u.header_ = done ++ (seg ++ rest) → (∀ c ∈ seg, c ≠ '\r') →
      done.length + seg.length < eof →
      headerLoop eof (n + seg.length) done.length HttpRespWant.HEADER_VALUE key value u =
        headerLoop eof n (done.length + seg.length) HttpRespWant.HEADER_VALUE key value u := by
  induction seg with
  | nil => intro done rest u _ _ _; rfl
  | cons c cs ih =>
    intro done rest u hh hseg hlt
    have hc := hseg c (List.mem_cons_self _ _)
    have hd : deref u.header_ done.length = c := by
      rw [hh]
      exact deref_at done c (cs ++ rest)
    have hlen : done.length < u.header_.length := by
      rw [hh]
      simp
    have e1 : n + (c :: cs).length = (n + cs.length) + 1 := by simp; omega
    simp only [List.length_cons] at hlt
    rw [e1, headerLoop_value eof _ _ key value u (by omega) hlen (by rw [hd]; exact hc)]
    have := ih (done ++ [c]) rest u (by rw [hh]; simp)
      (fun x hx => hseg x (List.mem_cons_of_mem _ hx)) (by simp; omega)
    simp only [List.length_append, List.length_singleton] at this
    rw [this]
    simp only [List.length_cons]
    congr 1
    omega

theorem headerLoop_colon (eof n key value : Nat) (done rest : List Char) (u : EsUrl)
    (hh : u.header_ = done ++ ':' :: rest) (h1 : done.length + 1 ≠ eof) :
    headerLoop eof (n + 1) done.length HttpRespWant.HEADER_NAME key value u =
      headerLoop eof n (done.length + 1) HttpRespWant.HEADER_VALUE key (done.length + 1)
        { u with header_ := done ++ NUL :: rest } := by
  have c2 : ¬ (u.header_.length ≤ done.length) := by rw [hh]; simp
  have hd : deref u.header_ done.length = ':' := by rw [hh]; exact deref_at done ':' rest
  have hm : memWrite u.header_ done.length [NUL] = done ++ NUL :: rest := by
    rw [hh]
    exact memWrite_at done ':' NUL rest
  simp only [headerLoop, if_neg h1, if_neg c2, if_true, if_pos hd, hm]

theorem headerLoop_valueEnd (eof n key value : Nat) (done rest : List Char) (u : EsUrl)
    (hh : u.header_ = done ++ '\r' :: '\n' :: rest) (h1 : done.length + 1 ≠ eof) :
    headerLoop eof (n + 1) done.length HttpRespWant.HEADER_VALUE key value u =
      headerLoop eof n (done.length + 1) HttpRespWant.HEADER_NAME (done.length + 2) value
        (if strcaseEq (stringZ u.header_ key) "content-length".toList then
          { u with header_ := done ++ NUL :: '\n' :: rest,
                   wantLen_ :=
                     (toInt (c_str (trim (stringZ (done ++ NUL :: '\n' :: rest) value)))).toNat }
         else u) := by
  have c2 : ¬ (u.header_.length ≤ done.length) := by rw [hh]; simp
  have hd : deref u.header_ done.length = '\r' := by rw [hh]; exact deref_at done '\r' _
  have hd2 : deref u.header_ (done.length + 1) = '\n' := by
    rw [hh]
    exact deref_next done '\r' '\n' rest
  have hm : memWrite u.header_ done.length [NUL] = done ++ NUL :: '\n' :: rest := by
    rw [hh]
    exact memWrite_at done '\r' NUL _
  have c4 : ¬ (HttpRespWant.HEADER_VALUE = HttpRespWant.HEADER_NAME) := by decide
  have c5 : deref u.header_ done.length = '\r' ∧ deref u.header_ (done.length + 1) = '\n' :=
    ⟨hd, hd2⟩
  by_cases hm2 : strcaseEq (stringZ u.header_ key) "content-length".toList = true
  · simp only [headerLoop, if_neg h1, if_neg c2, if_neg c4, if_true, if_pos c5, if_pos hm2, hm]
  · simp only [headerLoop, if_neg h1, if_neg c2, if_neg c4, if_true, if_pos c5, if_neg hm2]

theorem headerLoop_blank (eof n key value : Nat) (done rest : List Char) (u : EsUrl)
    (hh : u.header_ = done ++ '\r' :: '\n' :: rest) (h1 : done.length + 1 ≠ eof) :
    headerLoop eof (n + 1) done.length HttpRespWant.HEADER_NAME key value u =
      some { u with
        respWant_ := if u.wantLen_ > 0 then HttpRespWant.BODY else HttpRespWant.BODY_CHUNK_LEN,
        resp_ := done.length + 2 } := by
  have c2 : ¬ (u.header_.length ≤ done.length) := by rw [hh]; simp
  have hd : deref u.header_ done.length = '\r' := by rw [hh]; exact deref_at done '\r' _
  have hd2 : deref u.header_ (done.length + 1) = '\n' := by
    rw [hh]
    exact deref_next done '\r' '\n' rest
  have c3 : ¬ (deref u.header_ done.length = ':') := by rw [hd]; decide
  have c5 : deref u.header_ done.length = '\r' ∧ deref u.header_ (done.length + 1) = '\n' :=
    ⟨hd, hd2⟩
  simp only [headerLoop, if_neg h1, if_neg c2, if_true, if_neg c3, if_pos c5]

theorem headerLoop_line (eof n value : Nat) (h : Str × Str) (done rest : List Char) (u : EsUrl)
    (hh : u.header_ = done ++ (headerLine h ++ rest))
    (hname : ∀ c ∈ h.1, c ≠ ':' ∧ c ≠ '\r') (hval : ∀ c ∈ h.2, c ≠ '\r')
    (hlt : done.length + (headerLine h).length < eof) :
    ∃ (done1 : List Char) (value1 : Nat),
      done1.length = done.length + (headerLine h).length ∧
      headerLoop eof (n + (headerLine h).length) done.length HttpRespWant.HEADER_NAME
          done.length value u =
        headerLoop eof n done1.length HttpRespWant.HEADER_NAME done1.length value1
          { u with
            header_ := done1 ++ rest,
            wantLen_ := if strcaseEq h.1 "content-length".toList then lengthValue h.2
                        else u.wantLen_ } := by
  obtain ⟨name, val⟩ := h
  have hline : (headerLine (name, val)).length = name.length + 1 + val.length + 2 := by
    simp [headerLine]
    omega
  rw [hline] at hlt
  have hh1 : u.header_ = done ++ (name ++ ':' :: (val ++ '\r' :: '\n' :: rest)) := by
    rw [hh]
    simp [headerLine]
  have hfuel : n + (headerLine (name, val)).length =
      ((((n + 1) + 1) + val.length) + 1) + name.length := by
    rw [hline]
    omega
  rw [hfuel]
  -- the name
  rw [headerLoop_nameSkip eof _ done.length value name done _ u hh1 hname (by omega)]
  -- the colon
  have hh2 : u.header_ = (done ++ name) ++ ':' :: (val ++ '\r' :: '\n' :: rest) := by
    rw [hh1]; simp
  have hp2 : (done ++ name).length = done.length + name.length := by simp
  have s2 := headerLoop_colon eof (((n + 1) + 1) + val.length) done.length value (done ++ name)
    (val ++ '\r' :: '\n' :: rest) u hh2 (by rw [hp2]; omega)
  rw [hp2] at s2
  rw [s2]
  -- the value
  have s3 := headerLoop_valueSkip eof ((n + 1) + 1) done.length (done.length + name.length + 1)
    val (done ++ name ++ [NUL]) ('\r' :: '\n' :: rest)
    { u with header_ := (done ++ name) ++ NUL :: (val ++ '\r' :: '\n' :: rest) }
    (by simp) hval (by simp; omega)
  have hp3 : (done ++ name ++ [NUL]).length = done.length + name.length + 1 := by
    simp
    omega
  rw [hp3] at s3
  rw [s3]
  -- the end of the line
  have hp4 : (done ++ name ++ NUL :: val).length = done.length + name.length + 1 + val.length := by
    simp
    omega
  have s4 := headerLoop_valueEnd eof (n + 1) done.length (done.length + name.length + 1)
    (done ++ name ++ NUL :: val) rest
    { u with header_ := (done ++ name) ++ NUL :: (val ++ '\r' :: '\n' :: rest) }
    (by simp) (by rw [hp4]; omega)
  rw [hp4] at s4
  rw [s4]
  have hkey : stringZ ((done ++ name) ++ NUL :: (val ++ '\r' :: '\n' :: rest)) done.length =
      c_str name := by
    have := stringZ_cstr done name (val ++ '\r' :: '\n' :: rest)
    simpa using this
  have hvalz : stringZ ((done ++ name ++ NUL :: val) ++ NUL :: '\n' :: rest)
      (done.length + name.length + 1) = c_str val := by
    have := stringZ_cstr (done ++ name ++ [NUL]) val ('\n' :: rest)
    rw [hp3] at this
    simpa using this
  simp only [hkey, strcaseEq_cstr, hvalz]
  by_cases hm : strcaseEq name "content-length".toList = true
  · simp only [if_pos hm]
    refine ⟨done ++ name ++ NUL :: val ++ [NUL, '\n'], done.length + name.length + 1, ?_, ?_⟩
    · rw [hline]
      simp
      omega
    · have s5 := headerLoop_name eof n (done.length + name.length + 1 + val.length + 1)
        (done.length + name.length + 1 + val.length + 2) (done.length + name.length + 1)
        { u with header_ := (done ++ name ++ NUL :: val) ++ NUL :: '\n' :: rest,
                 wantLen_ := (toInt (c_str (trim (c_str val)))).toNat }
        (by omega) (by simp; omega)
        (by
          have := deref_next (done ++ name ++ NUL :: val) NUL '\n' rest
          rw [hp4] at this
          show deref ((done ++ name ++ NUL :: val) ++ NUL :: '\n' :: rest) _ ≠ ':'
          rw [this]
          decide)
        (by
          have := deref_next (done ++ name ++ NUL :: val) NUL '\n' rest
          rw [hp4] at this
          show deref ((done ++ name ++ NUL :: val) ++ NUL :: '\n' :: rest) _ ≠ '\r'
          rw [this]
          decide)
      rw [s5]
      have e1 : (done ++ name ++ NUL :: val ++ [NUL, '\n']).length =
          done.length + name.length + 1 + val.length + 1 + 1 := by
        simp
        omega
      have e2 : (done ++ name ++ NUL :: val ++ [NUL, '\n']) ++ rest =
          (done ++ name ++ NUL :: val) ++ NUL :: '\n' :: rest := by simp
      rw [e1, e2]
      rfl
  · simp only [if_neg hm]
    refine ⟨done ++ name ++ NUL :: val ++ ['\r', '\n'], done.length + name.length + 1, ?_, ?_⟩
    · rw [hline]
      simp
      omega
    · have s5 := headerLoop_name eof n (done.length + name.length + 1 + val.length + 1)
        (done.length + name.length + 1 + val.length + 2) (done.length + name.length + 1)
        { u with header_ := (done ++ name) ++ NUL :: (val ++ '\r' :: '\n' :: rest) }
        (by omega) (by simp; omega)
        (by
          have := deref_next (done ++ name ++ NUL :: val) '\r' '\n' rest
          rw [hp4] at this
          show deref ((done ++ name) ++ NUL :: (val ++ '\r' :: '\n' :: rest)) _ ≠ ':'
          rw [show (done ++ name) ++ NUL :: (val ++ '\r' :: '\n' :: rest) =
            (done ++ name ++ NUL :: val) ++ '\r' :: '\n' :: rest by simp, this]
          decide)
        (by
          have := deref_next (done ++ name ++ NUL :: val) '\r' '\n' rest
          rw [hp4] at this
          show deref ((done ++ name) ++ NUL :: (val ++ '\r' :: '\n' :: rest)) _ ≠ '\r'
          rw [show (done ++ name) ++ NUL :: (val ++ '\r' :: '\n' :: rest) =
            (done ++ name ++ NUL :: val) ++ '\r' :: '\n' :: rest by simp, this]
          decide)
      rw [s5]
      have e1 : (done ++ name ++ NUL :: val ++ ['\r', '\n']).length =
          done.length + name.length + 1 + val.length + 1 + 1 := by
        simp
        omega
      have e2 : (done ++ name ++ NUL :: val ++ ['\r', '\n']) ++ rest =
          (done ++ name) ++ NUL :: (val ++ '\r' :: '\n' :: rest) := by simp
      rw [e1, e2]

theorem headerLoop_lines (eof n : Nat) (hs : List (Str × Str)) :
    ∀ (done rest : List Char) (value : Nat) (u : EsUrl),
      u.header_ = done ++ ((hs.map headerLine).flatten ++ rest) →
      (∀ h ∈ hs, (∀ c ∈ h.1, c ≠ ':' ∧ c ≠ '\r') ∧ (∀ c ∈ h.2, c ≠ '\r')) →
      done.length + (hs.map headerLine).flatten.length < eof →
      ∃ (done1 : List Char) (value1 : Nat),
        done1.length = done.length + (hs.map headerLine).flatten.length ∧
        headerLoop eof (n + (hs.map headerLine).flatten.length) done.length
            HttpRespWant.HEADER_NAME done.length value u =
          headerLoop eof n done1.length HttpRespWant.HEADER_NAME done1.length value1
            { u with header_ := done1 ++ rest, wantLen_ := declaredFrom u.wantLen_ hs } := by
  induction hs with
  | nil =>
    intro done rest value u hh _ _
    refine ⟨done, value, by simp, ?_⟩
    have e : done ++ rest = u.header_ := by rw [hh]; simp
    simp only [List.map_nil, List.flatten_nil, List.length_nil, Nat.add_zero, declaredFrom,
      List.foldl_nil, e]
  | cons h hs ih =>
    intro done rest value u hh hok hlt
    have hflat : ((h :: hs).map headerLine).flatten =
        headerLine h ++ (hs.map headerLine).flatten := by simp
    rw [hflat] at hh hlt ⊢
    rw [List.length_append] at hlt ⊢
    have hh1 : u.header_ = done ++ (headerLine h ++ ((hs.map headerLine).flatten ++ rest)) := by
      rw [hh]; simp
    obtain ⟨d1, v1, hd1, hs1⟩ := headerLoop_line eof (n + (hs.map headerLine).flatten.length)
      value h done ((hs.map headerLine).flatten ++ rest) u hh1
      (hok h (List.mem_cons_self _ _)).1 (hok h (List.mem_cons_self _ _)).2 (by omega)
    obtain ⟨d2, v2, hd2, hs2⟩ := ih d1 rest v1
      { u with
        header_ := d1 ++ ((hs.map headerLine).flatten ++ rest),
        wantLen_ := if strcaseEq h.1 "content-length".toList then lengthValue h.2
                    else u.wantLen_ }
      rfl (fun x hx => hok x (List.mem_cons_of_mem _ hx)) (by omega)
    refine ⟨d2, v2, by omega, ?_⟩
    have e : n + ((headerLine h).length + (hs.map headerLine).flatten.length) =
        (n + (hs.map headerLine).flatten.length) + (headerLine h).length := by omega
    rw [e, hs1, hs2]
    rfl

theorem later_reads (fuel n : Nat) (later : List (List Char)) :
    ∀ (u : EsUrl), u.offset_ = 0 → u.resp_ = 0 → u.wantLen_ = n →
      u.respWant_ =
        (if u.respBody_.length = n then HttpRespWant.RESP_EOF else HttpRespWant.BODY) →
      u.respBody_.length + later.flatten.length = n →
      ∃ u1 : EsUrl, parseReads fuel later u = some (completeAfter n u.respBody_.length later, u1) ∧
        u1.respBody_ = u.respBody_ ++ later.flatten ∧ u1.respCode_ = u.respCode_ ∧
        u1.wantLen_ = n := by
  induction later with
  | nil =>
    intro u _ _ hw _ _
    exact ⟨u, rfl, by simp, rfl, hw⟩
  | cons b bs ih =>
    intro u ho hr hw hrw htot
    simp only [List.flatten_cons, List.length_append] at htot
    by_cases hdone : u.respBody_.length = n
    · -- the response is complete: the read brings no byte
      have hb : b = [] := by
        apply List.eq_nil_of_length_eq_zero
        omega
      subst hb
      have hrw1 : u.respWant_ = HttpRespWant.RESP_EOF := by rw [hrw, if_pos hdone]
      have hrecv : recvInto u [] = u := by
        simp only [recvInto, memWrite_nothing, List.length_nil, Nat.add_zero]
      obtain ⟨u1, h1, h2, h3, h4⟩ := ih u ho hr hw hrw (by simpa using htot)
      refine ⟨u1, ?_, by simpa using h2, h3, h4⟩
      simp only [parseReads, hrecv, initHttpResponse, if_pos hrw1, h1, completeAfter,
        List.length_nil, Nat.add_zero, hdone, decide_True]
    · have hrw1 : u.respWant_ = HttpRespWant.BODY := by rw [hrw, if_neg hdone]
      have c0 : ¬ ((recvInto u b).respWant_ = HttpRespWant.RESP_EOF) := by
        show ¬ (u.respWant_ = HttpRespWant.RESP_EOF)
        rw [hrw1]
        decide
      have c1 : ¬ ((recvInto u b).respWant_ = HttpRespWant.STATUS_LINE) := by
        show ¬ (u.respWant_ = HttpRespWant.STATUS_LINE)
        rw [hrw1]
        decide
      have c2 : ¬ ((recvInto u b).respWant_ = HttpRespWant.HEADER) := by
        show ¬ (u.respWant_ = HttpRespWant.HEADER)
        rw [hrw1]
        decide
      have c3 : (recvInto u b).respWant_ = HttpRespWant.BODY := hrw1
      have hbody : (bodyPart (recvInto u b) (recvInto u b).offset_).respBody_ =
          u.respBody_ ++ b := by
        have hs : stringN (memWrite u.header_ 0 b) 0 b.length = b := by
          simp [stringN, memWrite]
        by_cases hb : b = []
        · subst hb
          simp [bodyPart, recvInto, ho, hr]
        · have hpos : 0 < b.length := List.length_pos.mpr hb
          have hc : ((b.length : Nat) : Int) - ((0 : Nat) : Int) > 0 := by
            push_cast
            omega
          simp only [bodyPart, recvInto, ho, hr, Nat.zero_add, Nat.sub_zero, hs]
          rw [if_pos hc]
      have hwant : (bodyPart (recvInto u b) (recvInto u b).offset_).respWant_ =
          (if (u.respBody_ ++ b).length = n then HttpRespWant.RESP_EOF
           else HttpRespWant.BODY) := by
        have : (bodyPart (recvInto u b) (recvInto u b).offset_).respWant_ =
            (if (bodyPart (recvInto u b) (recvInto u b).offset_).respBody_.length =
                (recvInto u b).wantLen_ then HttpRespWant.RESP_EOF
             else (recvInto u b).respWant_) := rfl
        have e : (recvInto u b).wantLen_ = n := hw
        rw [this, hbody, c3, e]
      obtain ⟨u1, h1, h2, h3, h4⟩ := ih (bodyPart (recvInto u b) (recvInto u b).offset_)
        rfl rfl hw (by rw [hbody]; exact hwant)
        (by rw [hbody, List.length_append]; omega)
      refine ⟨u1, ?_, ?_, h3, h4⟩
      · rw [hbody, List.length_append] at h1
        simp only [parseReads, initHttpResponse, if_neg c0, if_neg c1, if_neg c2, if_pos c3, h1,
          completeAfter]
        congr 3
        rw [hwant, List.length_append]
        by_cases he : u.respBody_.length + b.length = n
        · simp [he]
        · simp [he]
      · rw [h2, hbody]
        simp

theorem initHttpResponseHeader_ok (u1 : EsUrl) (eof : Nat) (headers : List (Str × Str))
    (done rest : List Char)
    (hh : u1.header_ = done ++ ((headers.map headerLine).flatten ++ '\r' :: '\n' :: rest))
    (hr : u1.resp_ = done.length)
    (hheaders : ∀ h ∈ headers, (∀ c ∈ h.1, c ≠ ':' ∧ c ≠ '\r') ∧ (∀ c ∈ h.2, c ≠ '\r'))
    (heof : done.length + (headers.map headerLine).flatten.length + 1 < eof) :
    ∃ (u2 : EsUrl) (d1 : List Char),
      initHttpResponseHeader u1 eof = some u2 ∧
      d1.length = done.length + (headers.map headerLine).flatten.length ∧
      u2.header_ = d1 ++ '\r' :: '\n' :: rest ∧
      u2.resp_ = d1.length + 2 ∧
      u2.wantLen_ = declaredFrom u1.wantLen_ headers ∧
      u2.respWant_ = (if declaredFrom u1.wantLen_ headers > 0 then HttpRespWant.BODY
                      else HttpRespWant.BODY_CHUNK_LEN) ∧
      u2.respBody_ = u1.respBody_ ∧ u2.respCode_ = u1.respCode_ := by
  obtain ⟨d1, v1, hd1, hl⟩ := headerLoop_lines eof ((done.length + rest.length + 2) + 1)
    headers done ('\r' :: '\n' :: rest) 0 u1 hh hheaders (by omega)
  have hblank := headerLoop_blank eof (done.length + rest.length + 2) d1.length v1 d1 rest
    { u1 with header_ := d1 ++ '\r' :: '\n' :: rest,
              wantLen_ := declaredFrom u1.wantLen_ headers }
    rfl (by omega)
  have hfuel : u1.header_.length + 1 =
      ((done.length + rest.length + 2) + 1) + (headers.map headerLine).flatten.length := by
    rw [hh]
    simp only [List.length_append, List.length_cons]
    omega
  refine ⟨{ u1 with
      header_ := d1 ++ '\r' :: '\n' :: rest,
      wantLen_ := declaredFrom u1.wantLen_ headers,
      respWant_ := if declaredFrom u1.wantLen_ headers > 0 then HttpRespWant.BODY
                   else HttpRespWant.BODY_CHUNK_LEN,
      resp_ := d1.length + 2 }, d1, ?_, hd1, ?_, ?_, ?_, ?_, ?_, ?_⟩
  · unfold initHttpResponseHeader
    rw [hfuel, hr, hl, hblank]
  · rfl
  · rfl
  · rfl
  · rfl
  · rfl
  · rfl

theorem first_read (fuel : Nat) (u : EsUrl) (code reason : Str) (headers : List (Str × Str))
    (b0 : List Char)
    (hw : u.respWant_ = HttpRespWant.STATUS_LINE) (hr : u.resp_ = 0) (ho : u.offset_ = 0)
    (hwl : u.wantLen_ = 0) (hb : u.respBody_ = [])
    (hcode : ∀ c ∈ code, c.isDigit = true) (hreason : ∀ c ∈ reason, c ≠ '\r')
    (hheaders : ∀ h ∈ headers, (∀ c ∈ h.1, c ≠ ':' ∧ c ≠ '\r') ∧ (∀ c ∈ h.2, c ≠ '\r'))
    (hn : 0 < declaredLength headers) :
    ∃ u3 : EsUrl,
      initHttpResponse fuel (recvInto u (responseHead code reason headers ++ b0))
          (recvInto u (responseHead code reason headers ++ b0)).offset_ =
        some (decide (b0.length = declaredLength headers), u3) ∧
      u3.offset_ = 0 ∧ u3.resp_ = 0 ∧ u3.wantLen_ = declaredLength headers ∧
      u3.respBody_ = b0 ∧ u3.respCode_ = toInt code ∧
      u3.respWant_ = (if b0.length = declaredLength headers then HttpRespWant.RESP_EOF
                      else HttpRespWant.BODY) := by
  -- the buffer after the read
  have hhead : responseHead code reason headers =
      "HTTP/1.1".toList ++ ' ' :: (code ++ ' ' :: (reason ++ '\r' :: '\n' ::
        ((headers.map headerLine).flatten ++ ['\r', '\n']))) := rfl
  have hv8 : "HTTP/1.1".toList.length = 8 := by decide
  have hheadlen : (responseHead code reason headers).length =
      8 + 1 + code.length + 1 + reason.length + 2 + (headers.map headerLine).flatten.length + 2 := by
    rw [hhead]
    simp only [List.length_append, List.length_cons, List.length_nil, hv8]
    omega
  have hbuf : (recvInto u (responseHead code reason headers ++ b0)).header_ =
      "HTTP/1.1".toList ++ ' ' :: (code ++ ' ' :: (reason ++ '\r' :: '\n' ::
        ((headers.map headerLine).flatten ++ ('\r' :: '\n' ::
          (b0 ++ u.header_.drop (responseHead code reason headers ++ b0).length))))) := by
    simp only [recvInto, ho, memWrite, List.take_zero, List.nil_append, Nat.zero_add, hhead]
    simp
  have heofv : (recvInto u (responseHead code reason headers ++ b0)).offset_ =
      (responseHead code reason headers).length + b0.length := by
    simp only [recvInto, ho, Nat.zero_add, List.length_append]
  rw [heofv]
  -- the status line
  have h1 := initHttpResponseStatusLine_ok
    (recvInto u (responseHead code reason headers ++ b0))
    ((responseHead code reason headers).length + b0.length) "HTTP/1.1".toList code reason _
    hbuf hr hw (by decide) hcode hreason (by rw [hheadlen, hv8]; omega)
  -- the header block
  have hdone : ("HTTP/1.1".toList ++ ' ' :: (code ++ NUL :: (reason ++ ['\r', '\n']))).length =
      "HTTP/1.1".toList.length + 1 + code.length + 1 + reason.length + 2 := by
    simp only [List.length_append, List.length_cons, List.length_nil]
    omega
  obtain ⟨u2, d1, h2, hd1, hh2, hr2, hwl2, hw2, hb2, hc2⟩ := initHttpResponseHeader_ok
    { recvInto u (responseHead code reason headers ++ b0) with
      header_ := "HTTP/1.1".toList ++ ' ' :: (code ++ NUL :: (reason ++ '\r' :: '\n' ::
        ((headers.map headerLine).flatten ++ ('\r' :: '\n' ::
          (b0 ++ u.header_.drop (responseHead code reason headers ++ b0).length))))),
      respCode_ := toInt code,
      respWant_ := HttpRespWant.HEADER,
      resp_ := "HTTP/1.1".toList.length + 1 + code.length + 1 + reason.length + 2 }
    ((responseHead code reason headers).length + b0.length) headers
    ("HTTP/1.1".toList ++ ' ' :: (code ++ NUL :: (reason ++ ['\r', '\n'])))
    (b0 ++ u.header_.drop (responseHead code reason headers ++ b0).length)
    (by simp) hdone.symm hheaders (by rw [hdone, hheadlen, hv8]; omega)
  have hwl3 : u2.wantLen_ = declaredLength headers := by
    rw [hwl2]
    show declaredFrom u.wantLen_ headers = _
    rw [hwl]
    rfl
  have hw3 : u2.respWant_ = HttpRespWant.BODY := by
    rw [hw2]
    have : declaredFrom u.wantLen_ headers > 0 := by
      rw [hwl]
      exact hn
    exact if_pos this
  have hb3 : u2.respBody_ = [] := by rw [hb2]; exact hb
  -- the body bytes of the first read
  have hd1a : d1.length + 2 + b0.length = (responseHead code reason headers).length + b0.length := by
    rw [hd1, hdone, hheadlen, hv8]
  have hs : stringN u2.header_ u2.resp_
      ((responseHead code reason headers).length + b0.length - u2.resp_) = b0 := by
    rw [hh2, hr2, ← hd1a]
    have e1 : d1.length + 2 + b0.length - (d1.length + 2) = b0.length := by omega
    rw [e1]
    have := stringN_at (d1 ++ ['\r', '\n']) b0
      (u.header_.drop (responseHead code reason headers ++ b0).length)
    simpa using this
  have hbody : (bodyPart u2 ((responseHead code reason headers).length + b0.length)).respBody_ =
      b0 := by
    by_cases hc : (((responseHead code reason headers).length + b0.length : Nat) : Int) -
        (u2.resp_ : Int) > 0
    · simp only [bodyPart, if_pos hc, hs, hb3, List.nil_append]
    · have hb0 : b0 = [] := by
        apply List.eq_nil_of_length_eq_zero
        rw [hr2] at hc
        have := hd1a
        push_cast at hc
        omega
      simp only [bodyPart, if_neg hc, hb3]
      exact hb0.symm
  have hwant : (bodyPart u2 ((responseHead code reason headers).length + b0.length)).respWant_ =
      (if b0.length = declaredLength headers then HttpRespWant.RESP_EOF
       else HttpRespWant.BODY) := by
    have : (bodyPart u2 ((responseHead code reason headers).length + b0.length)).respWant_ =
        (if (bodyPart u2 ((responseHead code reason headers).length + b0.length)).respBody_.length =
            u2.wantLen_ then HttpRespWant.RESP_EOF else u2.respWant_) := rfl
    rw [this, hbody, hwl3, hw3]
  have c0 : ¬ ((recvInto u (responseHead code reason headers ++ b0)).respWant_ =
      HttpRespWant.RESP_EOF) := by
    show ¬ (u.respWant_ = HttpRespWant.RESP_EOF)
    rw [hw]
    decide
  have c1 : (recvInto u (responseHead code reason headers ++ b0)).respWant_ =
      HttpRespWant.STATUS_LINE := hw
  refine ⟨bodyPart u2 ((responseHead code reason headers).length + b0.length), ?_, rfl, rfl,
    hwl3, hbody, ?_, hwant⟩
  · simp only [initHttpResponse, if_neg c0, if_pos c1, h1, if_true, h2, if_pos hw3]
    congr 2
    rw [hwant]
    by_cases he : b0.length = declaredLength headers
    · simp [he]
    · simp [he]
  · show u2.respCode_ = toInt code
    rw [hc2]

/-- C22: let a connection that waits for a response (`respWant_ = STATUS_LINE`, `resp_`
and `offset_` at the head of the buffer, `wantLen_ = 0`, empty `respBody_`) receive, in
its first read, the status line `HTTP/1.1 code reason`, a header block whose names hold
no colon and whose names and values hold no carriage return, the empty line, and the
first bytes `b0` of the body, all of which fit the buffer; let the headers declare the
length `n > 0`, and let the reads `later` bring the rest of the `n` body bytes.  Then
`initHttpResponse`, called after each read, returns true exactly after the reads by which
`n` body bytes have arrived, and at the end `respCode_` is the number of `code`,
`wantLen_` is `n` and `respBody_` is the body, in order. -/
theorem initHttpResponse_content_length (fuel : Nat) (u : EsUrl) (code reason : Str)
    (headers : List (Str × Str)) (b0 : List Char) (later : List (List Char))
    (hw : u.respWant_ = HttpRespWant.STATUS_LINE) (hr : u.resp_ = 0) (ho : u.offset_ = 0)
    (hwl : u.wantLen_ = 0) (hb : u.respBody_ = [])
    (hcode : ∀ c ∈ code, c.isDigit = true) (hreason : ∀ c ∈ reason, c ≠ '\r')
    (hheaders : ∀ h ∈ headers, (∀ c ∈ h.1, c ≠ ':' ∧ c ≠ '\r') ∧ (∀ c ∈ h.2, c ≠ '\r'))
    (hn : 0 < declaredLength headers)
    (hbody : (b0 ++ later.flatten).length = declaredLength headers)
    (_hfit : (responseHead code reason headers ++ b0).length ≤ u.header_.length)
    (_hfits : ∀ b ∈ later, b.length ≤ u.header_.length) :
    ∃ u1 : EsUrl,
      parseReads fuel ((responseHead code reason headers ++ b0) :: later) u =
        some (completeAfter (declaredLength headers) 0 (b0 :: later), u1) ∧
      u1.respCode_ = toInt code ∧ u1.wantLen_ = declaredLength headers ∧
      u1.respBody_ = b0 ++ later.flatten := by
  obtain ⟨u3, h1, ho3, hr3, hwl3, hb3, hc3, hw3⟩ :=
    first_read fuel u code reason headers b0 hw hr ho hwl hb hcode hreason hheaders hn
  obtain ⟨u4, h2, hb4, hc4, hwl4⟩ := later_reads fuel (declaredLength headers) later u3 ho3 hr3
    hwl3 (by rw [hb3]; exact hw3)
    (by rw [hb3, ← hbody, List.length_append])
  refine ⟨u4, ?_, by rw [hc4, hc3], hwl4, by rw [hb4, hb3]⟩
  rw [hb3] at h2
  simp only [parseReads, h1, h2, completeAfter, Nat.zero_add]

/-- Witness of C22: the response `201 Created` with `Content-Length: 5`, read as the head
with the bytes `he`, then `l`, then `lo`, is complete after the third read and not before,
with code 201 and the body `hello`. -/
theorem initHttpResponse_content_length_witness :
    (∃ u1 : EsUrl,
      parseReads 0
        ((responseHead "201".toList "Created".toList
            [("Content-Type".toList, " application/json".toList),
             ("Content-Length".toList, " 5".toList)] ++ "he".toList) ::
          ["l".toList, "lo".toList]) readUrl =
        some (completeAfter
          (declaredLength [("Content-Type".toList, " application/json".toList),
             ("Content-Length".toList, " 5".toList)]) 0
          ("he".toList :: ["l".toList, "lo".toList]), u1) ∧
      u1.respCode_ = toInt "201".toList ∧
      u1.wantLen_ = declaredLength [("Content-Type".toList, " application/json".toList),
             ("Content-Length".toList, " 5".toList)] ∧
      u1.respBody_ = "he".toList ++ ["l".toList, "lo".toList].flatten) ∧
    completeAfter
      (declaredLength [("Content-Type".toList, " application/json".toList),
         ("Content-Length".toList, " 5".toList)]) 0
      ("he".toList :: ["l".toList, "lo".toList]) = [false, false, true] ∧
    toInt "201".toList = 201 :=
  ⟨initHttpResponse_content_length 0 readUrl "201".toList "Created".toList
      [("Content-Type".toList, " application/json".toList),
       ("Content-Length".toList, " 5".toList)] "he".toList ["l".toList, "lo".toList]
      rfl rfl rfl rfl rfl (by decide) (by decide) (by decide) (by decide) (by decide)
      (by decide) (by decide),
   by decide, by decide⟩

end Tail2Kafka
